import Mathlib

/-!
# Sketchybar helpers: delta sampling, rate derivation and ranking

A shallow embedding of the sampling code of the helpers
(`helpers/system_stats/cpu.h`, `helpers/network_load/network.h`,
`helpers/system_stats/system_stats.c`) and theorems about it.

Conventions of the embedding:

* machine integers are `Nat`/`Int` with the wrap-around written out
  (`% 2 ^ 32`, `% 2 ^ 64`);
* a C `double` is a `Double`: a rational that is representable in IEEE-754
  binary64, an infinity or a NaN; every arithmetic operation rounds to nearest,
  ties to even, with the binary64 exponent range;
* the values the operating system hands back (`host_statistics`,
  `host_processor_info`, `sysctl`, `clock_gettime`, `proc_listallpids`, ...)
  are arguments of the embedded functions;
* an operation whose behaviour the C standard leaves undefined (a `double` to
  `int` conversion of a NaN or of a value outside the range of `int`, a signed
  overflow) makes the embedded function return `none`.
-/

namespace Sketchybar

/-! ## IEEE-754 binary64 -/

/-- A value of the C type `double`: a finite value (a rational; the sign of
zero is not tracked), an infinity with its sign (`true` is negative) or a NaN. -/
inductive Double where
  | fin (q : ℚ)
  | inf (neg : Bool)
  | nan
  deriving DecidableEq

/-- Auxiliary halving loop of `natLog2`. -/
def natLog2Fuel : Nat → Nat → Nat
  | 0, _ => 0
  | fuel + 1, n => if n < 2 then 0 else natLog2Fuel fuel (n / 2) + 1

/-- The position of the highest set bit: `⌊log₂ n⌋` for `1 ≤ n`, and `0` for `0`. -/
def natLog2 (n : Nat) : Nat := natLog2Fuel n n

/-- The binary exponent of a positive rational: `⌊log₂ q⌋`. -/
def ilog2 (q : ℚ) : ℤ :=
  let k : ℤ := (natLog2 q.num.natAbs : ℤ) - (natLog2 q.den : ℤ)
  if (2 : ℚ) ^ k ≤ q then k else k - 1

/-- Rounding of a rational to the nearest integer, ties to the even one. -/
def roundNearestEven (q : ℚ) : ℤ :=
  let f := ⌊q⌋
  let r := q - f
  if r < 1 / 2 then f
  else if 1 / 2 < r then f + 1
  else if f % 2 = 0 then f else f + 1

/-- The exponent of the unit in the last place of the binary64 format at `q`:
53 significant bits, and the fixed spacing `2 ^ (-1074)` of the subnormal
range. -/
def ulpExp (q : ℚ) : ℤ := max (ilog2 |q| - 52) (-1074)

/-- Rounding to nearest, ties to even, onto the binary64 grid, before the
overflow test. -/
def round53 (q : ℚ) : ℚ :=
  if q = 0 then 0 else (roundNearestEven (q / 2 ^ ulpExp q) : ℚ) * 2 ^ ulpExp q

namespace Double

/-- The `double` nearest to the rational `q` (round to nearest, ties to even);
a result of magnitude `2 ^ 1024` or more overflows to an infinity. -/
def ofRat (q : ℚ) : Double :=
  if (2 : ℚ) ^ (1024 : ℕ) ≤ |round53 q| then inf (decide (q < 0)) else fin (round53 q)

/-- Conversion of an integer to `double`, as in the C cast `(double)n`. -/
def ofInt (n : ℤ) : Double := ofRat n

/-- Conversion of an unsigned integer to `double`. -/
def ofNat (n : ℕ) : Double := ofRat n

/-- Addition of doubles: `a + b`. -/
def add : Double → Double → Double
  | fin a, fin b => ofRat (a + b)
  | fin _, inf s => inf s
  | inf s, fin _ => inf s
  | inf s, inf t => if s = t then inf s else nan
  | _, _ => nan

/-- Multiplication of doubles: `a * b`. -/
def mul : Double → Double → Double
  | fin a, fin b => ofRat (a * b)
  | fin a, inf s => if a = 0 then nan else inf (xor s (decide (a < 0)))
  | inf s, fin b => if b = 0 then nan else inf (xor s (decide (b < 0)))
  | inf s, inf t => inf (xor s t)
  | _, _ => nan

/-- Division of doubles: `a / b`. A zero divisor is `+0.0`, the only zero
divisor the program produces (the conversion of an unsigned `0`). -/
def div : Double → Double → Double
  | fin a, fin b =>
      if b = 0 then (if a = 0 then nan else inf (decide (a < 0))) else ofRat (a / b)
  | fin _, inf _ => fin 0
  | inf s, fin b => inf (xor s (decide (b < 0)))
  | _, _ => nan

/-- Comparison of doubles: `a < b` (false when either is a NaN). -/
def lt : Double → Double → Bool
  | fin a, fin b => decide (a < b)
  | fin _, inf s => !s
  | inf s, fin _ => s
  | inf s, inf t => s && !t
  | _, _ => false

/-- Comparison of doubles: `a <= b` (false when either is a NaN). -/
def le : Double → Double → Bool
  | fin a, fin b => decide (a ≤ b)
  | fin _, inf s => !s
  | inf s, fin _ => s
  | inf s, inf t => s || !t
  | _, _ => false

/-- Conversion of a `double` to `int` (32 bits), as in `(int)d` and in the
assignment of a `double` to an `int`: the value is truncated toward zero; the
conversion of a NaN, of an infinity or of a value whose truncation is not an
`int` is undefined. -/
def toInt : Double → Option ℤ
  | fin q =>
      let t : ℤ := if 0 ≤ q then ⌊q⌋ else ⌈q⌉
      if -(2 : ℤ) ^ 31 ≤ t ∧ t < (2 : ℤ) ^ 31 then some t else none
  | _ => none

end Double

/-! ## `helpers/system_stats/cpu.h` -/

/-- The constant `MAX_CORES`. -/
def MAX_CORES : ℕ := 32

/-- The Mach constant `PROCESSOR_CPU_LOAD_INFO_COUNT`: the number of words of
one per-core record (`CPU_STATE_MAX` tick counters). -/
def PROCESSOR_CPU_LOAD_INFO_COUNT : ℕ := 4

/-- The tick counters `cpu_ticks[CPU_STATE_MAX]` of a `host_cpu_load_info_data_t`
or of one `processor_cpu_load_info` record, by state (`CPU_STATE_USER`,
`CPU_STATE_SYSTEM`, `CPU_STATE_IDLE`, `CPU_STATE_NICE`). Each is a `natural_t`,
an unsigned 32-bit word. -/
structure CpuTicks where
  user : ℕ
  system : ℕ
  idle : ℕ
  nice : ℕ
  deriving DecidableEq

/-- The counters are 32-bit words. -/
def CpuTicks.WF (t : CpuTicks) : Prop :=
  t.user < 2 ^ 32 ∧ t.system < 2 ^ 32 ∧ t.idle < 2 ^ 32 ∧ t.nice < 2 ^ 32

/-- The fields of `struct cpu` that hold data. (`host` and `count` are the
handle and the word count passed to `host_statistics`.) `prev_core_info` is a
pointer: `none` is `NULL`. -/
structure Cpu where
  load : CpuTicks
  prev_load : CpuTicks
  has_prev_load : Bool
  user_load : ℤ
  sys_load : ℤ
  total_load : ℤ
  ncores : ℕ
  core_loads : List ℤ
  prev_core_info : Option (List CpuTicks)
  prev_core_count : ℕ
  has_prev_core_info : Bool
  deriving DecidableEq

/-- The out-parameters of a successful `host_processor_info` call: the number
of processors, the array of per-core records and its length in words. -/
structure CoreRead where
  ncores : ℕ
  info : List CpuTicks
  info_count : ℕ
  deriving DecidableEq

/-- The difference `cur - prev` of two unsigned 32-bit counters, as C computes
it: modulo `2 ^ 32`. -/
def tick_delta (cur prev : ℕ) : ℕ := (cur + 2 ^ 32 - prev) % 2 ^ 32

/-- The sum of unsigned 32-bit words, modulo `2 ^ 32`. -/
def add32 (a b : ℕ) : ℕ := (a + b) % 2 ^ 32

/-- The sum of two `int`s; a signed overflow is undefined. -/
def addInt (a b : ℤ) : Option ℤ :=
  if -(2 : ℤ) ^ 31 ≤ a + b ∧ a + b < (2 : ℤ) ^ 31 then some (a + b) else none

/-- The expression `(double)delta / (double)total * 100.0` converted to `int`. -/
def percent (delta total : ℕ) : Option ℤ :=
  Double.toInt (Double.mul (Double.div (Double.ofNat delta) (Double.ofNat total)) (Double.fin 100))

/-- The function `cpu_init`; the argument is the memory of the `struct cpu`
before the call, whose `load` and `prev_load` are left as they are. -/
def cpu_init (cpu : Cpu) : Cpu :=
  { cpu with
    has_prev_load := false
    user_load := 0
    sys_load := 0
    total_load := 0
    ncores := 0
    core_loads := List.replicate MAX_CORES 0
    prev_core_info := none
    prev_core_count := 0
    has_prev_core_info := false }

/-- The body of the loop of `cpu_update_cores` for one core: the load computed
from the current and the previous record of the core. -/
def core_load (cur prev : CpuTicks) : Option ℤ :=
  let delta_user := tick_delta cur.user prev.user
  let delta_sys := tick_delta cur.system prev.system
  let delta_idle := tick_delta cur.idle prev.idle
  let delta_nice := tick_delta cur.nice prev.nice
  let total := add32 (add32 (add32 delta_user delta_sys) delta_idle) delta_nice
  if 0 < total then percent (add32 delta_user delta_sys) total else some 0

/-- The loop of `cpu_update_cores` over the indices `i`; reading a record past
the end of an array is undefined. -/
def cores_loop (info prev : List CpuTicks) : List ℕ → List ℤ → Option (List ℤ)
  | [], loads => some loads
  | i :: rest, loads =>
      match info[i]?, prev[i]? with
      | some cur, some prv =>
          match core_load cur prv with
          | some l => cores_loop info prev rest (loads.set i l)
          | none => none
      | _, _ => none

/-- The function `cpu_update_cores`; `read` is what `host_processor_info`
returns, `none` when it fails. -/
def cpu_update_cores (cpu : Cpu) (read : Option CoreRead) : Option Cpu :=
  match read with
  | none => some cpu
  | some r =>
      let ncores := if r.ncores > MAX_CORES then MAX_CORES else r.ncores
      let cpu1 : Cpu := { cpu with ncores := ncores }
      let store (c : Cpu) : Cpu :=
        { c with
          prev_core_info := some r.info
          prev_core_count := r.info_count
          has_prev_core_info := true }
      match cpu1.has_prev_core_info, cpu1.prev_core_info with
      | true, some prev =>
          let prev_n := cpu1.prev_core_count / PROCESSOR_CPU_LOAD_INFO_COUNT
          let prev_n := if prev_n > ncores then ncores else prev_n
          match cores_loop r.info prev (List.range prev_n) cpu1.core_loads with
          | some loads => some (store { cpu1 with core_loads := loads })
          | none => none
      | _, _ => some (store cpu1)

/-- The aggregate part of `cpu_update` after a successful read: the three
percentages from the deltas against `prev_load`. -/
def cpu_update_loads (cpu : Cpu) : Option Cpu :=
  let delta_user := tick_delta cpu.load.user cpu.prev_load.user
  let delta_system := tick_delta cpu.load.system cpu.prev_load.system
  let delta_idle := tick_delta cpu.load.idle cpu.prev_load.idle
  let total := add32 (add32 delta_system delta_user) delta_idle
  match percent delta_user total with
  | none => none
  | some user_load =>
      match percent delta_system total with
      | none => none
      | some sys_load =>
          match addInt user_load sys_load with
          | none => none
          | some total_load =>
              some { cpu with user_load := user_load, sys_load := sys_load, total_load := total_load }

/-- The function `cpu_update`; `stat` is what `host_statistics` stores in
`cpu->load` (`none` when it fails) and `cores` is what `host_processor_info`
returns to `cpu_update_cores`. -/
def cpu_update (cpu : Cpu) (stat : Option CpuTicks) (cores : Option CoreRead) : Option Cpu :=
  match stat with
  | none => some cpu
  | some load =>
      let cpu1 : Cpu := { cpu with load := load }
      match (if cpu1.has_prev_load then cpu_update_loads cpu1 else some cpu1) with
      | none => none
      | some cpu2 =>
          cpu_update_cores { cpu2 with prev_load := cpu2.load, has_prev_load := true } cores

/-! ## `helpers/network_load/network.h` -/

/-- A `struct timespec`. -/
structure Timespec where
  tv_sec : ℤ
  tv_nsec : ℤ
  deriving DecidableEq

/-- The byte counters `ifmd_data.ifi_ibytes` and `ifmd_data.ifi_obytes` of a
`struct ifmibdata`, unsigned 64-bit words. -/
structure IfData where
  ifi_ibytes : ℕ
  ifi_obytes : ℕ
  deriving DecidableEq

/-- The `struct network`. -/
structure Network where
  row : ℕ
  data : IfData
  ts_prev : Timespec
  up_mbps : Double
  down_mbps : Double
  deriving DecidableEq

/-- The function `ifdata`: `sysctl` fills `data`; when it fails (`none`) the
memory is left as it was. -/
def ifdata (data : IfData) (read : Option IfData) : IfData :=
  match read with
  | some d => d
  | none => data

/-- The `struct network` after `memset(net, 0, sizeof(struct network))`. -/
def Network.zero : Network :=
  { row := 0, data := ⟨0, 0⟩, ts_prev := ⟨0, 0⟩, up_mbps := Double.fin 0, down_mbps := Double.fin 0 }

/-- The function `network_init`; `ifname` is `none` for a null pointer, `index`
is what `if_nametoindex` returns and `read` what `sysctl` reads. The result is
the structure and the return value. -/
def network_init (ifname : Option (List Char)) (index : ℕ) (read : Option IfData) : Network × ℤ :=
  let net := Network.zero
  match ifname with
  | none => (net, 0)
  | some [] => (net, 0)
  | some (_ :: _) =>
      let net1 : Network := { net with row := index }
      if net1.row = 0 then (net1, 0)
      else ({ net1 with data := ifdata net1.data read }, 1)

/-- The elapsed time `time_scale` of `network_update`:
`(double)(ts_now.tv_sec - ts_prev.tv_sec) + (double)(ts_now.tv_nsec - ts_prev.tv_nsec) / 1e9`.
The two differences are those of the integers: the timestamps of
`CLOCK_MONOTONIC` are not negative, so the subtractions do not overflow. -/
def time_scale (ts_prev ts_now : Timespec) : Double :=
  Double.add (Double.ofInt (ts_now.tv_sec - ts_prev.tv_sec))
    (Double.div (Double.ofInt (ts_now.tv_nsec - ts_prev.tv_nsec)) (Double.fin 1000000000))

/-- The difference of two unsigned 64-bit counters, modulo `2 ^ 64`. -/
def byte_delta (cur prev : ℕ) : ℕ := (cur + 2 ^ 64 - prev) % 2 ^ 64

/-- The rate of one direction in `network_update`: the byte delta divided by
the elapsed time, clamped when negative, in megabits per second. -/
def mbps (cur prev : ℕ) (scale : Double) : Double :=
  let delta := Double.div (Double.ofNat (byte_delta cur prev)) scale
  let delta := if Double.lt delta (Double.fin 0) then Double.fin 0 else delta
  Double.div (Double.mul delta (Double.fin 8)) (Double.fin 1000000)

/-- The function `network_update`; `ts_now` is what `clock_gettime` returns and
`read` what `sysctl` reads in `ifdata`. -/
def network_update (net : Network) (ts_now : Timespec) (read : Option IfData) : Network :=
  if net.ts_prev.tv_sec = 0 ∧ net.ts_prev.tv_nsec = 0 then { net with ts_prev := ts_now }
  else
    let scale := time_scale net.ts_prev ts_now
    let net1 : Network := { net with ts_prev := ts_now }
    let ibytes_nm1 := net1.data.ifi_ibytes
    let obytes_nm1 := net1.data.ifi_obytes
    let net2 : Network := { net1 with data := ifdata net1.data read }
    if Double.le scale (Double.fin 0) || Double.lt (Double.fin 100) scale then net2
    else
      { net2 with
        down_mbps := mbps net2.data.ifi_ibytes ibytes_nm1 scale
        up_mbps := mbps net2.data.ifi_obytes obytes_nm1 scale }

/-! ## `helpers/system_stats/system_stats.c`: the ranked GPU process list -/

/-- The constant `MAX_TOP_PROCS`. -/
def MAX_TOP_PROCS : ℕ := 10

/-- The record `proc_gpu_info_t`; `name` is the C string that starts at
`name[0]`, as the conversion `%s` reads it. -/
structure proc_gpu_info_t where
  pid : ℤ
  name : List Char
  gpu_time : ℕ
  deriving DecidableEq

/-- The function `compare_gpu_time`, the comparison handed to `qsort`. -/
def compare_gpu_time (a b : proc_gpu_info_t) : ℤ :=
  if b.gpu_time > a.gpu_time then 1
  else if b.gpu_time < a.gpu_time then -1
  else 0

/-- One element of the pid array with what the program reads for it: the value
returned by `get_process_gpu_time` (`0` when the task cannot be read), the
C string `proc_name` leaves in `name` (empty when there is none), and the
bytes `slack` found in memory from `name[255]` of the record on when the
string is read. The program never writes `name[255]`, which holds what
`malloc` returned; these bytes are read only when 255 bytes of the name are
copied without a terminator. -/
structure ProcEntry where
  pid : ℤ
  gpu_time : ℕ
  name : List Char
  slack : List Char
  deriving DecidableEq

/-- What the process directory and the allocator return during one call of
`get_top_gpu_processes`: the count returned by `proc_listallpids(NULL, 0)`,
whether the two `malloc` calls succeed, and the pid array filled by the second
`proc_listallpids` call (empty when it returns no pid). -/
structure ProcRead where
  probe : ℤ
  pids_alloc : Bool
  entries : List ProcEntry
  procs_alloc : Bool
  deriving DecidableEq

/-- The terminator of a C string. -/
def NUL : Char := Char.ofNat 0

/-- The C string held in an array of `char`: the bytes before the first NUL. -/
def cstr (buffer : List Char) : List Char := buffer.takeWhile (fun c => c ≠ NUL)

/-- The C string that starts at `name[0]` of the record after
`strncpy(record.name, name, 255)`. A name shorter than 255 bytes is copied and
padded with NUL bytes. Of a name of 255 bytes or more, 255 bytes are copied
and no terminator is written: the string runs on through the bytes the
allocated memory holds from `name[255]` on, to their first NUL. -/
def stored_name (e : ProcEntry) : List Char :=
  if e.name.length < 255 then e.name else e.name.take 255 ++ cstr e.slack

/-- The body of the collecting loop of `get_top_gpu_processes`: the record
appended to `all_procs` for one pid, `none` where the loop continues without
appending. -/
def gpu_entry (e : ProcEntry) : Option proc_gpu_info_t :=
  if e.pid ≤ 0 then none
  else if e.gpu_time = 0 then none
  else if e.name = [] then none
  else some { pid := e.pid, name := stored_name e, gpu_time := e.gpu_time }

/-- The collecting loop of `get_top_gpu_processes`: the array
`all_procs[0 .. valid_count)`. -/
def gpu_collect (entries : List ProcEntry) : List proc_gpu_info_t :=
  entries.filterMap gpu_entry

/-- The `count` first records of the sorted array, the ones the formatting
loop visits; `qsort` is the library sort called with `compare_gpu_time`. -/
def gpu_ranked (qsort : List proc_gpu_info_t → List proc_gpu_info_t)
    (entries : List ProcEntry) : List proc_gpu_info_t :=
  let all_procs := gpu_collect entries
  let valid_count := all_procs.length
  let count := if valid_count < MAX_TOP_PROCS then valid_count else MAX_TOP_PROCS
  (qsort all_procs).take count

/-- The text the format `"%s%s:%llu"` produces for the record of index `i`. -/
def gpu_pair (i : ℕ) (p : proc_gpu_info_t) : List Char :=
  (if i > 0 then [';'] else []) ++ p.name ++ [':'] ++ Nat.toDigits 10 p.gpu_time

/-- The call `snprintf(buffer + offset, limit, ...)` for a formatted text:
at most `limit - 1` bytes of the text are stored from `offset` on, followed by
a NUL, and the length of the whole text is returned. The `limit` bytes from
`offset` on must lie inside the array; otherwise the call is undefined. -/
def snprintf (buffer : List Char) (offset limit : ℕ) (text : List Char) :
    Option (List Char × ℤ) :=
  if offset + limit ≤ buffer.length then
    if limit = 0 then some (buffer, (text.length : ℤ))
    else
      let stored := text.take (limit - 1)
      some (buffer.take offset ++ stored ++ [NUL] ++ buffer.drop (offset + stored.length + 1),
        (text.length : ℤ))
  else none

/-- The difference of two `size_t` values, modulo `2 ^ 64`. -/
def size_sub (a b : ℕ) : ℕ := (a + 2 ^ 64 - b) % 2 ^ 64

/-- The state of the formatting loop: the array, the running `offset`, and the
record of the `(offset, limit)` arguments of the `snprintf` calls made so far. -/
structure FmtState where
  buffer : List Char
  offset : ℕ
  calls : List (ℕ × ℕ)
  deriving DecidableEq

/-- The formatting loop of `get_top_gpu_processes` over the records that are
left, `i` being the index of the first of them. -/
def gpu_format_loop (bufsize : ℕ) : List proc_gpu_info_t → ℕ → FmtState → Option FmtState
  | [], _, st => some st
  | p :: rest, i, st =>
      if st.offset < size_sub bufsize 1 then
        match snprintf st.buffer st.offset (size_sub bufsize st.offset) (gpu_pair i p) with
        | none => none
        | some (buffer, written) =>
            let offset := if written > 0 then st.offset + written.toNat else st.offset
            gpu_format_loop bufsize rest (i + 1)
              { buffer := buffer
                offset := offset
                calls := st.calls ++ [(st.offset, size_sub bufsize st.offset)] }
      else some st

/-- The formatting part of `get_top_gpu_processes`: `buffer[0] = 0`, then the
loop over the ranked records. Storing into an empty array is undefined. -/
def gpu_format (ranked : List proc_gpu_info_t) (buffer : List Char) (bufsize : ℕ) :
    Option FmtState :=
  match buffer with
  | [] => none
  | _ :: tail => gpu_format_loop bufsize ranked 0 { buffer := NUL :: tail, offset := 0, calls := [] }

/-- The function `get_top_gpu_processes`: the array `buffer` after the call. -/
def get_top_gpu_processes (qsort : List proc_gpu_info_t → List proc_gpu_info_t)
    (read : ProcRead) (buffer : List Char) (bufsize : ℕ) : Option (List Char) :=
  if read.probe ≤ 0 then (snprintf buffer 0 bufsize []).map Prod.fst
  else if read.pids_alloc = false then (snprintf buffer 0 bufsize []).map Prod.fst
  else if read.entries = [] then (snprintf buffer 0 bufsize []).map Prod.fst
  else if read.procs_alloc = false then (snprintf buffer 0 bufsize []).map Prod.fst
  else (gpu_format (gpu_ranked qsort read.entries) buffer bufsize).map FmtState.buffer

/-- A sort that meets the contract of `qsort` for `compare_gpu_time`: insertion
sort with the order `compare_gpu_time a b ≤ 0`. -/
def insertion_qsort (l : List proc_gpu_info_t) : List proc_gpu_info_t :=
  l.insertionSort (fun a b => compare_gpu_time a b ≤ 0)

/-- The serialization the formatting loop aims at: the pairs `name:metric` of
the records, joined by `;`. -/
def gpu_text : ℕ → List proc_gpu_info_t → List Char
  | _, [] => []
  | i, p :: rest => gpu_pair i p ++ gpu_text (i + 1) rest

/-! ## Concrete inputs -/

/-- A `struct cpu` right after `cpu_init` (on memory that held zeros). -/
def cpu_boot : Cpu :=
  cpu_init
    { load := ⟨0, 0, 0, 0⟩, prev_load := ⟨0, 0, 0, 0⟩, has_prev_load := false,
      user_load := 0, sys_load := 0, total_load := 0, ncores := 0, core_loads := [],
      prev_core_info := none, prev_core_count := 0, has_prev_core_info := false }

/-- A `struct cpu` whose previous aggregate snapshot is `prev`. -/
def cpu_after (prev : CpuTicks) : Cpu :=
  { cpu_boot with load := prev, prev_load := prev, has_prev_load := true }

/-- A `struct network` past its baseline call: the counters `data` were read
and the timestamp `ts` was stored by earlier calls. -/
def net_after (data : IfData) (ts : Timespec) : Network :=
  { Network.zero with row := 4, data := data, ts_prev := ts }

/-! ## The rates as the specification states them -/

/-- The elapsed seconds between two timestamps as an exact number:
`(sec_now - sec_prev) + (nsec_now - nsec_prev) / 1e9`. -/
def elapsed_seconds (ts_prev ts_now : Timespec) : ℚ :=
  ((ts_now.tv_sec - ts_prev.tv_sec : ℤ) : ℚ) + ((ts_now.tv_nsec - ts_prev.tv_nsec : ℤ) : ℚ) / 1000000000

/-- The throughput of the specification as an exact number:
`delta_bytes * 8 / 1_000_000 / elapsed_seconds`. -/
def mbps_exact (cur prev : ℕ) (e : ℚ) : ℚ :=
  ((cur - prev : ℕ) : ℚ) * 8 / 1000000 / e

/-- A process the ranking keeps: a positive pid, a non-zero metric and a
non-empty name. -/
def eligible (e : ProcEntry) : Prop := 0 < e.pid ∧ e.gpu_time ≠ 0 ∧ e.name ≠ []

instance (e : ProcEntry) : Decidable (eligible e) := by
  unfold eligible
  infer_instance

/-- The `k` largest metrics among the eligible processes, largest first. -/
def top_metrics (k : ℕ) (entries : List ProcEntry) : List ℕ :=
  (((entries.filter (fun e => decide (eligible e))).map ProcEntry.gpu_time).insertionSort
    (fun a b => a ≥ b)).take k

/-- The process list `[(A,50),(B,200),(C,0),(D,75)]`, with the pids 1 to 4. -/
def example_entries : List ProcEntry :=
  [⟨1, 50, ['A'], []⟩, ⟨2, 200, ['B'], []⟩, ⟨3, 0, ['C'], []⟩, ⟨4, 75, ['D'], []⟩]

/-- A `struct network` past its baseline call that holds rates from an earlier
call. -/
def net_with_rates : Network :=
  { net_after ⟨1000, 1000⟩ ⟨100, 0⟩ with up_mbps := Double.fin (1 / 2), down_mbps := Double.fin 3 }

/-- One pair `name:metric` of the serialization, the metric in unsigned
decimal. -/
def gpu_pair_text (p : proc_gpu_info_t) : List Char :=
  p.name ++ [':'] ++ Nat.toDigits 10 p.gpu_time

/-- The serialization the specification describes: the pairs `name:metric` in
rank order joined by `;`, with no separator before the first or after the
last. -/
def gpu_joined (ranked : List proc_gpu_info_t) : List Char :=
  List.intercalate [';'] (ranked.map gpu_pair_text)

/-- What one call of `get_top_gpu_processes` reads for the process list
`[(A,50),(B,200),(C,0),(D,75)]`. -/
def example_read : ProcRead :=
  { probe := 4, pids_alloc := true, entries := example_entries, procs_alloc := true }

/-- What one call of `get_top_gpu_processes` reads for a single process with
the pid 7, the metric 5 and a name of 255 bytes `A`, when the allocated memory
holds the bytes `x`, `y`, NUL from `name[255]` of its record on. -/
def long_name_read : ProcRead :=
  { probe := 1, pids_alloc := true,
    entries := [⟨7, 5, List.replicate 255 'A', ['x', 'y', NUL]⟩], procs_alloc := true }

/-! ## The per-core deltas as the specification states them -/

/-- No counter of `cur` is below the counter of `prev`. -/
def ticks_le (prev cur : CpuTicks) : Prop :=
  prev.user ≤ cur.user ∧ prev.system ≤ cur.system ∧ prev.idle ≤ cur.idle ∧ prev.nice ≤ cur.nice

/-- The busy ticks of a core between two records: `user_delta + sys_delta`. -/
def core_busy (cur prev : CpuTicks) : ℕ :=
  (cur.user - prev.user) + (cur.system - prev.system)

/-- The total ticks of a core between two records:
`user_delta + sys_delta + idle_delta + nice_delta`. -/
def core_total (cur prev : CpuTicks) : ℕ :=
  (cur.user - prev.user) + (cur.system - prev.system) + (cur.idle - prev.idle)
    + (cur.nice - prev.nice)

/-- A sequence of `cpu_update_cores` calls, one per element of `reads`. -/
def cores_run (cpu : Cpu) : List (Option CoreRead) → Option Cpu
  | [] => some cpu
  | r :: rest =>
      match cpu_update_cores cpu r with
      | some c => cores_run c rest
      | none => none

/-- A `struct cpu` whose previous per-core snapshot is `prev`, with the loads
`loads` in `core_loads`. -/
def cpu_with_cores (prev : List CpuTicks) (loads : List ℤ) : Cpu :=
  { cpu_boot with
    ncores := prev.length, core_loads := loads, prev_core_info := some prev,
    prev_core_count := PROCESSOR_CPU_LOAD_INFO_COUNT * prev.length, has_prev_core_info := true }

/-! ## `helpers/system_stats/system_stats.c`: memory, GPU utilization, temperatures -/

/-- The function `clamp_int`. -/
def clamp_int (value min max : ℤ) : ℤ :=
  if value < min then min
  else if value > max then max
  else value

/-- The page counters of a `vm_statistics64_data_t` that `read_memory_stats`
uses, each an unsigned 32-bit word. -/
structure VmStat where
  active_count : ℕ
  wire_count : ℕ
  compressor_page_count : ℕ
  deriving DecidableEq

/-- What `read_memory_stats` reads: `hw.memsize` from `sysctlbyname`, the
statistics from `host_statistics64` and the page size from `host_page_size`,
each `none` when the call fails. -/
structure MemRead where
  memsize : Option ℕ
  vmstat : Option VmStat
  page_size : Option ℕ
  deriving DecidableEq

/-- The three values `read_memory_stats` stores through its pointers. -/
structure MemStats where
  used_bytes : ℕ
  total_bytes : ℕ
  percent : ℤ
  deriving DecidableEq

/-- The sum of unsigned 64-bit words, modulo `2 ^ 64`. -/
def add64 (a b : ℕ) : ℕ := (a + b) % 2 ^ 64

/-- The product of unsigned 64-bit words, modulo `2 ^ 64`. -/
def mul64 (a b : ℕ) : ℕ := (a * b) % 2 ^ 64

/-- The function `read_memory_stats`; `out_ok` says that the three pointers
are not null. The result is `some none` when the function returns `false`,
`some (some m)` when it returns `true` and stores `m`, and `none` when the
conversion of the percentage to `int` is undefined. -/
def read_memory_stats (out_ok : Bool) (read : MemRead) : Option (Option MemStats) :=
  if out_ok = false then some none
  else
    match read.memsize with
    | none => some none
    | some total =>
        match read.vmstat with
        | none => some none
        | some vmstat =>
            match read.page_size with
            | none => some none
            | some page_size =>
                let used_pages :=
                  add64 (add64 vmstat.active_count vmstat.wire_count) vmstat.compressor_page_count
                let used := mul64 used_pages page_size
                match (if total > 0 then percent used total else some 0) with
                | none => none
                | some pct =>
                    some (some
                      { used_bytes := used, total_bytes := total, percent := clamp_int pct 0 100 })

/-- The function `read_gpu_utilization`; `services` is `none` when
`IOServiceGetMatchingServices` fails, and otherwise lists, for each accelerator
the iterator yields, the `int` read from `Device Utilization %` (or
`Renderer Utilization %`) of its `PerformanceStatistics`, `none` when one of
the lookups fails. -/
def read_gpu_utilization (services : Option (List (Option ℤ))) : ℤ :=
  match services with
  | none => -1
  | some l =>
      let best := l.foldl
        (fun best v =>
          match v with
          | some value => if value > best then value else best
          | none => best) (-1)
      if best ≥ 0 then clamp_int best 0 100 else -1

/-- One HID service as `read_temperatures` sees it: whether it conforms to the
usage page and usage asked for, whether its product name contains `PMU tdie`
or `PMU tdev`, and the value of its temperature event (`none` when there is no
event). -/
structure HidService where
  conforms : Bool
  is_tdie : Bool
  is_tdev : Bool
  event : Option Double
  deriving DecidableEq

/-- The C macro `isfinite`. -/
def Double.isfinite : Double → Bool
  | Double.fin _ => true
  | _ => false

/-- The function `read_hid_service_temperature`. -/
def read_hid_service_temperature (service : HidService) : Double :=
  match service.event with
  | none => Double.fin (-1)
  | some temp =>
      if !Double.isfinite temp || Double.le temp (Double.fin 0) then Double.fin (-1) else temp

/-- The C function `lround`: rounding to the nearest integer, halfway cases
away from zero; the result for a NaN, an infinity or a value outside the range
of `long` is not specified. -/
def Double.lround : Double → Option ℤ
  | Double.fin q =>
      let r : ℤ := if 0 ≤ q then ⌊q + 1 / 2⌋ else -⌊-q + 1 / 2⌋
      if -(2 : ℤ) ^ 63 ≤ r ∧ r < (2 : ℤ) ^ 63 then some r else none
  | _ => none

/-- The conversion of a `long` to `int`: the low 32 bits, read as signed. -/
def long_to_int (n : ℤ) : ℤ := (n + 2 ^ 31) % 2 ^ 32 - 2 ^ 31

/-- The local variables of the loop of `read_temperatures`. -/
structure TempAcc where
  cpu_sum : Double
  cpu_count : ℤ
  gpu_max : Double
  deriving DecidableEq

/-- The body of the loop of `read_temperatures` for one service. -/
def temp_step (acc : TempAcc) (service : HidService) : TempAcc :=
  if service.conforms = false then acc
  else if service.is_tdie || service.is_tdev then
    let temp := read_hid_service_temperature service
    if Double.lt (Double.fin 0) temp then
      let acc1 : TempAcc :=
        if service.is_tdie then
          { acc with cpu_sum := Double.add acc.cpu_sum temp, cpu_count := acc.cpu_count + 1 }
        else acc
      if service.is_tdev && Double.lt acc1.gpu_max temp then { acc1 with gpu_max := temp }
      else acc1
    else acc
  else acc

/-- The function `read_temperatures` (both pointers given): the values of
`*cpu_temp` and `*gpu_temp` after the call. `services` is `none` when
`ensure_hid_services` fails. -/
def read_temperatures (services : Option (List HidService)) : Option (ℤ × ℤ) :=
  match services with
  | none => some (-1, -1)
  | some l =>
      let acc := l.foldl temp_step { cpu_sum := Double.fin 0, cpu_count := 0, gpu_max := Double.fin (-1) }
      match (if acc.cpu_count > 0 then
          (Double.lround (Double.div acc.cpu_sum (Double.ofInt acc.cpu_count))).map long_to_int
        else some (-1)) with
      | none => none
      | some cpu_temp =>
          match (if Double.lt (Double.fin 0) acc.gpu_max then
              (Double.lround acc.gpu_max).map long_to_int
            else some (-1)) with
          | none => none
          | some gpu_temp => some (cpu_temp, gpu_temp)

/-! ## `helpers/system_stats/system_stats.c`: the message of one tick -/

/-- The text of an `int` under the conversion `%d`. -/
def fmt_d (n : ℤ) : List Char :=
  if n < 0 then '-' :: Nat.toDigits 10 n.natAbs else Nat.toDigits 10 n.toNat

/-- The text of an `unsigned long long` under the conversion `%llu`. -/
def fmt_llu (n : ℕ) : List Char := Nat.toDigits 10 n

/-- The decimal digits of `n`, padded with zeros on the left to `width`. -/
def pad_digits (width n : ℕ) : List Char :=
  List.replicate (width - (Nat.toDigits 10 n).length) '0' ++ Nat.toDigits 10 n

/-- The text of a `double` under the conversions `%.1f` and `%.0f` (`prec`
digits after the point): the exact value is rounded to the nearest multiple of
`10 ^ (-prec)`, ties to even. -/
def fmt_f (prec : ℕ) (d : Double) : List Char :=
  match d with
  | Double.fin q =>
      let n := (roundNearestEven (|q| * 10 ^ prec)).toNat
      (if q < 0 then ['-'] else []) ++ Nat.toDigits 10 (n / 10 ^ prec)
        ++ (if prec = 0 then [] else '.' :: pad_digits prec (n % 10 ^ prec))
  | Double.inf s => (if s then ['-'] else []) ++ ['i', 'n', 'f']
  | Double.nan => ['n', 'a', 'n']

/-- The text the format `"%s%d"` produces for the core of index `i`. -/
def core_pair (i : ℕ) (load : ℤ) : List Char :=
  (if i > 0 then [','] else []) ++ fmt_d load

/-- The loop that builds `core_loads_str` in `main`, over the indices that are
left; reading `core_loads` outside the array is undefined. -/
def core_loads_loop (loads : List ℤ) : List ℕ → FmtState → Option FmtState
  | [], st => some st
  | i :: rest, st =>
      match loads[i]? with
      | none => none
      | some load =>
          match snprintf st.buffer st.offset (size_sub 512 st.offset) (core_pair i load) with
          | none => none
          | some (buffer, written) =>
              core_loads_loop loads rest
                { buffer := buffer
                  offset := (st.offset + written.toNat) % 2 ^ 64
                  calls := st.calls ++ [(st.offset, size_sub 512 st.offset)] }

/-- The number of iterations of that loop: the indices `i` with
`i < (int)cpu.ncores && i < MAX_CORES`. -/
def core_loads_count (ncores : ℕ) : ℕ :=
  if ncores % 2 ^ 32 < 2 ^ 31 then min (ncores % 2 ^ 32) MAX_CORES else 0

/-- The construction of `core_loads_str` in `main`: the array of 512 bytes
starts as the empty string. -/
def core_loads_format (ncores : ℕ) (loads : List ℤ) : Option FmtState :=
  core_loads_loop loads (List.range (core_loads_count ncores))
    { buffer := List.replicate 512 NUL, offset := 0, calls := [] }

/-- The comma-separated list of the loads as the specification describes it. -/
def core_loads_joined (loads : List ℤ) : List Char :=
  List.intercalate [','] (loads.map fmt_d)

/-- What the program reads during one iteration of the loop of `main`. -/
structure TickRead where
  cpu_stat : Option CpuTicks
  cores : Option CoreRead
  mem : MemRead
  gpu : Option (List (Option ℤ))
  hid : Option (List HidService)
  procs : ProcRead

/-- The arguments of the `snprintf` call that formats `trigger_message`. -/
structure TriggerArgs where
  event : List Char
  cpu_user : ℤ
  cpu_sys : ℤ
  cpu_total : ℤ
  cpu_ncores : ℤ
  cpu_core_loads : List Char
  mem_used_percent : ℤ
  mem_used_bytes : ℕ
  mem_total_bytes : ℕ
  mem_used_gb : Double
  mem_total_gb : Double
  gpu_util : ℤ
  cpu_temp : ℤ
  gpu_temp : ℤ
  gpu_procs : List Char
  deriving DecidableEq

/-- The conversion of a `natural_t` to `int`. -/
def natural_to_int (n : ℕ) : ℤ :=
  if n % 2 ^ 32 < 2 ^ 31 then ((n % 2 ^ 32 : ℕ) : ℤ) else ((n % 2 ^ 32 : ℕ) : ℤ) - 2 ^ 32

/-- The division `(double)bytes / (1024.0 * 1024.0 * 1024.0)`. -/
def bytes_to_gb (bytes : ℕ) : Double :=
  Double.div (Double.ofNat bytes) (Double.fin (1024 * 1024 * 1024))

/-- One iteration of the loop of `main`, up to the call that formats the
message: the state of `cpu` and of `gpu_procs_buffer` after it, and the
arguments of the format. `event` is `argv[1]`. -/
def main_tick (qsort : List proc_gpu_info_t → List proc_gpu_info_t) (event : List Char)
    (cpu : Cpu) (gpu_procs_buffer : List Char) (read : TickRead) :
    Option (Cpu × List Char × TriggerArgs) :=
  match cpu_update cpu read.cpu_stat read.cores with
  | none => none
  | some cpu1 =>
      match read_memory_stats true read.mem with
      | none => none
      | some mem =>
          let gpu_util := read_gpu_utilization read.gpu
          match read_temperatures read.hid with
          | none => none
          | some (cpu_temp, gpu_temp) =>
              match get_top_gpu_processes qsort read.procs gpu_procs_buffer 2048 with
              | none => none
              | some buffer =>
                  match core_loads_format cpu1.ncores cpu1.core_loads with
                  | none => none
                  | some st =>
                      some (cpu1, buffer,
                        { event := event
                          cpu_user := cpu1.user_load
                          cpu_sys := cpu1.sys_load
                          cpu_total := cpu1.total_load
                          cpu_ncores := natural_to_int cpu1.ncores
                          cpu_core_loads := cstr st.buffer
                          mem_used_percent :=
                            match mem with
                            | some m => m.percent
                            | none => -1
                          mem_used_bytes :=
                            match mem with
                            | some m => m.used_bytes
                            | none => 0
                          mem_total_bytes :=
                            match mem with
                            | some m => m.total_bytes
                            | none => 0
                          mem_used_gb :=
                            match mem with
                            | some m => bytes_to_gb m.used_bytes
                            | none => Double.fin 0
                          mem_total_gb :=
                            match mem with
                            | some m => bytes_to_gb m.total_bytes
                            | none => Double.fin 0
                          gpu_util := gpu_util
                          cpu_temp := cpu_temp
                          gpu_temp := gpu_temp
                          gpu_procs := cstr buffer })

/-- The tokens `key='value'` of the message, in the order of the format. -/
def trigger_tokens (a : TriggerArgs) : List (List Char × List Char) :=
  [(("cpu_user").toList, fmt_d a.cpu_user),
   (("cpu_sys").toList, fmt_d a.cpu_sys),
   (("cpu_total").toList, fmt_d a.cpu_total),
   (("cpu_ncores").toList, fmt_d a.cpu_ncores),
   (("cpu_core_loads").toList, a.cpu_core_loads),
   (("mem_used_percent").toList, fmt_d a.mem_used_percent),
   (("mem_used_bytes").toList, fmt_llu a.mem_used_bytes),
   (("mem_total_bytes").toList, fmt_llu a.mem_total_bytes),
   (("mem_used_gb").toList, fmt_f 1 a.mem_used_gb),
   (("mem_total_gb").toList, fmt_f 0 a.mem_total_gb),
   (("gpu_util").toList, fmt_d a.gpu_util),
   (("cpu_temp").toList, fmt_d a.cpu_temp),
   (("gpu_temp").toList, fmt_d a.gpu_temp),
   (("gpu_procs").toList, a.gpu_procs)]

/-- A timestamp whose two fields are in the range of a signed 64-bit word. -/
def Timespec.WF (t : Timespec) : Prop :=
  -(2 : ℤ) ^ 63 ≤ t.tv_sec ∧ t.tv_sec < 2 ^ 63 ∧ -(2 : ℤ) ^ 63 ≤ t.tv_nsec ∧ t.tv_nsec < 2 ^ 63

/-- A `double` that is `>= 0`: a finite value that is not negative, or `+inf`. -/
def Double.nonneg : Double → Prop
  | Double.fin q => 0 ≤ q
  | Double.inf s => s = false
  | Double.nan => False

/-- A sequence of `network_update` calls, one per element of `steps`: the
clock value and what `sysctl` reads during the call. -/
def network_run (net : Network) : List (Timespec × Option IfData) → Network
  | [] => net
  | step :: rest => network_run (network_update net step.1 step.2) rest

/-! ## Concrete inputs of the per-core and tick theorems -/

/-- A `struct cpu` whose previous per-core snapshot has two cores and whose
32 slots of `core_loads` hold 7. -/
def cores_before : Cpu :=
  cpu_with_cores [⟨0, 0, 0, 0⟩, ⟨0, 0, 0, 0⟩] (List.replicate 32 7)

/-- A `host_processor_info` result with one core, half busy since the
snapshot of `cores_before`. -/
def cores_read : CoreRead :=
  { ncores := 1, info := [⟨50, 0, 50, 0⟩], info_count := 4 }

/-- The `struct cpu` after `cpu_update_cores` on `cores_before` with
`cores_read`. -/
def cores_after : Cpu :=
  { cores_before with
    ncores := 1, core_loads := 50 :: List.replicate 31 7, prev_core_info := some [⟨50, 0, 50, 0⟩],
    prev_core_count := 4, has_prev_core_info := true }

/-- What one tick reads when the aggregate CPU counters advance by 12 user, 5
system and 83 idle ticks and every other source is unavailable: the per-core
read, the three reads of `read_memory_stats`, the accelerator lookup and the
HID services fail, and the size probe of the process list returns 0. -/
def tick_unavailable : TickRead :=
  { cpu_stat := some ⟨1012, 505, 8083, 0⟩
    cores := none
    mem := ⟨none, none, none⟩
    gpu := none
    hid := none
    procs := { probe := 0, pids_alloc := true, entries := [], procs_alloc := true } }

/-- What one tick reads when every source answers without a usable value: one
accelerator has no utilization entry and another holds a negative number, and
of the HID services one does not conform, one `PMU tdie` sensor has no event
and one `PMU tdev` sensor reads -5 degrees; the memory reads succeed except
the page size. -/
def tick_no_reading : TickRead :=
  { cpu_stat := some ⟨1012, 505, 8083, 0⟩
    cores := none
    mem := ⟨some 17179869184, some ⟨200000, 100000, 50000⟩, none⟩
    gpu := some [none, some (-3)]
    hid := some [⟨false, true, true, some (Double.fin 48)⟩, ⟨true, true, false, none⟩,
      ⟨true, false, true, some (Double.fin (-5))⟩]
    procs := { probe := 0, pids_alloc := true, entries := [], procs_alloc := true } }

/-! ## Runs of `cpu_update` -/

/-- A sequence of `cpu_update` calls, one per element of `steps`: what
`host_statistics` and `host_processor_info` return during the call, `none`
for a read that fails. -/
def cpu_run (cpu : Cpu) : List (Option CpuTicks × Option CoreRead) → Option Cpu
  | [] => some cpu
  | step :: rest =>
      match cpu_update cpu step.1 step.2 with
      | some c => cpu_run c rest
      | none => none

/-- The `int` fields of the `struct cpu` hold 32-bit values and `core_loads`
has its `MAX_CORES` slots. -/
def Cpu.WF (cpu : Cpu) : Prop :=
  (-(2 : ℤ) ^ 31 ≤ cpu.user_load ∧ cpu.user_load < 2 ^ 31) ∧
  (-(2 : ℤ) ^ 31 ≤ cpu.sys_load ∧ cpu.sys_load < 2 ^ 31) ∧
  (-(2 : ℤ) ^ 31 ≤ cpu.total_load ∧ cpu.total_load < 2 ^ 31) ∧
  cpu.core_loads.length = MAX_CORES ∧
  ∀ v ∈ cpu.core_loads, -(2 : ℤ) ^ 31 ≤ v ∧ v < 2 ^ 31

/-! ## The memory sizes as the specification states them -/

/-- Four `cpu_update` calls after `cpu_init`: the baseline reading, a reading
12 user, 5 system and 83 idle ticks later with a first per-core snapshot, a
failed aggregate read, and a reading 29 user, 57 system and 14 idle ticks
later with a second per-core snapshot. -/
def cpu_steps : List (Option CpuTicks × Option CoreRead) :=
  [(some ⟨1000, 500, 8000, 0⟩, none),
   (some ⟨1012, 505, 8083, 0⟩, some ⟨2, [⟨100, 50, 800, 0⟩, ⟨200, 60, 700, 5⟩], 8⟩),
   (none, some ⟨2, [⟨110, 50, 890, 0⟩, ⟨200, 60, 700, 5⟩], 8⟩),
   (some ⟨1041, 562, 8097, 0⟩, some ⟨2, [⟨110, 50, 890, 0⟩, ⟨229, 117, 714, 5⟩], 8⟩)]

/-- A `struct cpu` past both baselines: the aggregate snapshot and a per-core
snapshot of two cores are stored. -/
def cpu_tracked : Cpu :=
  { cpu_with_cores [⟨100, 50, 800, 0⟩, ⟨200, 60, 700, 5⟩] (List.replicate 32 0) with
    load := ⟨1012, 505, 8083, 0⟩, prev_load := ⟨1012, 505, 8083, 0⟩, has_prev_load := true }

theorem natLog2Fuel_spec (fuel : ℕ) : ∀ n : ℕ, n ≤ fuel → 1 ≤ n →
    2 ^ natLog2Fuel fuel n ≤ n ∧ n < 2 ^ (natLog2Fuel fuel n + 1) := by
  induction fuel with
  | zero => intro n h1 h2; omega
  | succ fuel ih =>
    intro n hn h1
    unfold natLog2Fuel
    by_cases h2 : n < 2
    · simp only [h2, if_true]
      have : n = 1 := by omega
      subst this
      norm_num
    · simp only [h2, if_false]
      have hh := ih (n / 2) (by omega) (by omega)
      obtain ⟨ha, hb⟩ := hh
      rw [pow_succ] at hb
      constructor
      · rw [pow_succ]; omega
      · rw [pow_succ, pow_succ]; omega

theorem natLog2_spec (n : ℕ) (h : 1 ≤ n) : 2 ^ natLog2 n ≤ n ∧ n < 2 ^ (natLog2 n + 1) :=
  natLog2Fuel_spec n n le_rfl h

theorem ilog2_spec (q : ℚ) (hq : 0 < q) :
    (2 : ℚ) ^ ilog2 q ≤ q ∧ q < (2 : ℚ) ^ (ilog2 q + 1) := by
  have hnum : 0 < q.num := Rat.num_pos.mpr hq
  have hden : 0 < q.den := q.den_pos
  obtain ⟨ha1, ha2⟩ := natLog2_spec q.num.natAbs (by omega)
  obtain ⟨hb1, hb2⟩ := natLog2_spec q.den (by omega)
  have hnq : (q.num.natAbs : ℚ) = (q.num : ℚ) := by
    rw [Nat.cast_natAbs, abs_of_pos hnum]
  have ha1q : (2 : ℚ) ^ natLog2 q.num.natAbs ≤ (q.num : ℚ) := by
    rw [← hnq]; exact_mod_cast ha1
  have ha2q : (q.num : ℚ) < (2 : ℚ) ^ natLog2 q.num.natAbs * 2 := by
    rw [← hnq, ← pow_succ]; exact_mod_cast ha2
  have hb1q : (2 : ℚ) ^ natLog2 q.den ≤ (q.den : ℚ) := by exact_mod_cast hb1
  have hb2q : (q.den : ℚ) < (2 : ℚ) ^ natLog2 q.den * 2 := by
    rw [← pow_succ]; exact_mod_cast hb2
  have hqe : q * (q.den : ℚ) = (q.num : ℚ) := Rat.mul_den_eq_num q
  have h2 : (2 : ℚ) ≠ 0 := by norm_num
  have hpa : (0 : ℚ) < 2 ^ natLog2 q.num.natAbs := by positivity
  have hpb : (0 : ℚ) < 2 ^ natLog2 q.den := by positivity
  have hk : (2 : ℚ) ^ ((natLog2 q.num.natAbs : ℤ) - (natLog2 q.den : ℤ))
      = 2 ^ natLog2 q.num.natAbs / 2 ^ natLog2 q.den := by
    rw [zpow_sub₀ h2, zpow_natCast, zpow_natCast]
  unfold ilog2
  simp only
  generalize natLog2 q.num.natAbs = A at *
  generalize natLog2 q.den = B at *
  split_ifs with hc
  · refine ⟨hc, ?_⟩
    rw [zpow_add₀ h2, hk, zpow_one, div_mul_eq_mul_div, lt_div_iff₀ hpb]
    calc q * 2 ^ B ≤ q * (q.den : ℚ) := by
          apply mul_le_mul_of_nonneg_left hb1q hq.le
      _ = (q.num : ℚ) := hqe
      _ < 2 ^ A * 2 := ha2q
  · push_neg at hc
    constructor
    · rw [zpow_sub₀ h2, hk, zpow_one, div_div, div_le_iff₀ (by positivity)]
      calc (2 : ℚ) ^ A ≤ (q.num : ℚ) := ha1q
        _ = q * (q.den : ℚ) := hqe.symm
        _ ≤ q * (2 ^ B * 2) := by
          apply mul_le_mul_of_nonneg_left hb2q.le hq.le
    · simpa using hc

theorem roundNearestEven_close (q : ℚ) : |(roundNearestEven q : ℚ) - q| ≤ 1 / 2 := by
  have h1 : (⌊q⌋ : ℚ) ≤ q := Int.floor_le q
  have h2 : q < (⌊q⌋ : ℚ) + 1 := Int.lt_floor_add_one q
  unfold roundNearestEven
  simp only
  rw [abs_le]
  split_ifs with ha hb hc
  · constructor <;> linarith
  · push_cast; constructor <;> linarith
  · push_neg at ha hb; constructor <;> linarith
  · push_neg at ha hb; push_cast; constructor <;> linarith

theorem roundNearestEven_intCast (n : ℤ) : roundNearestEven (n : ℚ) = n := by
  unfold roundNearestEven
  simp

theorem roundNearestEven_nonneg (q : ℚ) (hq : 0 ≤ q) : 0 ≤ roundNearestEven q := by
  have h0 : 0 ≤ ⌊q⌋ := Int.floor_nonneg.mpr hq
  unfold roundNearestEven
  simp only
  split_ifs <;> omega

theorem roundNearestEven_nonpos (q : ℚ) (hq : q ≤ 0) : roundNearestEven q ≤ 0 := by
  have h1 : (⌊q⌋ : ℚ) ≤ q := Int.floor_le q
  have h2 : q < (⌊q⌋ : ℚ) + 1 := Int.lt_floor_add_one q
  have h0 : ⌊q⌋ ≤ 0 := by
    have : (⌊q⌋ : ℚ) ≤ 0 := le_trans h1 hq
    exact_mod_cast this
  unfold roundNearestEven
  simp only
  split_ifs with ha hb hc
  · exact h0
  · by_contra hcon
    push_neg at hcon
    have h3 : ⌊q⌋ = 0 := by omega
    rw [h3] at hb
    simp at hb
    linarith
  · exact h0
  · by_contra hcon
    push_neg at hcon
    have h3 : ⌊q⌋ = 0 := by omega
    rw [h3] at hc
    simp at hc

theorem ilog2_ge_of_le (q : ℚ) (hq : 0 < q) (k : ℤ) (h : (2 : ℚ) ^ k ≤ q) : k ≤ ilog2 q := by
  have h1 := (ilog2_spec q hq).2
  have h2 : (2 : ℚ) ^ k < (2 : ℚ) ^ (ilog2 q + 1) := lt_of_le_of_lt h h1
  have h3 := (zpow_lt_zpow_iff_right₀ (by norm_num : (1 : ℚ) < 2)).mp h2
  omega

theorem ilog2_lt_of_lt (q : ℚ) (hq : 0 < q) (k : ℤ) (h : q < (2 : ℚ) ^ k) : ilog2 q < k := by
  have h1 := (ilog2_spec q hq).1
  have h2 : (2 : ℚ) ^ ilog2 q < (2 : ℚ) ^ k := lt_of_le_of_lt h1 h
  exact (zpow_lt_zpow_iff_right₀ (by norm_num : (1 : ℚ) < 2)).mp h2

theorem ulpExp_normal (q : ℚ) (h : (2 : ℚ) ^ (-1022 : ℤ) ≤ |q|) : ulpExp q = ilog2 |q| - 52 := by
  have hpos : 0 < |q| := lt_of_lt_of_le (by positivity) h
  have h1 := ilog2_ge_of_le |q| hpos (-1022) h
  unfold ulpExp
  apply max_eq_left
  omega

theorem round53_abs_err (q : ℚ) : |round53 q - q| ≤ (2 : ℚ) ^ ulpExp q / 2 := by
  unfold round53
  have hp : (0 : ℚ) < 2 ^ ulpExp q := by positivity
  split_ifs with h0
  · subst h0; simp; positivity
  · have h1 := roundNearestEven_close (q / 2 ^ ulpExp q)
    have h2 : (roundNearestEven (q / 2 ^ ulpExp q) : ℚ) * 2 ^ ulpExp q - q
        = ((roundNearestEven (q / 2 ^ ulpExp q) : ℚ) - q / 2 ^ ulpExp q) * 2 ^ ulpExp q := by
      field_simp
    rw [h2, abs_mul, abs_of_pos hp]
    calc |(roundNearestEven (q / 2 ^ ulpExp q) : ℚ) - q / 2 ^ ulpExp q| * 2 ^ ulpExp q
        ≤ 1 / 2 * 2 ^ ulpExp q := mul_le_mul_of_nonneg_right h1 hp.le
      _ = 2 ^ ulpExp q / 2 := by ring

theorem round53_rel_err (q : ℚ) (h : (2 : ℚ) ^ (-1022 : ℤ) ≤ |q|) :
    |round53 q - q| ≤ |q| / 2 ^ 53 := by
  have hpos : 0 < |q| := lt_of_lt_of_le (by positivity) h
  have h1 := round53_abs_err q
  have h2 := (ilog2_spec |q| hpos).1
  rw [ulpExp_normal q h] at h1
  have h3 : (2 : ℚ) ^ (ilog2 |q| - 52) = 2 ^ ilog2 |q| / 2 ^ 52 := by
    rw [zpow_sub₀ (by norm_num : (2 : ℚ) ≠ 0)]; norm_num
  rw [h3] at h1
  calc |round53 q - q| ≤ 2 ^ ilog2 |q| / 2 ^ 52 / 2 := h1
    _ = 2 ^ ilog2 |q| / 2 ^ 53 := by ring
    _ ≤ |q| / 2 ^ 53 := by
      apply div_le_div_of_nonneg_right h2 (by positivity)

theorem round53_nonneg (q : ℚ) (hq : 0 ≤ q) : 0 ≤ round53 q := by
  unfold round53
  split_ifs with h0
  · exact le_rfl
  · have hp : (0 : ℚ) < 2 ^ ulpExp q := by positivity
    have h1 := roundNearestEven_nonneg (q / 2 ^ ulpExp q) (by positivity)
    have h2 : (0 : ℚ) ≤ (roundNearestEven (q / 2 ^ ulpExp q) : ℚ) := by exact_mod_cast h1
    positivity

theorem round53_nonpos (q : ℚ) (hq : q ≤ 0) : round53 q ≤ 0 := by
  unfold round53
  split_ifs with h0
  · exact le_rfl
  · have hp : (0 : ℚ) < 2 ^ ulpExp q := by positivity
    have h1 := roundNearestEven_nonpos (q / 2 ^ ulpExp q) (div_nonpos_of_nonpos_of_nonneg hq hp.le)
    have h2 : (roundNearestEven (q / 2 ^ ulpExp q) : ℚ) ≤ 0 := by exact_mod_cast h1
    exact mul_nonpos_of_nonpos_of_nonneg h2 hp.le

theorem round53_zero : round53 0 = 0 := by
  unfold round53; simp

theorem round53_intCast (n : ℤ) (h : |n| < 2 ^ 53) : round53 (n : ℚ) = n := by
  by_cases h0 : n = 0
  · subst h0; simp [round53_zero]
  have hq0 : (n : ℚ) ≠ 0 := by exact_mod_cast h0
  have hpos : (0 : ℚ) < |(n : ℚ)| := abs_pos.mpr hq0
  have habs1 : (1 : ℚ) ≤ |(n : ℚ)| := by
    have : (1 : ℤ) ≤ |n| := Int.one_le_abs h0
    exact_mod_cast this
  have hlo : (2 : ℚ) ^ (-1022 : ℤ) ≤ |(n : ℚ)| := by
    refine le_trans ?_ habs1
    have := zpow_le_zpow_right₀ (by norm_num : (1 : ℚ) ≤ 2) (by norm_num : (-1022 : ℤ) ≤ 0)
    simpa using this
  have he := ulpExp_normal (n : ℚ) hlo
  have hlt : ilog2 |(n : ℚ)| < 53 := by
    apply ilog2_lt_of_lt _ hpos
    have h53 : |(n : ℚ)| < 2 ^ (53 : ℕ) := by exact_mod_cast h
    rw [← zpow_natCast] at h53
    exact h53
  have hge : 0 ≤ ilog2 |(n : ℚ)| := by
    apply ilog2_ge_of_le _ hpos
    simpa using habs1
  obtain ⟨m, hm⟩ : ∃ m : ℕ, ulpExp (n : ℚ) = -(m : ℤ) := by
    refine ⟨(52 - ilog2 |(n : ℚ)|).toNat, ?_⟩
    rw [he, Int.toNat_of_nonneg (by omega)]
    ring
  unfold round53
  rw [if_neg hq0, hm, zpow_neg, zpow_natCast]
  have h2 : (n : ℚ) / (2 ^ m)⁻¹ = ((n * 2 ^ m : ℤ) : ℚ) := by
    push_cast; field_simp
  rw [h2, roundNearestEven_intCast]
  push_cast
  field_simp

theorem ulpExp_le (q : ℚ) (h0 : q ≠ 0) (h : |q| ≤ (2 : ℚ) ^ (1023 : ℤ)) : ulpExp q ≤ 971 := by
  have hpos : 0 < |q| := abs_pos.mpr h0
  have h1 : ilog2 |q| < 1024 := by
    apply ilog2_lt_of_lt _ hpos
    refine lt_of_le_of_lt h ?_
    exact zpow_lt_zpow_right₀ (by norm_num) (by norm_num)
  unfold ulpExp
  apply max_le <;> omega

theorem ofRat_fin (q : ℚ) (h : |q| ≤ (2 : ℚ) ^ (1023 : ℤ)) :
    Double.ofRat q = Double.fin (round53 q) := by
  unfold Double.ofRat
  rw [if_neg]
  push_neg
  by_cases h0 : q = 0
  · subst h0; rw [round53_zero]; simp
  · have h1 := round53_abs_err q
    have h2 := ulpExp_le q h0 h
    have h3 : (2 : ℚ) ^ ulpExp q ≤ 2 ^ (971 : ℤ) :=
      zpow_le_zpow_right₀ (by norm_num) h2
    have h4 : |round53 q| ≤ |q| + |round53 q - q| := by
      have := abs_add (round53 q - q) q
      simp only [sub_add_cancel] at this
      linarith
    have h5 : (2 : ℚ) ^ (1023 : ℤ) + 2 ^ (971 : ℤ) / 2 < 2 ^ (1024 : ℕ) := by
      norm_num
    linarith

/-! ## The percentage expression -/

theorem round53_bounds (q : ℚ) (hq : 0 ≤ q) (hlo : (2 : ℚ) ^ (-1022 : ℤ) ≤ q) :
    q - q / 2 ^ 53 ≤ round53 q ∧ round53 q ≤ q + q / 2 ^ 53 := by
  have h := round53_rel_err q (by rwa [abs_of_nonneg hq])
  rw [abs_of_nonneg hq, abs_le] at h
  constructor <;> linarith [h.1, h.2]

theorem zpow_1022_le : (2 : ℚ) ^ (-1022 : ℤ) ≤ 1 / 2 ^ 64 := by
  have h := zpow_le_zpow_right₀ (by norm_num : (1 : ℚ) ≤ 2) (by norm_num : (-1022 : ℤ) ≤ -64)
  refine le_trans h (le_of_eq ?_)
  rw [zpow_neg]
  norm_num

theorem le_zpow_1023 : (2 : ℚ) ^ 128 ≤ (2 : ℚ) ^ (1023 : ℤ) := by
  have h := zpow_le_zpow_right₀ (by norm_num : (1 : ℚ) ≤ 2) (by norm_num : (128 : ℤ) ≤ 1023)
  refine le_trans (le_of_eq ?_) h
  norm_num

theorem ofRat_fin_of_le (q : ℚ) (h : |q| ≤ 2 ^ 128) : Double.ofRat q = Double.fin (round53 q) :=
  ofRat_fin q (le_trans h le_zpow_1023)

theorem natCast_lt_two_pow (a n : ℕ) (h : a < 2 ^ n) : (a : ℚ) < 2 ^ n := by
  have h1 : ((a : ℕ) : ℚ) < ((2 ^ n : ℕ) : ℚ) := Nat.cast_lt.mpr h
  rw [Nat.cast_pow] at h1
  exact h1

theorem ofNat_exact (a : ℕ) (h : a < 2 ^ 53) : Double.ofNat a = Double.fin a := by
  unfold Double.ofNat
  have h1 : |((a : ℤ))| < 2 ^ 53 := by
    rw [abs_of_nonneg (Int.natCast_nonneg a)]
    have h1 : ((a : ℕ) : ℤ) < ((2 ^ 53 : ℕ) : ℤ) := Int.ofNat_lt.mpr h
    rw [Nat.cast_pow] at h1
    exact h1
  have h2 := round53_intCast (a : ℤ) h1
  have h3 : |(a : ℚ)| ≤ 2 ^ 128 := by
    rw [abs_of_nonneg (Nat.cast_nonneg a)]
    have := natCast_lt_two_pow a 53 h
    have h4 : (2 : ℚ) ^ 53 ≤ 2 ^ 128 := by norm_num
    linarith
  rw [ofRat_fin_of_le _ h3]
  have h5 : ((a : ℤ) : ℚ) = (a : ℚ) := Int.cast_natCast a
  rw [h5] at h2
  rw [h2]

theorem percent_spec (a t : ℕ) (ht : 0 < t) (ht32 : t < 2 ^ 32) (hat : a ≤ t) :
    ∃ p : ℤ, percent a t = some p ∧ p ≤ ((100 * a / t : ℕ) : ℤ) ∧
      ((100 * a / t : ℕ) : ℤ) ≤ p + 1 ∧ 0 ≤ p ∧
      (¬ t ∣ 100 * a → p = ((100 * a / t : ℕ) : ℤ)) := by
  have htq : (0 : ℚ) < t := by exact_mod_cast ht
  have ht32q : (t : ℚ) < 2 ^ 32 := natCast_lt_two_pow t 32 ht32
  have ht53 : t < 2 ^ 53 := lt_trans ht32 (by norm_num)
  have hatq : (a : ℚ) ≤ t := by exact_mod_cast hat
  have ha0 : (0 : ℚ) ≤ a := by positivity
  unfold percent
  rw [ofNat_exact a (lt_of_le_of_lt hat ht53), ofNat_exact t ht53]
  simp only [Double.div]
  rw [if_neg htq.ne']
  have hx0 : (0 : ℚ) ≤ (a : ℚ) / t := by positivity
  have hx1 : (a : ℚ) / t ≤ 1 := (div_le_one htq).mpr hatq
  rw [ofRat_fin_of_le _ (by rw [abs_of_nonneg hx0]; linarith [show (1 : ℚ) ≤ 2 ^ 128 by norm_num])]
  simp only [Double.mul]
  -- the quotient of the division
  set y := round53 ((a : ℚ) / t) with hy
  have hy0 : 0 ≤ y := round53_nonneg _ hx0
  set k := 100 * a / t with hk
  have hkt : k * t ≤ 100 * a := Nat.div_mul_le_self _ _
  have hkt2 : 100 * a < (k + 1) * t := by
    have h1 := Nat.div_add_mod (100 * a) t
    have h2 := Nat.mod_lt (100 * a) ht
    rw [← hk] at h1
    nlinarith
  have hk100 : k ≤ 100 := by
    rw [hk]
    apply Nat.div_le_of_le_mul
    nlinarith
  have hXk : (k : ℚ) ≤ 100 * (a : ℚ) / t := by
    rw [le_div_iff₀ htq]; exact_mod_cast hkt
  have hXk1 : 100 * (a : ℚ) / t + 1 / t ≤ k + 1 := by
    rw [← add_div, div_le_iff₀ htq]
    have : 100 * a + 1 ≤ (k + 1) * t := hkt2
    exact_mod_cast this
  have hinv : (1 : ℚ) / 2 ^ 32 < 1 / t := by
    apply one_div_lt_one_div_of_lt htq ht32q
  have hXx : 100 * (a : ℚ) / t = 100 * ((a : ℚ) / t) := by ring
  by_cases ha : a = 0
  · -- a zero delta
    have hy00 : y = 0 := by rw [hy, ha]; simp [round53_zero]
    have hk0 : k = 0 := by rw [hk, ha]; simp
    rw [hy00, zero_mul, ofRat_fin_of_le 0 (by simp), round53_zero]
    refine ⟨0, ?_, ?_, ?_, le_rfl, ?_⟩
    · simp [Double.toInt]
    · rw [hk0]; simp
    · rw [hk0]; simp
    · intro _; rw [hk0]; simp
  · have ha1 : (1 : ℚ) ≤ a := by
      have : 1 ≤ a := Nat.one_le_iff_ne_zero.mpr ha
      exact_mod_cast this
    have hxlo : (1 : ℚ) / 2 ^ 32 ≤ (a : ℚ) / t := by
      have h1 : (1 : ℚ) / t ≤ (a : ℚ) / t := div_le_div_of_nonneg_right ha1 htq.le
      linarith
    have hyb := round53_bounds ((a : ℚ) / t) hx0
      (le_trans zpow_1022_le (le_trans (by norm_num) hxlo))
    rw [← hy] at hyb
    have hy100 : (0 : ℚ) ≤ y * 100 := by positivity
    have hylo : (1 : ℚ) / 2 ^ 64 ≤ y * 100 := by
      have h1 : (1 : ℚ) / 2 ^ 32 - 1 / 2 ^ 32 / 2 ^ 53 ≤ y := by linarith [hyb.1]
      have h2 : (1 : ℚ) / 2 ^ 64 ≤ (1 / 2 ^ 32 - 1 / 2 ^ 32 / 2 ^ 53) * 100 := by norm_num
      linarith
    have hzb := round53_bounds (y * 100) hy100 (le_trans zpow_1022_le hylo)
    have hyhi : y * 100 ≤ 2 ^ 128 := by
      have h1 : y ≤ 1 + 1 / 2 ^ 53 := by linarith [hyb.2]
      have h2 : ((1 : ℚ) + 1 / 2 ^ 53) * 100 ≤ 2 ^ 128 := by norm_num
      linarith
    rw [ofRat_fin_of_le _ (by rw [abs_of_nonneg hy100]; exact hyhi)]
    set z := round53 (y * 100) with hz
    have hz0 : 0 ≤ z := round53_nonneg _ hy100
    -- the computed value is within 2 ^ (-44) of the exact percentage
    have hzX1 : z ≤ 100 * (a : ℚ) / t + 1 / 2 ^ 44 := by
      rw [hXx]
      have := hzb.2
      have := hyb.2
      norm_num at *
      linarith
    have hzX2 : 100 * (a : ℚ) / t - 1 / 2 ^ 44 ≤ z := by
      rw [hXx]
      have := hzb.1
      have := hyb.1
      norm_num at *
      linarith
    have hfl1 : ⌊z⌋ ≤ (k : ℤ) := by
      have h1 : z < ((k + 1 : ℤ) : ℚ) := by
        push_cast
        have : (1 : ℚ) / 2 ^ 44 < 1 / 2 ^ 32 := by norm_num
        linarith
      have := Int.floor_lt.mpr h1
      omega
    have hfl2 : (k : ℤ) ≤ ⌊z⌋ + 1 := by
      have h1 : (((k : ℤ) - 1 : ℤ) : ℚ) ≤ z := by
        push_cast
        have : (1 : ℚ) / 2 ^ 44 ≤ 1 := by norm_num
        linarith
      have := Int.le_floor.mpr h1
      omega
    have hfl0 : 0 ≤ ⌊z⌋ := Int.floor_nonneg.mpr hz0
    refine ⟨⌊z⌋, ?_, hfl1, hfl2, hfl0, ?_⟩
    · simp only [Double.toInt, if_pos hz0]
      rw [if_pos]
      constructor
      · omega
      · have : (k : ℤ) ≤ 100 := by exact_mod_cast hk100
        norm_num
        omega
    · intro hdvd
      have hmod : 0 < 100 * a % t := by
        rcases Nat.eq_zero_or_pos (100 * a % t) with h | h
        · exact absurd (Nat.dvd_of_mod_eq_zero h) hdvd
        · exact h
      have hkt3 : k * t + 1 ≤ 100 * a := by
        have h1 := Nat.div_add_mod (100 * a) t
        rw [← hk] at h1
        nlinarith
      have hXk2 : (k : ℚ) + 1 / t ≤ 100 * (a : ℚ) / t := by
        rw [le_div_iff₀ htq, add_mul, one_div, inv_mul_cancel₀ htq.ne']
        exact_mod_cast hkt3
      have h1 : ((k : ℤ) : ℚ) ≤ z := by
        push_cast
        have : (1 : ℚ) / 2 ^ 44 < 1 / 2 ^ 32 := by norm_num
        linarith
      have := Int.le_floor.mpr h1
      omega

/-! ## The aggregate CPU path -/

theorem percent_zero_total (d : ℕ) : percent d 0 = none := by
  unfold percent
  have h0 : Double.ofNat 0 = Double.fin 0 := by
    have := ofNat_exact 0 (by norm_num)
    simpa using this
  rw [h0]
  cases hd : Double.ofNat d with
  | fin q =>
    by_cases hq : q = 0
    · simp [Double.div, Double.mul, Double.toInt, hq]
    · simp [Double.div, Double.mul, Double.toInt, hq]
  | inf s => simp [Double.div, Double.mul, Double.toInt]
  | nan => simp [Double.div, Double.mul, Double.toInt]

theorem cpu_update_cores_frame (cpu c : Cpu) (read : Option CoreRead)
    (h : cpu_update_cores cpu read = some c) :
    c.load = cpu.load ∧ c.prev_load = cpu.prev_load ∧ c.has_prev_load = cpu.has_prev_load ∧
      c.user_load = cpu.user_load ∧ c.sys_load = cpu.sys_load ∧ c.total_load = cpu.total_load := by
  unfold cpu_update_cores at h
  cases read with
  | none => simp at h; subst h; simp
  | some r =>
    simp only at h
    split at h
    · split at h
      · simp at h; subst h; simp
      · simp at h
    · simp at h; subst h; simp

/-- C1: with two identical consecutive readings the tick deltas sum to zero and
`cpu_update` divides zero by zero: the conversion of the NaN to `int` is
undefined, so no percentage is produced, whereas `cpu_update_cores` guards the
same division and yields `0`. -/
theorem cpu_update_identical_readings_undefined :
    cpu_update cpu_boot (some ⟨10, 5, 100, 0⟩) none = some (cpu_after ⟨10, 5, 100, 0⟩) ∧
      cpu_update (cpu_after ⟨10, 5, 100, 0⟩) (some ⟨10, 5, 100, 0⟩) none = none ∧
      core_load ⟨10, 5, 100, 0⟩ ⟨10, 5, 100, 0⟩ = some 0 := by
  decide!

/-- C2 (as stated, refuted): with the deltas user 29, system 0, idle 71 the
total is 100 and `100 * 29 / 100 = 29`, but `cpu_update` stores 28 in
`user_load`: `29.0 / 100.0 * 100.0` is `28.999999999999996` in binary64. And
with the deltas `2 ^ 31`, `2 ^ 31` and 1 the 32-bit total wraps to 1, the
quotient leaves the range of `int` and no percentage is defined, although
`100 * 2 ^ 31 / (2 ^ 32 + 1) = 49`. -/
theorem cpu_update_user_load_off_by_one :
    (cpu_update (cpu_after ⟨1000, 500, 9000, 0⟩) (some ⟨1029, 500, 9071, 0⟩) none).map
        (fun c => (c.user_load, c.sys_load, c.total_load)) = some (28, 0, 28) ∧
      (28 : ℤ) ≠ 100 * (1029 - 1000) / ((1029 - 1000) + (500 - 500) + (9071 - 9000)) ∧
      cpu_update (cpu_after ⟨0, 0, 0, 0⟩) (some ⟨2147483648, 2147483648, 1, 0⟩) none = none ∧
      (100 * 2147483648 / (2147483648 + 2147483648 + 1) : ℤ) = 49 := by
  decide!

/-! ## The aggregate percentages -/

theorem tick_delta_of_le (cur prev : ℕ) (h : prev ≤ cur) (hc : cur < 2 ^ 32) :
    tick_delta cur prev = cur - prev := by
  unfold tick_delta
  omega

theorem add32_of_lt (a b : ℕ) (h : a + b < 2 ^ 32) : add32 a b = a + b := by
  unfold add32
  exact Nat.mod_eq_of_lt h

theorem addInt_of_bounds (a b : ℤ) (ha : 0 ≤ a) (hb : 0 ≤ b) (ha1 : a ≤ 100) (hb1 : b ≤ 100) :
    addInt a b = some (a + b) := by
  unfold addInt
  rw [if_pos]
  constructor
  · norm_num; omega
  · norm_num; omega

/-- C2 (amended): for consecutive aggregate readings with non-decreasing
counters whose deltas sum to a total with `0 < total < 2 ^ 32`, `cpu_update`
computes `user_load` and `sys_load` as the truncation of the binary64 value of
`delta / total * 100.0`: it is `⌊100 * delta / total⌋`, except that it may be
one less when `total` divides `100 * delta`; the state is then handed to
`cpu_update_cores`, which keeps the three percentages. -/
theorem cpu_update_percentages (cpu : Cpu) (load : CpuTicks) (cores : Option CoreRead)
    (hprev : cpu.has_prev_load = true) (hwf : load.WF)
    (hu : cpu.prev_load.user ≤ load.user) (hs : cpu.prev_load.system ≤ load.system)
    (hi : cpu.prev_load.idle ≤ load.idle)
    (ht0 : 0 < (load.user - cpu.prev_load.user) + (load.system - cpu.prev_load.system)
      + (load.idle - cpu.prev_load.idle))
    (ht32 : (load.user - cpu.prev_load.user) + (load.system - cpu.prev_load.system)
      + (load.idle - cpu.prev_load.idle) < 2 ^ 32) :
    ∃ u s : ℤ,
      (0 ≤ u ∧ u ≤ ((100 * (load.user - cpu.prev_load.user) /
          ((load.user - cpu.prev_load.user) + (load.system - cpu.prev_load.system)
            + (load.idle - cpu.prev_load.idle)) : ℕ) : ℤ) ∧
        ((100 * (load.user - cpu.prev_load.user) /
          ((load.user - cpu.prev_load.user) + (load.system - cpu.prev_load.system)
            + (load.idle - cpu.prev_load.idle)) : ℕ) : ℤ) ≤ u + 1 ∧
        (¬ ((load.user - cpu.prev_load.user) + (load.system - cpu.prev_load.system)
            + (load.idle - cpu.prev_load.idle)) ∣ 100 * (load.user - cpu.prev_load.user) →
          u = ((100 * (load.user - cpu.prev_load.user) /
            ((load.user - cpu.prev_load.user) + (load.system - cpu.prev_load.system)
              + (load.idle - cpu.prev_load.idle)) : ℕ) : ℤ))) ∧
      (0 ≤ s ∧ s ≤ ((100 * (load.system - cpu.prev_load.system) /
          ((load.user - cpu.prev_load.user) + (load.system - cpu.prev_load.system)
            + (load.idle - cpu.prev_load.idle)) : ℕ) : ℤ) ∧
        ((100 * (load.system - cpu.prev_load.system) /
          ((load.user - cpu.prev_load.user) + (load.system - cpu.prev_load.system)
            + (load.idle - cpu.prev_load.idle)) : ℕ) : ℤ) ≤ s + 1 ∧
        (¬ ((load.user - cpu.prev_load.user) + (load.system - cpu.prev_load.system)
            + (load.idle - cpu.prev_load.idle)) ∣ 100 * (load.system - cpu.prev_load.system) →
          s = ((100 * (load.system - cpu.prev_load.system) /
            ((load.user - cpu.prev_load.user) + (load.system - cpu.prev_load.system)
              + (load.idle - cpu.prev_load.idle)) : ℕ) : ℤ))) ∧
      cpu_update cpu (some load) cores =
        cpu_update_cores
          { cpu with
            load := load, prev_load := load, has_prev_load := true,
            user_load := u, sys_load := s, total_load := u + s } cores ∧
      ∀ c, cpu_update cpu (some load) cores = some c →
        c.user_load = u ∧ c.sys_load = s ∧ c.total_load = u + s := by
  obtain ⟨hwu, hws, hwi, _⟩ := hwf
  generalize hdu : load.user - cpu.prev_load.user = du at *
  generalize hds : load.system - cpu.prev_load.system = ds at *
  generalize hdi : load.idle - cpu.prev_load.idle = di at *
  have e1 : tick_delta load.user cpu.prev_load.user = du := by
    rw [tick_delta_of_le _ _ hu hwu, hdu]
  have e2 : tick_delta load.system cpu.prev_load.system = ds := by
    rw [tick_delta_of_le _ _ hs hws, hds]
  have e3 : tick_delta load.idle cpu.prev_load.idle = di := by
    rw [tick_delta_of_le _ _ hi hwi, hdi]
  have e4 : add32 (add32 ds du) di = du + ds + di := by
    rw [add32_of_lt ds du (by omega), add32_of_lt _ _ (by omega)]
    omega
  obtain ⟨u, hpu, hu1, hu2, hu0, hu3⟩ := percent_spec du (du + ds + di) ht0 ht32 (by omega)
  obtain ⟨s, hps, hs1, hs2, hs0, hs3⟩ := percent_spec ds (du + ds + di) ht0 ht32 (by omega)
  have hu100 : u ≤ 100 := by
    have : 100 * du / (du + ds + di) ≤ 100 := by
      apply Nat.div_le_of_le_mul
      omega
    omega
  have hs100 : s ≤ 100 := by
    have : 100 * ds / (du + ds + di) ≤ 100 := by
      apply Nat.div_le_of_le_mul
      omega
    omega
  have hupd : cpu_update cpu (some load) cores =
      cpu_update_cores
        { cpu with
          load := load, prev_load := load, has_prev_load := true,
          user_load := u, sys_load := s, total_load := u + s } cores := by
    have hl : cpu_update_loads { cpu with load := load } =
        some { cpu with load := load, user_load := u, sys_load := s, total_load := u + s } := by
      unfold cpu_update_loads
      simp only [e1, e2, e3, e4, hpu, hps, addInt_of_bounds u s hu0 hs0 hu100 hs100]
    unfold cpu_update
    simp only [hprev] at hl
    simp only [hprev, if_true, hl]
  refine ⟨u, s, ⟨hu0, hu1, hu2, hu3⟩, ⟨hs0, hs1, hs2, hs3⟩, hupd, ?_⟩
  intro c hc
  rw [hupd] at hc
  have := cpu_update_cores_frame _ _ _ hc
  simp only at this
  exact ⟨this.2.2.2.1, this.2.2.2.2.1, this.2.2.2.2.2⟩

/-- Witness of `cpu_update_percentages`: the deltas user 29, system 0, idle 71. -/
theorem cpu_update_percentages_witness :
    ∃ u s : ℤ,
      (0 ≤ u ∧ u ≤ 29 ∧ 29 ≤ u + 1 ∧ (¬ 100 ∣ 2900 → u = 29)) ∧
      (0 ≤ s ∧ s ≤ 0 ∧ 0 ≤ s + 1 ∧ (¬ 100 ∣ 0 → s = 0)) ∧
      cpu_update (cpu_after ⟨1000, 500, 9000, 0⟩) (some ⟨1029, 500, 9071, 0⟩) none =
        cpu_update_cores
          { cpu_after ⟨1000, 500, 9000, 0⟩ with
            load := ⟨1029, 500, 9071, 0⟩, prev_load := ⟨1029, 500, 9071, 0⟩, has_prev_load := true,
            user_load := u, sys_load := s, total_load := u + s } none ∧
      ∀ c, cpu_update (cpu_after ⟨1000, 500, 9000, 0⟩) (some ⟨1029, 500, 9071, 0⟩) none = some c →
        c.user_load = u ∧ c.sys_load = s ∧ c.total_load = u + s :=
  cpu_update_percentages (cpu_after ⟨1000, 500, 9000, 0⟩) ⟨1029, 500, 9071, 0⟩ none rfl
    (by unfold CpuTicks.WF; norm_num) (by decide) (by decide) (by decide) (by decide) (by decide)

/-! ## Counter regressions -/

theorem ofRat_intCast (n : ℤ) (h : |n| < 2 ^ 53) : Double.ofRat (n : ℚ) = Double.fin n := by
  have h1 : |(n : ℚ)| ≤ 2 ^ 128 := by
    have h2 : ((|n| : ℤ) : ℚ) < ((2 ^ 53 : ℤ) : ℚ) := Int.cast_lt.mpr h
    rw [Int.cast_abs, Int.cast_pow] at h2
    have h4 : (2 : ℚ) ^ 53 ≤ 2 ^ 128 := by norm_num
    push_cast at h2
    linarith
  rw [ofRat_fin_of_le _ h1, round53_intCast n h]

/-- C3: a byte counter that went down from 1000 to 500 over one second is not
clamped: the unsigned difference wraps to `2 ^ 64 - 500`, the test
`delta_ibytes < 0` is false, and `down_mbps` becomes about `1.47e14` instead of
`0` (the other direction, 1000 to 2000 bytes, gives `0.008`). -/
theorem network_update_regression_not_clamped :
    time_scale ⟨100, 0⟩ ⟨101, 0⟩ = Double.fin 1 ∧
      byte_delta 500 1000 = 2 ^ 64 - 500 ∧
      (network_update (net_after ⟨1000, 1000⟩ ⟨100, 0⟩) ⟨101, 0⟩ (some ⟨500, 2000⟩)).down_mbps
        = Double.fin (4722366482869645 / 32) ∧
      (network_update (net_after ⟨1000, 1000⟩ ⟨100, 0⟩) ⟨101, 0⟩ (some ⟨500, 2000⟩)).down_mbps
        ≠ Double.fin 0 ∧
      (network_update (net_after ⟨1000, 1000⟩ ⟨100, 0⟩) ⟨101, 0⟩ (some ⟨500, 2000⟩)).up_mbps
        = Double.fin (1152921504606847 / 144115188075855872) := by
  decide!

theorem round53_signed_bounds (q : ℚ) (hlo : (2 : ℚ) ^ (-1022 : ℤ) ≤ |q|) :
    q - |q| / 2 ^ 53 ≤ round53 q ∧ round53 q ≤ q + |q| / 2 ^ 53 := by
  have h := round53_rel_err q hlo
  rw [abs_le] at h
  constructor <;> linarith [h.1, h.2]

theorem intCast_abs_lt (n : ℤ) (b : ℕ) (h : |n| < 2 ^ b) : |(n : ℚ)| < 2 ^ b := by
  have h2 : ((|n| : ℤ) : ℚ) < ((2 ^ b : ℤ) : ℚ) := Int.cast_lt.mpr h
  rw [Int.cast_abs, Int.cast_pow] at h2
  push_cast at h2
  exact h2

theorem ofInt_exact (n : ℤ) (h : |n| < 2 ^ 53) : Double.ofInt n = Double.fin n := by
  unfold Double.ofInt
  exact ofRat_intCast n h

/-- The elapsed time computed by `network_update` for well-formed timestamps
whose exact difference `e` lies in `(0, 100]`: it is finite, lies in
`[2 ^ (-31), 100]` and is within `e / 2 ^ 22` of `e`. -/
theorem time_scale_spec (tp tn : Timespec)
    (hp0 : 0 ≤ tp.tv_nsec) (hp1 : tp.tv_nsec < 1000000000)
    (hn0 : 0 ≤ tn.tv_nsec) (hn1 : tn.tv_nsec < 1000000000)
    (he0 : (0 : ℚ) < ((tn.tv_sec - tp.tv_sec : ℤ) : ℚ) + ((tn.tv_nsec - tp.tv_nsec : ℤ) : ℚ) / 1000000000)
    (he100 : ((tn.tv_sec - tp.tv_sec : ℤ) : ℚ) + ((tn.tv_nsec - tp.tv_nsec : ℤ) : ℚ) / 1000000000 ≤ 100) :
    ∃ τ : ℚ, time_scale tp tn = Double.fin τ ∧ 1 / 2 ^ 31 ≤ τ ∧ τ ≤ 100 ∧
      |τ - (((tn.tv_sec - tp.tv_sec : ℤ) : ℚ) + ((tn.tv_nsec - tp.tv_nsec : ℤ) : ℚ) / 1000000000)|
        ≤ (((tn.tv_sec - tp.tv_sec : ℤ) : ℚ) + ((tn.tv_nsec - tp.tv_nsec : ℤ) : ℚ) / 1000000000) / 2 ^ 22 := by
  generalize hds : tn.tv_sec - tp.tv_sec = ds at *
  generalize hdn : tn.tv_nsec - tp.tv_nsec = dn at *
  have hdn1 : dn ≤ 999999999 := by omega
  have hdn2 : -999999999 ≤ dn := by omega
  have hdn1q : (dn : ℚ) ≤ 999999999 := by exact_mod_cast hdn1
  have hdn2q : (-999999999 : ℚ) ≤ dn := by exact_mod_cast hdn2
  -- the seconds differ by 0 .. 100
  have hds0 : 0 ≤ ds := by
    by_contra hcon
    push_neg at hcon
    have : (ds : ℚ) ≤ -1 := by exact_mod_cast (by omega : ds ≤ -1)
    linarith
  have hds100 : ds ≤ 100 := by
    by_contra hcon
    push_neg at hcon
    have : (101 : ℚ) ≤ ds := by exact_mod_cast (by omega : (101 : ℤ) ≤ ds)
    linarith
  have hds0q : (0 : ℚ) ≤ ds := by exact_mod_cast hds0
  have hds100q : (ds : ℚ) ≤ 100 := by exact_mod_cast hds100
  -- the exact elapsed time is a positive multiple of a nanosecond
  have hepos : 1 ≤ ds * 1000000000 + dn := by
    have h1 : (0 : ℚ) < ((ds * 1000000000 + dn : ℤ) : ℚ) := by
      push_cast
      have : (ds : ℚ) * 1000000000 + dn = ((ds : ℚ) + dn / 1000000000) * 1000000000 := by ring
      rw [this]
      positivity
    have h2 : 0 < ds * 1000000000 + dn := by exact_mod_cast h1
    omega
  have hemin : (1 : ℚ) / 1000000000 ≤ (ds : ℚ) + dn / 1000000000 := by
    have h1 : ((1 : ℤ) : ℚ) ≤ ((ds * 1000000000 + dn : ℤ) : ℚ) := Int.cast_le.mpr hepos
    push_cast at h1
    have : (ds : ℚ) + dn / 1000000000 = ((ds : ℚ) * 1000000000 + dn) / 1000000000 := by ring
    rw [this]
    apply div_le_div_of_nonneg_right h1 (by norm_num)
  unfold time_scale
  rw [hds, hdn]
  rw [ofInt_exact ds (by rw [abs_lt]; constructor <;> norm_num <;> omega),
    ofInt_exact dn (by rw [abs_lt]; constructor <;> norm_num <;> omega)]
  simp only [Double.div]
  rw [if_neg (by norm_num)]
  -- the nanosecond part
  have hq1 : (dn : ℚ) / 1000000000 ≤ 999999999 / 1000000000 :=
    div_le_div_of_nonneg_right hdn1q (by norm_num)
  have hq2 : (-999999999 : ℚ) / 1000000000 ≤ (dn : ℚ) / 1000000000 :=
    div_le_div_of_nonneg_right hdn2q (by norm_num)
  have hqabs : |(dn : ℚ) / 1000000000| ≤ 1 := by
    rw [abs_le]; constructor <;> linarith
  rw [ofRat_fin_of_le _ (le_trans hqabs (by norm_num))]
  set y := round53 ((dn : ℚ) / 1000000000) with hy
  have hyb : (dn : ℚ) / 1000000000 - |(dn : ℚ) / 1000000000| / 2 ^ 53 ≤ y ∧
      y ≤ (dn : ℚ) / 1000000000 + |(dn : ℚ) / 1000000000| / 2 ^ 53 := by
    by_cases hz : dn = 0
    · rw [hy, hz]; simp [round53_zero]
    · apply round53_signed_bounds
      have h1 : (1 : ℚ) ≤ |(dn : ℚ)| := by
        have : (1 : ℤ) ≤ |dn| := Int.one_le_abs hz
        exact_mod_cast this
      have h2 : (1 : ℚ) / 1000000000 ≤ |(dn : ℚ) / 1000000000| := by
        rw [abs_div, abs_of_pos (by norm_num : (0 : ℚ) < 1000000000)]
        apply div_le_div_of_nonneg_right h1 (by norm_num)
      exact le_trans zpow_1022_le (le_trans (by norm_num) h2)
  have hy1 : y ≤ (dn : ℚ) / 1000000000 + 1 / 2 ^ 53 := by
    have : |(dn : ℚ) / 1000000000| / 2 ^ 53 ≤ 1 / 2 ^ 53 :=
      div_le_div_of_nonneg_right hqabs (by positivity)
    linarith [hyb.2]
  have hy2 : (dn : ℚ) / 1000000000 - 1 / 2 ^ 53 ≤ y := by
    have : |(dn : ℚ) / 1000000000| / 2 ^ 53 ≤ 1 / 2 ^ 53 :=
      div_le_div_of_nonneg_right hqabs (by positivity)
    linarith [hyb.1]
  simp only [Double.add]
  -- the sum
  have hs0 : (1 : ℚ) / 2 ^ 30 - 1 / 2 ^ 53 ≤ (ds : ℚ) + y := by
    have : (1 : ℚ) / 2 ^ 30 ≤ 1 / 1000000000 := by norm_num
    linarith
  have hspos : (0 : ℚ) ≤ (ds : ℚ) + y := by
    have : (0 : ℚ) ≤ 1 / 2 ^ 30 - 1 / 2 ^ 53 := by norm_num
    linarith
  have hs1 : (ds : ℚ) + y ≤ 101 := by
    have : (1 : ℚ) / 2 ^ 53 ≤ 1 := by norm_num
    linarith
  rw [ofRat_fin_of_le _ (by rw [abs_of_nonneg hspos]; exact le_trans hs1 (by norm_num))]
  have hτ := round53_bounds ((ds : ℚ) + y) hspos
    (le_trans zpow_1022_le (le_trans (by norm_num) hs0))
  set τ := round53 ((ds : ℚ) + y) with hτdef
  refine ⟨τ, rfl, ?_, ?_, ?_⟩
  · have h1 : ((1 : ℚ) / 2 ^ 30 - 1 / 2 ^ 53) - (1 / 2 ^ 30 - 1 / 2 ^ 53) / 2 ^ 53 ≤ τ := by
      have := hτ.1
      have h2 : ((1 : ℚ) / 2 ^ 30 - 1 / 2 ^ 53) / 2 ^ 53 ≤ ((ds : ℚ) + y) / 2 ^ 53 + 0 := by
        rw [add_zero]
        exact div_le_div_of_nonneg_right hs0 (by positivity)
      nlinarith
    refine le_trans ?_ h1
    norm_num
  · -- the upper end of the window
    by_cases hc : ds = 100
    · have hdn0 : dn ≤ 0 := by
        by_contra hcon
        push_neg at hcon
        have h1 : (1 : ℚ) ≤ dn := by exact_mod_cast (by omega : (1 : ℤ) ≤ dn)
        have h2 : (ds : ℚ) = 100 := by exact_mod_cast hc
        have h3 : (1 : ℚ) / 1000000000 ≤ (dn : ℚ) / 1000000000 :=
          div_le_div_of_nonneg_right h1 (by norm_num)
        linarith
      by_cases hz : dn = 0
      · have hy0 : y = 0 := by rw [hy, hz]; simp [round53_zero]
        have : (ds : ℚ) + y = ((100 : ℤ) : ℚ) := by rw [hy0, hc]; norm_num
        rw [hτdef, this, round53_intCast 100 (by norm_num)]
        norm_num
      · have h1 : (dn : ℚ) ≤ -1 := by exact_mod_cast (by omega : dn ≤ -1)
        have h3 : (dn : ℚ) / 1000000000 ≤ -1 / 1000000000 :=
          div_le_div_of_nonneg_right h1 (by norm_num)
        have h4 : |(dn : ℚ) / 1000000000| = -((dn : ℚ) / 1000000000) :=
          abs_of_nonpos (by linarith)
        have h5 := hyb.2
        rw [h4] at h5
        have h2 : (ds : ℚ) = 100 := by exact_mod_cast hc
        have h6 := hτ.2
        norm_num at h5 h6 h3 ⊢
        linarith
    · have h1 : (ds : ℚ) ≤ 99 := by exact_mod_cast (by omega : ds ≤ 99)
      have h6 := hτ.2
      norm_num at h6 hy1 hq1 ⊢
      linarith
  · rw [abs_le]
    have h30 : (1 : ℚ) / 2 ^ 30 ≤ 1 / 1000000000 := by norm_num
    have h6 := hτ.2
    have h7 := hτ.1
    constructor
    · norm_num at h6 h7 hy1 hy2 h30 hemin ⊢
      linarith
    · norm_num at h6 h7 hy1 hy2 h30 hemin ⊢
      linarith

/-! ## The rate of one direction -/

theorem byte_delta_of_le (cur prev : ℕ) (h : prev ≤ cur) (hc : cur < 2 ^ 64) :
    byte_delta cur prev = cur - prev := by
  unfold byte_delta
  omega

/-- The rate `network_update` computes for one direction, for non-decreasing
counters and an elapsed time `τ` in `[2 ^ (-31), 100]`: it is within a relative
`2 ^ (-50)` of `delta * 8 / 1000000 / τ`. -/
theorem mbps_spec (cur prev : ℕ) (hle : prev ≤ cur) (hc : cur < 2 ^ 64) (τ : ℚ)
    (hτ1 : 1 / 2 ^ 31 ≤ τ) (hτ2 : τ ≤ 100) :
    ∃ r : ℚ, mbps cur prev (Double.fin τ) = Double.fin r ∧ 0 ≤ r ∧
      |r - mbps_exact cur prev τ| ≤ mbps_exact cur prev τ / 2 ^ 50 := by
  have hτ0 : 0 < τ := lt_of_lt_of_le (by positivity) hτ1
  unfold mbps mbps_exact
  rw [byte_delta_of_le cur prev hle hc]
  have hD64 : cur - prev < 2 ^ 64 := by omega
  generalize cur - prev = D at *
  have hDq : (D : ℚ) < 2 ^ 64 := natCast_lt_two_pow D 64 hD64
  have hD0 : (0 : ℚ) ≤ D := Nat.cast_nonneg D
  unfold Double.ofNat
  rw [ofRat_fin_of_le _ (by rw [abs_of_nonneg hD0]; exact le_trans hDq.le (by norm_num))]
  simp only [Double.div, if_neg hτ0.ne']
  by_cases hz : D = 0
  · subst hz
    simp [round53_zero, ofRat_fin_of_le, Double.lt, Double.mul, Double.div]
  · have hD1 : (1 : ℚ) ≤ D := by
      have : 1 ≤ D := Nat.one_le_iff_ne_zero.mpr hz
      exact_mod_cast this
    have hd := round53_bounds (D : ℚ) hD0 (le_trans zpow_1022_le (le_trans (by norm_num) hD1))
    set d := round53 (D : ℚ) with hddef
    -- the exact quotient and its bounds
    have hQ1 : (1 : ℚ) / 100 ≤ (D : ℚ) / τ := by
      rw [le_div_iff₀ hτ0]; linarith
    have hQ2 : (D : ℚ) / τ ≤ 2 ^ 95 := by
      rw [div_le_iff₀ hτ0]
      have : (2 : ℚ) ^ 95 * (1 / 2 ^ 31) ≤ 2 ^ 95 * τ :=
        mul_le_mul_of_nonneg_left hτ1 (by positivity)
      have h2 : (2 : ℚ) ^ 95 * (1 / 2 ^ 31) = 2 ^ 64 := by norm_num
      linarith
    have hA1 : (D : ℚ) / τ - (D : ℚ) / τ / 2 ^ 53 ≤ d / τ := by
      have := div_le_div_of_nonneg_right hd.1 hτ0.le
      have e : ((D : ℚ) - (D : ℚ) / 2 ^ 53) / τ = (D : ℚ) / τ - (D : ℚ) / τ / 2 ^ 53 := by ring
      rwa [e] at this
    have hA2 : d / τ ≤ (D : ℚ) / τ + (D : ℚ) / τ / 2 ^ 53 := by
      have := div_le_div_of_nonneg_right hd.2 hτ0.le
      have e : ((D : ℚ) + (D : ℚ) / 2 ^ 53) / τ = (D : ℚ) / τ + (D : ℚ) / τ / 2 ^ 53 := by ring
      rwa [e] at this
    have eR : (D : ℚ) * 8 / 1000000 / τ = (D : ℚ) / τ * (8 / 1000000) := by ring
    rw [eR]
    generalize (D : ℚ) / τ = Q at *
    generalize d / τ = A at *
    have hA0 : 0 ≤ A := by
      have : (0 : ℚ) ≤ Q - Q / 2 ^ 53 := by norm_num at hQ1 ⊢; linarith
      linarith
    have hAlo : (1 : ℚ) / 2 ^ 64 ≤ A := by norm_num at hQ1 hA1 ⊢; linarith
    have hAhi : A ≤ 2 ^ 96 := by norm_num at hQ2 hA2 ⊢; linarith
    rw [ofRat_fin_of_le A (by rw [abs_of_nonneg hA0]; exact le_trans hAhi (by norm_num))]
    have hx1 := round53_bounds A hA0 (le_trans zpow_1022_le hAlo)
    set x1 := round53 A with hx1def
    have hx10 : 0 ≤ x1 := round53_nonneg A hA0
    have hnlt : Double.lt (Double.fin x1) (Double.fin 0) = false := by
      simp [Double.lt, hx10]
    simp only [hnlt, Bool.false_eq_true, if_false, Double.mul]
    have hB0 : (0 : ℚ) ≤ x1 * 8 := by positivity
    have hBlo : (1 : ℚ) / 2 ^ 64 ≤ x1 * 8 := by norm_num at hx1 hAlo ⊢; linarith [hx1.1]
    have hBhi : x1 * 8 ≤ 2 ^ 100 := by norm_num at hx1 hAhi ⊢; linarith [hx1.2]
    rw [ofRat_fin_of_le _ (by rw [abs_of_nonneg hB0]; exact le_trans hBhi (by norm_num))]
    have hx2 := round53_bounds (x1 * 8) hB0 (le_trans zpow_1022_le hBlo)
    set x2 := round53 (x1 * 8) with hx2def
    have hx20 : 0 ≤ x2 := round53_nonneg _ hB0
    simp only [Double.div]
    rw [if_neg (by norm_num)]
    have hC0 : (0 : ℚ) ≤ x2 / 1000000 := by positivity
    have hx2lo : (1 : ℚ) / 2 ^ 8 ≤ x2 := by
      have h1 := hx2.1
      have h2 := hx1.1
      norm_num at h1 h2 hQ1 hA1 ⊢
      linarith
    have hx2hi : x2 ≤ 2 ^ 100 := by
      have h1 := hx2.2
      have h2 := hx1.2
      norm_num at h1 h2 hQ2 hA2 ⊢
      linarith
    have hClo : (1 : ℚ) / 2 ^ 64 ≤ x2 / 1000000 := by
      rw [le_div_iff₀ (by norm_num)]
      norm_num at hx2lo ⊢
      linarith
    have hChi : x2 / 1000000 ≤ 2 ^ 100 := by
      rw [div_le_iff₀ (by norm_num)]
      norm_num at hx2hi ⊢
      linarith
    rw [ofRat_fin_of_le _ (by rw [abs_of_nonneg hC0]; exact le_trans hChi (by norm_num))]
    have hx3 := round53_bounds (x2 / 1000000) hC0 (le_trans zpow_1022_le hClo)
    set x3 := round53 (x2 / 1000000) with hx3def
    refine ⟨x3, rfl, round53_nonneg _ hC0, ?_⟩
    have h1 := hx3.1
    have h2 := hx3.2
    have h3 := hx2.1
    have h4 := hx2.2
    have h5 := hx1.1
    have h6 := hx1.2
    rw [abs_le]
    constructor
    · norm_num at h1 h2 h3 h4 h5 h6 hA1 hA2 hQ1 ⊢
      linarith
    · norm_num at h1 h2 h3 h4 h5 h6 hA1 hA2 hQ1 ⊢
      linarith

/-! ## The rates of `network_update` -/

theorem mbps_exact_close (cur prev : ℕ) (τ e r : ℚ) (he : 0 < e) (hτ : |τ - e| ≤ e / 2 ^ 22)
    (hr : |r - mbps_exact cur prev τ| ≤ mbps_exact cur prev τ / 2 ^ 50) :
    |r - mbps_exact cur prev e| ≤ mbps_exact cur prev e / 2 ^ 21 := by
  rw [abs_le] at hτ hr
  have hτ0 : 0 < τ := by
    have : e / 2 ^ 22 < e := by
      rw [div_lt_iff₀ (by positivity)]
      have : e * 1 < e * 2 ^ 22 := by
        apply mul_lt_mul_of_pos_left (by norm_num) he
      linarith
    linarith [hτ.1]
  unfold mbps_exact at *
  generalize ((cur - prev : ℕ) : ℚ) * 8 / 1000000 = R at *
  have hR : 0 ≤ R := by
    by_contra hcon
    push_neg at hcon
    have h1 : R / τ < 0 := div_neg_of_neg_of_pos hcon hτ0
    have h2 : R / τ / 2 ^ 50 < 0 := div_neg_of_neg_of_pos h1 (by positivity)
    linarith [hr.1, hr.2]
  have hQτ : 0 ≤ R / τ := div_nonneg hR hτ0.le
  have hcancel : R / τ * τ = R := div_mul_cancel₀ R hτ0.ne'
  have h1 : R / τ * (1 - 1 / 2 ^ 22) ≤ R / e := by
    rw [le_div_iff₀ he]
    have : R / τ * ((1 - 1 / 2 ^ 22) * e) ≤ R / τ * τ :=
      mul_le_mul_of_nonneg_left (by linarith [hτ.1]) hQτ
    linarith
  have h2 : R / e ≤ R / τ * (1 + 1 / 2 ^ 22) := by
    rw [div_le_iff₀ he]
    have : R / τ * τ ≤ R / τ * ((1 + 1 / 2 ^ 22) * e) :=
      mul_le_mul_of_nonneg_left (by linarith [hτ.2]) hQτ
    linarith
  generalize R / τ = Qτ at *
  generalize R / e = Qe at *
  have h3 := hr.1
  have h4 := hr.2
  rw [abs_le]
  constructor
  · norm_num at h1 h2 h3 h4 ⊢
    linarith
  · norm_num at h1 h2 h3 h4 ⊢
    linarith

/-- C5: for two consecutive network readings past the baseline, with
non-decreasing byte counters and exact elapsed seconds
`e = (sec_now - sec_prev) + (nsec_now - nsec_prev) / 1e9` in `(0, 100]` (`100`
included), `network_update` takes the fresh branch and sets `down_mbps` and
`up_mbps` to finite non-negative doubles equal to `delta_bytes * 8 / 1_000_000 / e`
within floating-point tolerance (a relative error of at most `2 ^ (-21)`; the
elapsed time the code computes is within `e / 2 ^ 22` of `e`, and each rate is
within a relative `2 ^ (-50)` of the formula taken at that computed time). -/
theorem network_update_rates (net : Network) (ts_now : Timespec) (read : Option IfData)
    (hbase : ¬(net.ts_prev.tv_sec = 0 ∧ net.ts_prev.tv_nsec = 0))
    (hp0 : 0 ≤ net.ts_prev.tv_nsec) (hp1 : net.ts_prev.tv_nsec < 1000000000)
    (hn0 : 0 ≤ ts_now.tv_nsec) (hn1 : ts_now.tv_nsec < 1000000000)
    (hi : net.data.ifi_ibytes ≤ (ifdata net.data read).ifi_ibytes)
    (hi64 : (ifdata net.data read).ifi_ibytes < 2 ^ 64)
    (ho : net.data.ifi_obytes ≤ (ifdata net.data read).ifi_obytes)
    (ho64 : (ifdata net.data read).ifi_obytes < 2 ^ 64)
    (he0 : 0 < elapsed_seconds net.ts_prev ts_now)
    (he100 : elapsed_seconds net.ts_prev ts_now ≤ 100) :
    ∃ τ down up : ℚ,
      time_scale net.ts_prev ts_now = Double.fin τ ∧
      |τ - elapsed_seconds net.ts_prev ts_now| ≤ elapsed_seconds net.ts_prev ts_now / 2 ^ 22 ∧
      (network_update net ts_now read).down_mbps = Double.fin down ∧
      (network_update net ts_now read).up_mbps = Double.fin up ∧
      0 ≤ down ∧ 0 ≤ up ∧
      |down - mbps_exact (ifdata net.data read).ifi_ibytes net.data.ifi_ibytes τ|
        ≤ mbps_exact (ifdata net.data read).ifi_ibytes net.data.ifi_ibytes τ / 2 ^ 50 ∧
      |up - mbps_exact (ifdata net.data read).ifi_obytes net.data.ifi_obytes τ|
        ≤ mbps_exact (ifdata net.data read).ifi_obytes net.data.ifi_obytes τ / 2 ^ 50 ∧
      |down - mbps_exact (ifdata net.data read).ifi_ibytes net.data.ifi_ibytes
          (elapsed_seconds net.ts_prev ts_now)|
        ≤ mbps_exact (ifdata net.data read).ifi_ibytes net.data.ifi_ibytes
          (elapsed_seconds net.ts_prev ts_now) / 2 ^ 21 ∧
      |up - mbps_exact (ifdata net.data read).ifi_obytes net.data.ifi_obytes
          (elapsed_seconds net.ts_prev ts_now)|
        ≤ mbps_exact (ifdata net.data read).ifi_obytes net.data.ifi_obytes
          (elapsed_seconds net.ts_prev ts_now) / 2 ^ 21 := by
  obtain ⟨τ, hτ, hτ1, hτ2, hτe⟩ :=
    time_scale_spec net.ts_prev ts_now hp0 hp1 hn0 hn1 he0 he100
  obtain ⟨down, hd, hd0, hdb⟩ := mbps_spec _ _ hi hi64 τ hτ1 hτ2
  obtain ⟨up, hu, hu0, hub⟩ := mbps_spec _ _ ho ho64 τ hτ1 hτ2
  have hτ0 : 0 < τ := lt_of_lt_of_le (by positivity) hτ1
  have hfresh : (Double.le (Double.fin τ) (Double.fin 0) || Double.lt (Double.fin 100) (Double.fin τ))
      = false := by
    simp [Double.le, Double.lt, hτ0, hτ2]
  have hdown : (network_update net ts_now read).down_mbps = Double.fin down := by
    unfold network_update
    rw [if_neg hbase]
    simp only [hτ, hfresh, Bool.false_eq_true, if_false]
    exact hd
  have hup : (network_update net ts_now read).up_mbps = Double.fin up := by
    unfold network_update
    rw [if_neg hbase]
    simp only [hτ, hfresh, Bool.false_eq_true, if_false]
    exact hu
  exact ⟨τ, down, up, hτ, hτe, hdown, hup, hd0, hu0, hdb, hub,
    mbps_exact_close _ _ τ _ down he0 hτe hdb, mbps_exact_close _ _ τ _ up he0 hτe hub⟩

/-- Witness of `network_update_rates`: 1000 bytes in and 4000 bytes out over
one second and a half. -/
theorem network_update_rates_witness :
    ∃ τ down up : ℚ,
      time_scale ⟨100, 0⟩ ⟨101, 500000000⟩ = Double.fin τ ∧
      |τ - elapsed_seconds ⟨100, 0⟩ ⟨101, 500000000⟩|
        ≤ elapsed_seconds ⟨100, 0⟩ ⟨101, 500000000⟩ / 2 ^ 22 ∧
      (network_update (net_after ⟨1000, 1000⟩ ⟨100, 0⟩) ⟨101, 500000000⟩
        (some ⟨2000, 5000⟩)).down_mbps = Double.fin down ∧
      (network_update (net_after ⟨1000, 1000⟩ ⟨100, 0⟩) ⟨101, 500000000⟩
        (some ⟨2000, 5000⟩)).up_mbps = Double.fin up ∧
      0 ≤ down ∧ 0 ≤ up ∧
      |down - mbps_exact 2000 1000 τ| ≤ mbps_exact 2000 1000 τ / 2 ^ 50 ∧
      |up - mbps_exact 5000 1000 τ| ≤ mbps_exact 5000 1000 τ / 2 ^ 50 ∧
      |down - mbps_exact 2000 1000 (elapsed_seconds ⟨100, 0⟩ ⟨101, 500000000⟩)|
        ≤ mbps_exact 2000 1000 (elapsed_seconds ⟨100, 0⟩ ⟨101, 500000000⟩) / 2 ^ 21 ∧
      |up - mbps_exact 5000 1000 (elapsed_seconds ⟨100, 0⟩ ⟨101, 500000000⟩)|
        ≤ mbps_exact 5000 1000 (elapsed_seconds ⟨100, 0⟩ ⟨101, 500000000⟩) / 2 ^ 21 :=
  network_update_rates (net_after ⟨1000, 1000⟩ ⟨100, 0⟩) ⟨101, 500000000⟩ (some ⟨2000, 5000⟩)
    (by decide) (by decide) (by decide) (by decide) (by decide) (by decide) (by decide)
    (by decide) (by decide) (by decide!) (by decide!)

/-! ## Stale samples -/

/-- The staleness test of `network_update` agrees with the exact elapsed time:
for timestamps as `clock_gettime` returns them (seconds in `[0, 2 ^ 63)`,
nanoseconds in `[0, 1e9)`), an exact elapsed time `<= 0` or `> 100` makes the
computed `time_scale` satisfy `time_scale <= 0.0 || time_scale > 1e2`. -/
theorem time_scale_stale_of_elapsed (tp tn : Timespec)
    (hps0 : 0 ≤ tp.tv_sec) (hps1 : tp.tv_sec < 2 ^ 63)
    (hns0 : 0 ≤ tn.tv_sec) (hns1 : tn.tv_sec < 2 ^ 63)
    (hp0 : 0 ≤ tp.tv_nsec) (hp1 : tp.tv_nsec < 1000000000)
    (hn0 : 0 ≤ tn.tv_nsec) (hn1 : tn.tv_nsec < 1000000000)
    (he : elapsed_seconds tp tn ≤ 0 ∨ 100 < elapsed_seconds tp tn) :
    Double.le (time_scale tp tn) (Double.fin 0) = true ∨
      Double.lt (Double.fin 100) (time_scale tp tn) = true := by
  unfold elapsed_seconds at he
  unfold time_scale
  generalize hds : tn.tv_sec - tp.tv_sec = ds at *
  generalize hdn : tn.tv_nsec - tp.tv_nsec = dn at *
  have hdn1 : dn ≤ 999999999 := by omega
  have hdn2 : -999999999 ≤ dn := by omega
  have hdn1q : (dn : ℚ) ≤ 999999999 := by exact_mod_cast hdn1
  have hdn2q : (-999999999 : ℚ) ≤ dn := by exact_mod_cast hdn2
  have hdsabs : |ds| < 2 ^ 64 := by
    rw [abs_lt]; constructor <;> omega
  have hdsabsq : |(ds : ℚ)| < 2 ^ 64 := intCast_abs_lt ds 64 hdsabs
  -- the nanosecond part
  rw [ofInt_exact dn (by rw [abs_lt]; constructor <;> norm_num <;> omega)]
  simp only [Double.div]
  rw [if_neg (by norm_num)]
  have hq1 : (dn : ℚ) / 1000000000 ≤ 999999999 / 1000000000 :=
    div_le_div_of_nonneg_right hdn1q (by norm_num)
  have hq2 : (-999999999 : ℚ) / 1000000000 ≤ (dn : ℚ) / 1000000000 :=
    div_le_div_of_nonneg_right hdn2q (by norm_num)
  have hqabs : |(dn : ℚ) / 1000000000| ≤ 1 := by
    rw [abs_le]; constructor <;> linarith
  rw [ofRat_fin_of_le _ (le_trans hqabs (by norm_num))]
  set y := round53 ((dn : ℚ) / 1000000000) with hy
  have hyb : (dn : ℚ) / 1000000000 - |(dn : ℚ) / 1000000000| / 2 ^ 53 ≤ y ∧
      y ≤ (dn : ℚ) / 1000000000 + |(dn : ℚ) / 1000000000| / 2 ^ 53 := by
    by_cases hz : dn = 0
    · rw [hy, hz]; simp [round53_zero]
    · apply round53_signed_bounds
      have h1 : (1 : ℚ) ≤ |(dn : ℚ)| := by
        have : (1 : ℤ) ≤ |dn| := Int.one_le_abs hz
        exact_mod_cast this
      have h2 : (1 : ℚ) / 1000000000 ≤ |(dn : ℚ) / 1000000000| := by
        rw [abs_div, abs_of_pos (by norm_num : (0 : ℚ) < 1000000000)]
        apply div_le_div_of_nonneg_right h1 (by norm_num)
      exact le_trans zpow_1022_le (le_trans (by norm_num) h2)
  have hu : |(dn : ℚ) / 1000000000| / 2 ^ 53 ≤ 1 / 2 ^ 53 :=
    div_le_div_of_nonneg_right hqabs (by positivity)
  have hy1 : y ≤ (dn : ℚ) / 1000000000 + 1 / 2 ^ 53 := by linarith [hyb.2]
  have hy2 : (dn : ℚ) / 1000000000 - 1 / 2 ^ 53 ≤ y := by linarith [hyb.1]
  -- the seconds part
  unfold Double.ofInt
  rw [ofRat_fin_of_le _ (le_trans hdsabsq.le (by norm_num))]
  set a := round53 (ds : ℚ) with ha
  have hab : (ds : ℚ) - |(ds : ℚ)| / 2 ^ 53 ≤ a ∧ a ≤ (ds : ℚ) + |(ds : ℚ)| / 2 ^ 53 := by
    by_cases hz : ds = 0
    · rw [ha, hz]; simp [round53_zero]
    · apply round53_signed_bounds
      have h1 : (1 : ℚ) ≤ |(ds : ℚ)| := by
        have : (1 : ℤ) ≤ |ds| := Int.one_le_abs hz
        exact_mod_cast this
      exact le_trans zpow_1022_le (le_trans (by norm_num) h1)
  have hsum : |a + y| ≤ 2 ^ 128 := by
    have h1 : |(ds : ℚ)| / 2 ^ 53 ≤ 2 ^ 64 / 2 ^ 53 :=
      div_le_div_of_nonneg_right hdsabsq.le (by positivity)
    have h2 := abs_lt.mp hdsabsq
    rw [abs_le]
    constructor
    · norm_num at h1 h2 hy2 hq2 ⊢; linarith [hab.1]
    · norm_num at h1 h2 hy1 hq1 ⊢; linarith [hab.2]
  simp only [Double.add]
  rw [ofRat_fin_of_le _ hsum]
  simp only [Double.le, Double.lt, decide_eq_true_eq]
  rcases he with he | he
  · -- not after the previous call
    left
    apply round53_nonpos
    have hds0 : ds ≤ 0 := by
      by_contra hcon
      push_neg at hcon
      have : (1 : ℚ) ≤ ds := by exact_mod_cast (by omega : (1 : ℤ) ≤ ds)
      linarith
    by_cases hz : ds = 0
    · have hdq : (dn : ℚ) / 1000000000 ≤ 0 := by
        have : (ds : ℚ) = 0 := by exact_mod_cast hz
        linarith
      have hy0 : y ≤ 0 := round53_nonpos _ hdq
      have ha0 : a = 0 := by rw [ha, hz]; simp [round53_zero]
      linarith
    · have h1 : (ds : ℚ) ≤ -1 := by exact_mod_cast (by omega : ds ≤ -1)
      have h2 : |(ds : ℚ)| = -(ds : ℚ) := abs_of_nonpos (by linarith)
      have h3 := hab.2
      rw [h2] at h3
      norm_num at h3 hy1 hq1 ⊢
      linarith
  · -- more than 100 seconds later
    right
    have hds100 : 100 ≤ ds := by
      by_contra hcon
      push_neg at hcon
      have : (ds : ℚ) ≤ 99 := by exact_mod_cast (by omega : ds ≤ 99)
      linarith
    have h1 : (100 : ℚ) ≤ ds := by exact_mod_cast hds100
    have h2 : |(ds : ℚ)| = (ds : ℚ) := abs_of_nonneg (by linarith)
    have h3 := hab.1
    rw [h2] at h3
    have hsumlo : (100 : ℚ) + 1 / 2 ^ 31 ≤ a + y := by
      by_cases hc : ds = 100
      · have hdsq : (ds : ℚ) = 100 := by exact_mod_cast hc
        have ha100 : a = 100 := by
          rw [ha, hc]
          have := round53_intCast 100 (by norm_num)
          simpa using this
        have hdnpos : (1 : ℚ) ≤ dn := by
          have : 1 ≤ dn := by
            by_contra hcon
            push_neg at hcon
            have h5 : (dn : ℚ) ≤ 0 := by exact_mod_cast (by omega : dn ≤ 0)
            have h6 : (dn : ℚ) / 1000000000 ≤ 0 :=
              div_nonpos_of_nonpos_of_nonneg h5 (by norm_num)
            linarith
          exact_mod_cast this
        have h7 : (1 : ℚ) / 1000000000 ≤ (dn : ℚ) / 1000000000 :=
          div_le_div_of_nonneg_right hdnpos (by norm_num)
        have h8 : |(dn : ℚ) / 1000000000| = (dn : ℚ) / 1000000000 :=
          abs_of_nonneg (by linarith)
        have h9 := hyb.1
        rw [h8] at h9
        norm_num at h9 h7 ⊢
        linarith
      · have h4 : (101 : ℚ) ≤ ds := by exact_mod_cast (by omega : (101 : ℤ) ≤ ds)
        have h10 : (1 : ℚ) / 1000000000 ≤ (ds : ℚ) + (dn : ℚ) / 1000000000 - 100 := by
          have hpos : 1 ≤ (ds - 100) * 1000000000 + dn := by
            have h11 : (0 : ℚ) < (((ds - 100) * 1000000000 + dn : ℤ) : ℚ) := by
              push_cast
              have : ((ds : ℚ) - 100) * 1000000000 + dn
                  = ((ds : ℚ) + dn / 1000000000 - 100) * 1000000000 := by ring
              rw [this]
              apply mul_pos (by linarith) (by norm_num)
            have h12 : 0 < (ds - 100) * 1000000000 + dn := by exact_mod_cast h11
            omega
          have h13 : ((1 : ℤ) : ℚ) ≤ (((ds - 100) * 1000000000 + dn : ℤ) : ℚ) :=
            Int.cast_le.mpr hpos
          push_cast at h13
          have : (ds : ℚ) + dn / 1000000000 - 100
              = (((ds : ℚ) - 100) * 1000000000 + dn) / 1000000000 := by ring
          rw [this]
          exact div_le_div_of_nonneg_right h13 (by norm_num)
        by_cases hbig : (ds : ℚ) ≤ 200
        · norm_num at h3 hy2 h10 ⊢
          linarith
        · push_neg at hbig
          norm_num at h3 hy2 hq2 ⊢
          linarith
    have hpos : (0 : ℚ) ≤ a + y := by linarith [show (0 : ℚ) ≤ 1 / 2 ^ 31 by positivity]
    have hτ := round53_bounds (a + y) hpos
      (le_trans zpow_1022_le (le_trans (by norm_num) hsumlo))
    have h14 := hτ.1
    norm_num at h14 hsumlo ⊢
    linarith

/-- C6: past the baseline, when the elapsed time is `<= 0` or `> 100` seconds,
`network_update` leaves `up_mbps` and `down_mbps` as they were before the
call, whatever the byte counters read. The elapsed time is either the
`time_scale` value the call computes (for any timestamps), or the exact
difference of two timestamps as `clock_gettime` returns them. -/
theorem network_update_stale_keeps_rates (net : Network) (ts_now : Timespec)
    (read : Option IfData)
    (hbase : ¬(net.ts_prev.tv_sec = 0 ∧ net.ts_prev.tv_nsec = 0))
    (hstale :
      (Double.le (time_scale net.ts_prev ts_now) (Double.fin 0) = true ∨
        Double.lt (Double.fin 100) (time_scale net.ts_prev ts_now) = true) ∨
      ((0 ≤ net.ts_prev.tv_sec ∧ net.ts_prev.tv_sec < 2 ^ 63 ∧
          0 ≤ ts_now.tv_sec ∧ ts_now.tv_sec < 2 ^ 63 ∧
          0 ≤ net.ts_prev.tv_nsec ∧ net.ts_prev.tv_nsec < 1000000000 ∧
          0 ≤ ts_now.tv_nsec ∧ ts_now.tv_nsec < 1000000000) ∧
        (elapsed_seconds net.ts_prev ts_now ≤ 0 ∨ 100 < elapsed_seconds net.ts_prev ts_now))) :
    (network_update net ts_now read).up_mbps = net.up_mbps ∧
      (network_update net ts_now read).down_mbps = net.down_mbps := by
  have hcomp : Double.le (time_scale net.ts_prev ts_now) (Double.fin 0) = true ∨
      Double.lt (Double.fin 100) (time_scale net.ts_prev ts_now) = true := by
    rcases hstale with h | ⟨⟨h1, h2, h3, h4, h5, h6, h7, h8⟩, he⟩
    · exact h
    · exact time_scale_stale_of_elapsed _ _ h1 h2 h3 h4 h5 h6 h7 h8 he
  have h : (Double.le (time_scale net.ts_prev ts_now) (Double.fin 0) ||
      Double.lt (Double.fin 100) (time_scale net.ts_prev ts_now)) = true := by
    rcases hcomp with h | h <;> simp [h]
  unfold network_update
  rw [if_neg hbase]
  simp only [h, if_true, and_self]

/-- Witness of `network_update_stale_keeps_rates`: 200 seconds after the
previous call the rates `0.5` and `3` stay. -/
theorem network_update_stale_keeps_rates_witness :
    (network_update net_with_rates ⟨300, 0⟩ (some ⟨5000, 9000⟩)).up_mbps = Double.fin (1 / 2) ∧
      (network_update net_with_rates ⟨300, 0⟩ (some ⟨5000, 9000⟩)).down_mbps = Double.fin 3 :=
  network_update_stale_keeps_rates net_with_rates ⟨300, 0⟩ (some ⟨5000, 9000⟩) (by decide)
    (Or.inr ⟨by decide, by decide!⟩)

/-! ## The first update -/

/-- C7: the first update after initialization produces no rate, whatever is
read: `cpu_update` on a freshly initialized `struct cpu` returns with
`user_load`, `sys_load`, `total_load` and all 32 slots of `core_loads` still
`0`, and `network_update` on a freshly initialized `struct network` leaves
`up_mbps` and `down_mbps` at `0` (for any clock value). -/
theorem first_update_produces_no_rate (mem : Cpu) (stat : Option CpuTicks)
    (cores : Option CoreRead) (ifname : Option (List Char)) (index : ℕ) (rd0 rd1 : Option IfData)
    (ts_now : Timespec) :
    (∃ c, cpu_update (cpu_init mem) stat cores = some c ∧ c.user_load = 0 ∧ c.sys_load = 0 ∧
        c.total_load = 0 ∧ c.core_loads = List.replicate MAX_CORES 0 ∧
        c.core_loads.length = 32) ∧
      (network_update (network_init ifname index rd0).1 ts_now rd1).up_mbps = Double.fin 0 ∧
      (network_update (network_init ifname index rd0).1 ts_now rd1).down_mbps = Double.fin 0 := by
  constructor
  · cases stat with
    | none => exact ⟨cpu_init mem, rfl, rfl, rfl, rfl, rfl, rfl⟩
    | some load =>
      cases cores with
      | none =>
        refine ⟨_, rfl, rfl, rfl, rfl, rfl, rfl⟩
      | some r =>
        refine ⟨_, rfl, rfl, rfl, rfl, rfl, rfl⟩
  · have hts : (network_init ifname index rd0).1.ts_prev = ⟨0, 0⟩ := by
      unfold network_init
      rcases ifname with _ | _ | ⟨c, cs⟩
      · rfl
      · rfl
      · simp only
        split_ifs <;> rfl
    have hup : (network_init ifname index rd0).1.up_mbps = Double.fin 0 := by
      unfold network_init
      rcases ifname with _ | _ | ⟨c, cs⟩
      · rfl
      · rfl
      · simp only
        split_ifs <;> rfl
    have hdown : (network_init ifname index rd0).1.down_mbps = Double.fin 0 := by
      unfold network_init
      rcases ifname with _ | _ | ⟨c, cs⟩
      · rfl
      · rfl
      · simp only
        split_ifs <;> rfl
    unfold network_update
    rw [if_pos (by rw [hts]; exact ⟨rfl, rfl⟩)]
    exact ⟨hup, hdown⟩

/-! ## The ranking -/

theorem gpu_entry_eq_some (e : ProcEntry) (p : proc_gpu_info_t) (h : gpu_entry e = some p) :
    eligible e ∧ p = { pid := e.pid, name := stored_name e, gpu_time := e.gpu_time } := by
  unfold gpu_entry at h
  unfold eligible
  split_ifs at h with h1 h2 h3
  simp only [Option.some.injEq] at h
  exact ⟨⟨by omega, h2, h3⟩, h.symm⟩

theorem gpu_entry_of_eligible (e : ProcEntry) (h : eligible e) :
    gpu_entry e = some { pid := e.pid, name := stored_name e, gpu_time := e.gpu_time } := by
  obtain ⟨h1, h2, h3⟩ := h
  unfold gpu_entry
  rw [if_neg (by omega), if_neg h2, if_neg h3]

theorem gpu_entry_of_not_eligible (e : ProcEntry) (h : ¬ eligible e) : gpu_entry e = none := by
  cases hg : gpu_entry e with
  | none => rfl
  | some p => exact absurd (gpu_entry_eq_some e p hg).1 h

theorem gpu_collect_metrics (entries : List ProcEntry) :
    (gpu_collect entries).map proc_gpu_info_t.gpu_time =
      (entries.filter (fun e => decide (eligible e))).map ProcEntry.gpu_time := by
  unfold gpu_collect
  induction entries with
  | nil => rfl
  | cons e rest ih =>
    by_cases he : eligible e
    · rw [List.filterMap_cons_some (gpu_entry_of_eligible e he),
        List.filter_cons_of_pos (by simpa using he)]
      simp only [List.map_cons, ih]
    · rw [List.filterMap_cons_none (gpu_entry_of_not_eligible e he),
        List.filter_cons_of_neg (by simpa using he)]
      exact ih

theorem compare_gpu_time_le_zero (a b : proc_gpu_info_t) :
    compare_gpu_time a b ≤ 0 ↔ a.gpu_time ≥ b.gpu_time := by
  unfold compare_gpu_time
  split_ifs with h1 h2
  · constructor
    · intro h; norm_num at h
    · intro h; omega
  · constructor
    · intro _; omega
    · intro _; norm_num
  · constructor
    · intro _; omega
    · intro _; norm_num

/-- C8: for every process list, and every `qsort` that returns its input
permuted and sorted for `compare_gpu_time`, the ranked records consist only of
eligible processes (pid > 0, metric != 0, non-empty name), are at most 10
(exactly `min(10, n)` for `n` eligible processes), are in non-increasing metric
order, and their metrics are exactly the `min(10, n)` largest metrics among
the eligible processes. -/
theorem gpu_ranked_spec (qsort : List proc_gpu_info_t → List proc_gpu_info_t)
    (hperm : ∀ l, (qsort l).Perm l)
    (hsorted : ∀ l, (qsort l).Sorted (fun a b => compare_gpu_time a b ≤ 0))
    (entries : List ProcEntry) :
    (∀ p ∈ gpu_ranked qsort entries, ∃ e ∈ entries, eligible e ∧
        p = { pid := e.pid, name := stored_name e, gpu_time := e.gpu_time }) ∧
      (gpu_ranked qsort entries).length ≤ 10 ∧
      (gpu_ranked qsort entries).length =
        min 10 (entries.filter (fun e => decide (eligible e))).length ∧
      (gpu_ranked qsort entries).Sorted (fun a b => a.gpu_time ≥ b.gpu_time) ∧
      (gpu_ranked qsort entries).map proc_gpu_info_t.gpu_time = top_metrics 10 entries := by
  have hlen : (gpu_collect entries).length
      = (entries.filter (fun e => decide (eligible e))).length := by
    have := congrArg List.length (gpu_collect_metrics entries)
    simpa using this
  have hqlen : (qsort (gpu_collect entries)).length = (gpu_collect entries).length :=
    (hperm _).length_eq
  have hrank : gpu_ranked qsort entries = (qsort (gpu_collect entries)).take 10 := by
    unfold gpu_ranked MAX_TOP_PROCS
    simp only
    split_ifs with h
    · rw [List.take_of_length_le (by omega), List.take_of_length_le (by omega)]
    · rfl
  have hsorted2 : (qsort (gpu_collect entries)).Sorted (fun a b => a.gpu_time ≥ b.gpu_time) := by
    have := hsorted (gpu_collect entries)
    unfold List.Sorted at this ⊢
    exact this.imp (fun {a b} h => (compare_gpu_time_le_zero a b).mp h)
  rw [hrank]
  refine ⟨?_, ?_, ?_, ?_, ?_⟩
  · intro p hp
    have h1 : p ∈ qsort (gpu_collect entries) := List.mem_of_mem_take hp
    have h2 : p ∈ gpu_collect entries := (hperm _).mem_iff.mp h1
    unfold gpu_collect at h2
    obtain ⟨e, he, hpe⟩ := List.mem_filterMap.mp h2
    exact ⟨e, he, gpu_entry_eq_some e p hpe⟩
  · rw [List.length_take]; omega
  · rw [List.length_take, hqlen, hlen]
  · unfold List.Sorted at hsorted2 ⊢
    exact hsorted2.sublist (List.take_sublist _ _)
  · unfold top_metrics
    rw [List.map_take]
    congr 1
    apply List.eq_of_perm_of_sorted (r := fun a b : ℕ => a ≥ b)
    · have h1 : ((qsort (gpu_collect entries)).map proc_gpu_info_t.gpu_time).Perm
          ((gpu_collect entries).map proc_gpu_info_t.gpu_time) := (hperm _).map _
      rw [gpu_collect_metrics] at h1
      exact h1.trans (List.perm_insertionSort _ _).symm
    · unfold List.Sorted at hsorted2 ⊢
      rw [List.pairwise_map]
      exact hsorted2
    · exact List.sorted_insertionSort _ _

theorem insertion_qsort_perm (l : List proc_gpu_info_t) : (insertion_qsort l).Perm l :=
  List.perm_insertionSort _ l

theorem insertion_qsort_sorted (l : List proc_gpu_info_t) :
    (insertion_qsort l).Sorted (fun a b => compare_gpu_time a b ≤ 0) := by
  unfold insertion_qsort
  have htotal : IsTotal proc_gpu_info_t (fun a b => compare_gpu_time a b ≤ 0) :=
    ⟨fun a b => by
      rw [compare_gpu_time_le_zero, compare_gpu_time_le_zero]
      exact Nat.le_total _ _⟩
  have htrans : IsTrans proc_gpu_info_t (fun a b => compare_gpu_time a b ≤ 0) :=
    ⟨fun a b c => by
      rw [compare_gpu_time_le_zero, compare_gpu_time_le_zero, compare_gpu_time_le_zero]
      intro h1 h2
      exact le_trans h2 h1⟩
  exact List.sorted_insertionSort _ l

/-- Witness of `gpu_ranked_spec`: `[(A,50),(B,200),(C,0),(D,75)]` ranks as
`B(200), D(75), A(50)`, `C` being left out for its zero metric. -/
theorem gpu_ranked_spec_witness :
    ((∀ p ∈ gpu_ranked insertion_qsort example_entries, ∃ e ∈ example_entries, eligible e ∧
        p = { pid := e.pid, name := stored_name e, gpu_time := e.gpu_time }) ∧
      (gpu_ranked insertion_qsort example_entries).length ≤ 10 ∧
      (gpu_ranked insertion_qsort example_entries).length =
        min 10 (example_entries.filter (fun e => decide (eligible e))).length ∧
      (gpu_ranked insertion_qsort example_entries).Sorted (fun a b => a.gpu_time ≥ b.gpu_time) ∧
      (gpu_ranked insertion_qsort example_entries).map proc_gpu_info_t.gpu_time
        = top_metrics 10 example_entries) ∧
    gpu_ranked insertion_qsort example_entries = [⟨2, ['B'], 200⟩, ⟨4, ['D'], 75⟩, ⟨1, ['A'], 50⟩] ∧
    top_metrics 10 example_entries = [200, 75, 50] :=
  ⟨gpu_ranked_spec insertion_qsort insertion_qsort_perm insertion_qsort_sorted example_entries,
    by decide!, by decide!⟩

/-! ## The formatting loop -/

theorem size_sub_of_le (a b : ℕ) (h : b ≤ a) (ha : a < 2 ^ 64) : size_sub a b = a - b := by
  unfold size_sub
  omega

theorem snprintf_at_end (T rest text : List Char) (limit : ℕ) (h1 : 1 ≤ limit)
    (hlim : T.length + limit = (T ++ NUL :: rest).length) :
    ∃ rest', snprintf (T ++ NUL :: rest) T.length limit text
        = some (T ++ text.take (limit - 1) ++ NUL :: rest', (text.length : ℤ)) ∧
      (T ++ text.take (limit - 1) ++ NUL :: rest').length = (T ++ NUL :: rest).length := by
  unfold snprintf
  rw [if_pos (le_of_eq hlim), if_neg (by omega)]
  refine ⟨(T ++ NUL :: rest).drop (T.length + (text.take (limit - 1)).length + 1), ?_, ?_⟩
  · simp only [List.take_left', List.append_assoc, List.singleton_append]
  · have hs : (text.take (limit - 1)).length ≤ limit - 1 := by
      rw [List.length_take]; exact min_le_left _ _
    simp only [List.length_append, List.length_cons, List.length_drop] at hlim ⊢
    omega

theorem gpu_format_loop_spec (bufsize : ℕ) (h1 : 1 ≤ bufsize) (h64 : bufsize < 2 ^ 64)
    (ranked : List proc_gpu_info_t) :
    ∀ (i : ℕ) (st : FmtState) (T : List Char), st.buffer.length = bufsize →
      st.offset = T.length →
      (∃ rest, st.buffer = T.take (bufsize - 1) ++ NUL :: rest) →
      (∀ c ∈ st.calls, c.1 < bufsize - 1 ∧ c.2 = bufsize - c.1) →
      ∃ st', gpu_format_loop bufsize ranked i st = some st' ∧ st'.buffer.length = bufsize ∧
        (∃ rest, st'.buffer = (T ++ gpu_text i ranked).take (bufsize - 1) ++ NUL :: rest) ∧
        (∀ c ∈ st'.calls, c.1 < bufsize - 1 ∧ c.2 = bufsize - c.1) := by
  induction ranked with
  | nil =>
    intro i st T hL hoff hbuf hcalls
    have hloop : gpu_format_loop bufsize [] i st = some st := by
      rw [gpu_format_loop]
    refine ⟨st, hloop, hL, ?_, hcalls⟩
    simp only [gpu_text, List.append_nil]
    exact hbuf
  | cons p rest ih =>
    intro i st T hL hoff hbuf hcalls
    obtain ⟨buf, off, calls⟩ := st
    simp only at hL hoff hbuf hcalls
    subst hoff
    rw [gpu_format_loop, size_sub_of_le bufsize 1 h1 h64]
    simp only
    by_cases hlt : T.length < bufsize - 1
    · rw [if_pos hlt]
      obtain ⟨r, hr⟩ := hbuf
      rw [List.take_of_length_le (by omega)] at hr
      subst hr
      rw [size_sub_of_le bufsize T.length (by omega) h64]
      have hlim : T.length + (bufsize - T.length) = (T ++ NUL :: r).length := by
        rw [hL]; omega
      obtain ⟨r', hsn, hlen'⟩ :=
        snprintf_at_end T r (gpu_pair i p) (bufsize - T.length) (by omega) hlim
      rw [hsn]
      simp only
      have hoff' : (if ((gpu_pair i p).length : ℤ) > 0 then
          T.length + ((gpu_pair i p).length : ℤ).toNat else T.length)
          = (T ++ gpu_pair i p).length := by
        rw [List.length_append]
        split_ifs with hw
        · simp
        · have : (gpu_pair i p).length = 0 := by omega
          omega
      rw [hoff']
      have etake : List.take (bufsize - 1) (T ++ gpu_pair i p)
          = T ++ List.take (bufsize - T.length - 1) (gpu_pair i p) := by
        rw [List.take_append_eq_append_take, List.take_of_length_le (by omega)]
        congr 2
        omega
      have hres := ih (i + 1)
        { buffer := T ++ List.take (bufsize - T.length - 1) (gpu_pair i p) ++ NUL :: r'
          offset := (T ++ gpu_pair i p).length
          calls := calls ++ [(T.length, bufsize - T.length)] }
        (T ++ gpu_pair i p)
        (by simp only; rw [hlen']; exact hL)
        rfl
        ⟨r', by simp only; rw [etake]⟩
        (by
          intro c hc
          simp only [List.mem_append, List.mem_singleton] at hc
          rcases hc with hc | hc
          · exact hcalls c hc
          · rw [hc]; exact ⟨hlt, rfl⟩)
      obtain ⟨st', hst', hl', hb', hc'⟩ := hres
      refine ⟨st', hst', hl', ?_, hc'⟩
      obtain ⟨r2, hr2⟩ := hb'
      refine ⟨r2, ?_⟩
      rw [hr2]
      simp only [gpu_text, List.append_assoc]
    · rw [if_neg hlt]
      refine ⟨_, rfl, hL, ?_, hcalls⟩
      obtain ⟨r, hr⟩ := hbuf
      refine ⟨r, ?_⟩
      simp only
      rw [hr, List.take_append_of_le_length (by omega)]

/-! ## The string left in the buffer -/

theorem cstr_append_nul (X rest : List Char) (h : NUL ∉ X) : cstr (X ++ NUL :: rest) = X := by
  unfold cstr
  induction X with
  | nil => simp
  | cons c cs ih =>
    have hc : c ≠ NUL := fun hc => h (by rw [hc]; exact List.mem_cons_self _ _)
    have hcs : NUL ∉ cs := fun hcs => h (List.mem_cons_of_mem _ hcs)
    simp only [List.cons_append]
    rw [List.takeWhile_cons_of_pos (by simpa using hc), ih hcs]

theorem cstr_length_le (X rest : List Char) : (cstr (X ++ NUL :: rest)).length ≤ X.length := by
  unfold cstr
  induction X with
  | nil => simp
  | cons c cs ih =>
    simp only [List.cons_append, List.takeWhile_cons]
    split_ifs
    · simp only [List.length_cons]; omega
    · simp

theorem cstr_terminated (l : List Char) (h : NUL ∈ l) : ∃ rest, l = cstr l ++ NUL :: rest := by
  unfold cstr
  induction l with
  | nil => simp at h
  | cons c cs ih =>
    by_cases hc : c = NUL
    · refine ⟨cs, ?_⟩
      rw [List.takeWhile_cons_of_neg (by simpa using hc), hc]
      rfl
    · have hcs : NUL ∈ cs := by
        rcases List.mem_cons.mp h with h1 | h1
        · exact absurd h1.symm hc
        · exact h1
      obtain ⟨r, hr⟩ := ih hcs
      refine ⟨r, ?_⟩
      rw [List.takeWhile_cons_of_pos (by simpa using hc)]
      simp only [List.cons_append]
      rw [← hr]

theorem digitChar_ne_nul : ∀ k < 10, Nat.digitChar k ≠ NUL := by decide

theorem toDigitsCore_no_nul (fuel : ℕ) : ∀ (n : ℕ) (ds : List Char), NUL ∉ ds →
    NUL ∉ Nat.toDigitsCore 10 fuel n ds := by
  induction fuel with
  | zero => intro n ds h; simpa [Nat.toDigitsCore] using h
  | succ fuel ih =>
    intro n ds h
    have hd : NUL ∉ Nat.digitChar (n % 10) :: ds := by
      intro hmem
      rcases List.mem_cons.mp hmem with h1 | h1
      · exact digitChar_ne_nul (n % 10) (Nat.mod_lt _ (by norm_num)) h1.symm
      · exact h h1
    rw [Nat.toDigitsCore]
    split_ifs
    · exact hd
    · exact ih _ _ hd

theorem gpu_pair_no_nul (i : ℕ) (p : proc_gpu_info_t) (h : NUL ∉ p.name) : NUL ∉ gpu_pair i p := by
  unfold gpu_pair
  have hdig : NUL ∉ Nat.toDigits 10 p.gpu_time := toDigitsCore_no_nul _ _ _ (by simp)
  have h1 : NUL ≠ ';' := by decide
  have h2 : NUL ≠ ':' := by decide
  simp only [List.mem_append, not_or, List.mem_singleton]
  refine ⟨⟨⟨?_, h⟩, h2⟩, hdig⟩
  split_ifs
  · simpa using h1
  · simp

theorem gpu_text_no_nul (ranked : List proc_gpu_info_t) (h : ∀ p ∈ ranked, NUL ∉ p.name) :
    ∀ i, NUL ∉ gpu_text i ranked := by
  induction ranked with
  | nil => intro i; simp [gpu_text]
  | cons p rest ih =>
    intro i
    simp only [gpu_text, List.mem_append, not_or]
    exact ⟨gpu_pair_no_nul i p (h p (List.mem_cons_self _ _)),
      ih (fun q hq => h q (List.mem_cons_of_mem _ hq)) (i + 1)⟩

theorem gpu_format_spec (ranked : List proc_gpu_info_t) (buffer : List Char) (bufsize : ℕ)
    (hL : buffer.length = bufsize) (h1 : 1 ≤ bufsize) (h64 : bufsize < 2 ^ 64) :
    ∃ st, gpu_format ranked buffer bufsize = some st ∧ st.buffer.length = bufsize ∧
      (∃ rest, st.buffer = (gpu_text 0 ranked).take (bufsize - 1) ++ NUL :: rest) ∧
      (∀ c ∈ st.calls, c.1 < bufsize - 1 ∧ c.2 = bufsize - c.1) := by
  cases buffer with
  | nil => simp at hL; omega
  | cons b tail =>
    have := gpu_format_loop_spec bufsize h1 h64 ranked 0
      { buffer := NUL :: tail, offset := 0, calls := [] } []
      (by simpa using hL) rfl ⟨tail, by simp⟩ (by simp)
    simpa [gpu_format] using this

/-- C9 (as stated, refuted): with a capacity of 8 bytes the ranked list
`B(200), D(75), A(50)` leaves `B:200;D` in the buffer: the pair `;D:75` did not
fit and its first two bytes were emitted, so the string is not a concatenation
of whole pairs. -/
theorem gpu_format_emits_fragment :
    (gpu_format (gpu_ranked insertion_qsort example_entries) (List.replicate 8 'x') 8).map
        (fun st => cstr st.buffer) = some ['B', ':', '2', '0', '0', ';', 'D'] ∧
      ∀ k, ['B', ':', '2', '0', '0', ';', 'D']
        ≠ gpu_text 0 ((gpu_ranked insertion_qsort example_entries).take k) := by
  constructor
  · decide!
  · intro k
    have hr : gpu_ranked insertion_qsort example_entries
        = [⟨2, ['B'], 200⟩, ⟨4, ['D'], 75⟩, ⟨1, ['A'], 50⟩] := by decide!
    rw [hr]
    rcases k with _ | _ | _ | k
    · decide!
    · decide!
    · decide!
    · rw [List.take_of_length_le (by simp)]
      decide!

/-- C9 (amended): for every ranked list of records whose names are C strings
and every buffer capacity from 1 on, the string left in the buffer is the
first `bufsize - 1` bytes of the serialization `name:metric;name:metric;...` of
the ranked list: whole pairs and, when the text does not fit, the beginning of
the pair at which the capacity ran out; nothing is appended after it. -/
theorem gpu_format_truncates (ranked : List proc_gpu_info_t) (buffer : List Char) (bufsize : ℕ)
    (hL : buffer.length = bufsize) (h1 : 1 ≤ bufsize) (h64 : bufsize < 2 ^ 64)
    (hnul : ∀ p ∈ ranked, NUL ∉ p.name) :
    ∃ st, gpu_format ranked buffer bufsize = some st ∧
      cstr st.buffer = (gpu_text 0 ranked).take (bufsize - 1) := by
  obtain ⟨st, hst, _, ⟨rest, hrest⟩, _⟩ := gpu_format_spec ranked buffer bufsize hL h1 h64
  refine ⟨st, hst, ?_⟩
  rw [hrest]
  apply cstr_append_nul
  intro hmem
  exact gpu_text_no_nul ranked hnul 0 (List.mem_of_mem_take hmem)

/-- Witness of `gpu_format_truncates`: the ranked list `B(200), D(75), A(50)`
and a capacity of 8 bytes. -/
theorem gpu_format_truncates_witness :
    ∃ st, gpu_format (gpu_ranked insertion_qsort example_entries) (List.replicate 8 'x') 8
        = some st ∧
      cstr st.buffer = (gpu_text 0 (gpu_ranked insertion_qsort example_entries)).take (8 - 1) :=
  gpu_format_truncates (gpu_ranked insertion_qsort example_entries) (List.replicate 8 'x') 8
    (by decide) (by decide) (by norm_num) (by decide!)

/-! ## Bounds of the buffer -/

theorem snprintf_empty (buffer : List Char) (bufsize : ℕ) (hL : buffer.length = bufsize)
    (h1 : 1 ≤ bufsize) :
    (snprintf buffer 0 bufsize []).map Prod.fst = some (NUL :: buffer.drop 1) := by
  unfold snprintf
  rw [if_pos (by omega), if_neg (by omega)]
  simp

theorem terminated_of_eq (out X rest : List Char) (bufsize : ℕ) (h : out = X.take (bufsize - 1) ++ NUL :: rest) :
    (cstr out).length ≤ bufsize - 1 ∧ ∃ rest', out = cstr out ++ NUL :: rest' := by
  constructor
  · rw [h]
    refine le_trans (cstr_length_le _ _) ?_
    rw [List.length_take]
    exact min_le_left _ _
  · apply cstr_terminated
    rw [h]
    simp

/-- C10: for every ranked list (any names, any metrics) and every buffer of
capacity `bufsize` from 1 on (so for every `bufsize >= 2`, and for the 2048
bytes of the program), the serialization stays inside the buffer: every
`snprintf` call is made at an offset `< bufsize - 1` with the limit
`bufsize - offset`, so that its region ends at the end of the array, the
function returns, and the array then holds a NUL-terminated string of length
`<= bufsize - 1`; the same holds for `get_top_gpu_processes` on every path. -/
theorem gpu_format_in_bounds (ranked : List proc_gpu_info_t) (buffer : List Char) (bufsize : ℕ)
    (hL : buffer.length = bufsize) (h1 : 1 ≤ bufsize) (h64 : bufsize < 2 ^ 64) :
    (∃ st, gpu_format ranked buffer bufsize = some st ∧ st.buffer.length = bufsize ∧
        (∀ c ∈ st.calls, c.1 < bufsize - 1 ∧ c.2 = bufsize - c.1 ∧
          c.1 + c.2 ≤ st.buffer.length) ∧
        (cstr st.buffer).length ≤ bufsize - 1 ∧
        ∃ rest, st.buffer = cstr st.buffer ++ NUL :: rest) ∧
      ∀ (qsort : List proc_gpu_info_t → List proc_gpu_info_t) (read : ProcRead),
        ∃ out, get_top_gpu_processes qsort read buffer bufsize = some out ∧
          out.length = bufsize ∧ (cstr out).length ≤ bufsize - 1 ∧
          ∃ rest, out = cstr out ++ NUL :: rest := by
  have hfmt : ∀ l : List proc_gpu_info_t,
      ∃ st, gpu_format l buffer bufsize = some st ∧ st.buffer.length = bufsize ∧
        (∀ c ∈ st.calls, c.1 < bufsize - 1 ∧ c.2 = bufsize - c.1 ∧
          c.1 + c.2 ≤ st.buffer.length) ∧
        (cstr st.buffer).length ≤ bufsize - 1 ∧
        ∃ rest, st.buffer = cstr st.buffer ++ NUL :: rest := by
    intro l
    obtain ⟨st, hst, hlen, ⟨rest, hrest⟩, hcalls⟩ := gpu_format_spec l buffer bufsize hL h1 h64
    obtain ⟨ht1, ht2⟩ := terminated_of_eq _ _ _ bufsize hrest
    refine ⟨st, hst, hlen, ?_, ht1, ht2⟩
    intro c hc
    obtain ⟨hc1, hc2⟩ := hcalls c hc
    refine ⟨hc1, hc2, ?_⟩
    rw [hlen, hc2]
    omega
  refine ⟨hfmt ranked, ?_⟩
  intro qsort read
  have hempty : ∃ out, (snprintf buffer 0 bufsize []).map Prod.fst = some out ∧
      out.length = bufsize ∧ (cstr out).length ≤ bufsize - 1 ∧
      ∃ rest, out = cstr out ++ NUL :: rest := by
    refine ⟨NUL :: buffer.drop 1, snprintf_empty buffer bufsize hL h1, ?_, ?_⟩
    · simp only [List.length_cons, List.length_drop]; omega
    · exact terminated_of_eq _ [] (buffer.drop 1) bufsize (by simp)
  unfold get_top_gpu_processes
  split_ifs
  · exact hempty
  · exact hempty
  · exact hempty
  · exact hempty
  · obtain ⟨st, hst, hlen, _, ht1, ht2⟩ := hfmt (gpu_ranked qsort read.entries)
    exact ⟨st.buffer, by rw [hst]; rfl, hlen, ht1, ht2⟩

/-- Witness of `gpu_format_in_bounds`: the ranked list `B(200), D(75), A(50)`
and a capacity of 12 bytes. -/
theorem gpu_format_in_bounds_witness :
    ((∃ st, gpu_format (gpu_ranked insertion_qsort example_entries) (List.replicate 12 'x') 12
          = some st ∧ st.buffer.length = 12 ∧
        (∀ c ∈ st.calls, c.1 < 12 - 1 ∧ c.2 = 12 - c.1 ∧ c.1 + c.2 ≤ st.buffer.length) ∧
        (cstr st.buffer).length ≤ 12 - 1 ∧
        ∃ rest, st.buffer = cstr st.buffer ++ NUL :: rest) ∧
      ∀ (qsort : List proc_gpu_info_t → List proc_gpu_info_t) (read : ProcRead),
        ∃ out, get_top_gpu_processes qsort read (List.replicate 12 'x') 12 = some out ∧
          out.length = 12 ∧ (cstr out).length ≤ 12 - 1 ∧
          ∃ rest, out = cstr out ++ NUL :: rest) ∧
    (gpu_format (gpu_ranked insertion_qsort example_entries) (List.replicate 12 'x') 12).map
      (fun st => st.calls) = some [(0, 12), (5, 7), (10, 2)] :=
  ⟨gpu_format_in_bounds (gpu_ranked insertion_qsort example_entries) (List.replicate 12 'x') 12
    (by decide) (by decide) (by norm_num), by decide!⟩

/-! ## The ranked list within its buffer -/

theorem intercalate_cons (sep a : List Char) (l : List (List Char)) :
    List.intercalate sep (a :: l) = a ++ (l.map (fun x => sep ++ x)).flatten := by
  induction l generalizing a with
  | nil => simp [List.intercalate]
  | cons b rest ih =>
    have h := ih b
    simp only [List.intercalate, List.intersperse_cons_cons, List.flatten_cons, List.map_cons] at h ⊢
    rw [h]
    simp only [List.append_assoc]

theorem gpu_text_succ (ranked : List proc_gpu_info_t) : ∀ i, 0 < i →
    gpu_text i ranked = ((ranked.map gpu_pair_text).map (fun x => [';'] ++ x)).flatten := by
  induction ranked with
  | nil => intro i _; simp [gpu_text]
  | cons p rest ih =>
    intro i hi
    simp only [gpu_text, List.map_cons, List.flatten_cons, ih (i + 1) (Nat.succ_pos i)]
    congr 1
    unfold gpu_pair gpu_pair_text
    rw [if_pos hi]
    simp only [List.append_assoc]

theorem gpu_text_eq_joined (ranked : List proc_gpu_info_t) :
    gpu_text 0 ranked = gpu_joined ranked := by
  unfold gpu_joined
  cases ranked with
  | nil => simp [gpu_text, List.intercalate]
  | cons p rest =>
    rw [List.map_cons, intercalate_cons]
    simp only [gpu_text, gpu_text_succ rest 1 Nat.one_pos]
    congr 1

theorem gpu_ranked_mem (qsort : List proc_gpu_info_t → List proc_gpu_info_t)
    (hperm : ∀ l, (qsort l).Perm l) (entries : List ProcEntry) (p : proc_gpu_info_t)
    (hp : p ∈ gpu_ranked qsort entries) :
    ∃ e ∈ entries, eligible e ∧
      p = { pid := e.pid, name := stored_name e, gpu_time := e.gpu_time } := by
  unfold gpu_ranked at hp
  have h1 : p ∈ qsort (gpu_collect entries) := List.mem_of_mem_take hp
  have h2 : p ∈ gpu_collect entries := (hperm _).mem_iff.mp h1
  unfold gpu_collect at h2
  obtain ⟨e, he, hpe⟩ := List.mem_filterMap.mp h2
  exact ⟨e, he, gpu_entry_eq_some e p hpe⟩

theorem gpu_ranked_of_none_eligible (qsort : List proc_gpu_info_t → List proc_gpu_info_t)
    (entries : List ProcEntry) (h : ∀ e ∈ entries, ¬ eligible e) :
    gpu_ranked qsort entries = [] := by
  have hc : gpu_collect entries = [] := by
    unfold gpu_collect
    rw [List.filterMap_eq_nil_iff]
    intro e he
    exact gpu_entry_of_not_eligible e (h e he)
  unfold gpu_ranked MAX_TOP_PROCS
  simp [hc]

theorem cstr_no_nul (l : List Char) : NUL ∉ cstr l := by
  unfold cstr
  intro h
  have := List.mem_takeWhile_imp h
  simp at this

theorem stored_name_no_nul (e : ProcEntry) (h : NUL ∉ e.name) : NUL ∉ stored_name e := by
  unfold stored_name
  split_ifs
  · exact h
  · intro hmem
    rcases List.mem_append.mp hmem with hm | hm
    · exact h (List.mem_of_mem_take hm)
    · exact cstr_no_nul _ hm

theorem stored_name_of_short (e : ProcEntry) (h : e.name.length < 255) :
    stored_name e = e.name := by
  unfold stored_name
  rw [if_pos h]

/-- C11: a process whose name has 255 bytes, with the metric 5, on memory that
holds the bytes `x`, `y`, NUL from `name[255]` of its record on. The
serialization `AAA...A:5` has 257 bytes and fits in the 2048 bytes of the
program, but `get_top_gpu_processes` leaves `AAA...Axy:5` in the buffer:
`strncpy` copied the 255 bytes without a terminator and `%s` runs on through
the bytes the program never wrote. When `name[255]` happens to hold a NUL the
output is the serialization. -/
theorem get_top_gpu_processes_name_runs_on :
    stored_name ⟨7, 5, List.replicate 255 'A', ['x', 'y', NUL]⟩
        = List.replicate 255 'A' ++ ['x', 'y'] ∧
      (get_top_gpu_processes insertion_qsort long_name_read (List.replicate 2048 NUL) 2048).map
          cstr = some (List.replicate 255 'A' ++ ['x', 'y', ':', '5']) ∧
      List.replicate 255 'A' ++ ['x', 'y', ':', '5'] ≠ List.replicate 255 'A' ++ [':', '5'] ∧
      (List.replicate 255 'A' ++ [':', '5']).length ≤ 2048 - 1 ∧
      (get_top_gpu_processes insertion_qsort
          { long_name_read with entries := [⟨7, 5, List.replicate 255 'A', [NUL, 'x']⟩] }
          (List.replicate 2048 NUL) 2048).map cstr
        = some (List.replicate 255 'A' ++ [':', '5']) := by
  decide!

/-- The part of C11 that holds. For every process read and every `qsort` that
returns a permutation of its input, `get_top_gpu_processes` returns with a C
string in the buffer (capacity from 1 on, names being C strings) such that:
when the pairs `name:metric` (metric in unsigned decimal) of the ranked
records joined by `;` fit in `bufsize - 1` bytes, the string is exactly that
text, with no leading or trailing separator; the string is empty when no
process is eligible, when the pid list is empty, and on the paths that return
early. The name of a ranked record is the string stored in the record; it is
the name of the process when that name has fewer than 255 bytes. -/
theorem get_top_gpu_processes_fits (qsort : List proc_gpu_info_t → List proc_gpu_info_t)
    (hperm : ∀ l, (qsort l).Perm l) (read : ProcRead) (buffer : List Char) (bufsize : ℕ)
    (hL : buffer.length = bufsize) (h1 : 1 ≤ bufsize) (h64 : bufsize < 2 ^ 64)
    (hnul : ∀ e ∈ read.entries, NUL ∉ e.name) :
    (∃ out, get_top_gpu_processes qsort read buffer bufsize = some out ∧
      (0 < read.probe → read.pids_alloc = true → read.procs_alloc = true →
        (gpu_joined (gpu_ranked qsort read.entries)).length ≤ bufsize - 1 →
        cstr out = gpu_joined (gpu_ranked qsort read.entries)) ∧
      ((∀ e ∈ read.entries, ¬ eligible e) → cstr out = []) ∧
      (read.probe ≤ 0 ∨ read.pids_alloc = false ∨ read.entries = [] ∨ read.procs_alloc = false →
        cstr out = [])) ∧
    ((∀ e ∈ read.entries, e.name.length < 255) →
      ∀ p ∈ gpu_ranked qsort read.entries, ∃ e ∈ read.entries, eligible e ∧
        p = { pid := e.pid, name := e.name, gpu_time := e.gpu_time }) := by
  refine ⟨?_, fun hshort p hp => by
    obtain ⟨e, he, hel, hpe⟩ := gpu_ranked_mem qsort hperm read.entries p hp
    rw [stored_name_of_short e (hshort e he)] at hpe
    exact ⟨e, he, hel, hpe⟩⟩
  have hempty : (snprintf buffer 0 bufsize []).map Prod.fst = some (NUL :: buffer.drop 1) :=
    snprintf_empty buffer bufsize hL h1
  have hcz : cstr (NUL :: buffer.drop 1) = [] := by
    unfold cstr; simp
  have hj0 : ∀ l : List proc_gpu_info_t, l = [] → gpu_joined l = [] := by
    intro l hl; subst hl; rfl
  have hrnul : ∀ p ∈ gpu_ranked qsort read.entries, NUL ∉ p.name := by
    intro p hp
    obtain ⟨e, he, _, hpe⟩ := gpu_ranked_mem qsort hperm read.entries p hp
    rw [hpe]
    exact stored_name_no_nul e (hnul e he)
  obtain ⟨st, hst, _, ⟨rest, hrest⟩, _⟩ :=
    gpu_format_spec (gpu_ranked qsort read.entries) buffer bufsize hL h1 h64
  have hmain : cstr st.buffer = (gpu_joined (gpu_ranked qsort read.entries)).take (bufsize - 1) := by
    rw [hrest, ← gpu_text_eq_joined]
    apply cstr_append_nul
    intro hmem
    exact gpu_text_no_nul _ hrnul 0 (List.mem_of_mem_take hmem)
  unfold get_top_gpu_processes
  by_cases hp : read.probe ≤ 0
  · rw [if_pos hp]
    refine ⟨_, hempty, ?_, fun _ => hcz, fun _ => hcz⟩
    intro h; omega
  rw [if_neg hp]
  by_cases ha : read.pids_alloc = false
  · rw [if_pos ha]
    refine ⟨_, hempty, ?_, fun _ => hcz, fun _ => hcz⟩
    intro _ h; rw [ha] at h; exact absurd h (by decide)
  rw [if_neg ha]
  by_cases he : read.entries = []
  · rw [if_pos he]
    refine ⟨_, hempty, ?_, fun _ => hcz, fun _ => hcz⟩
    intro _ _ _ _
    rw [hcz, hj0]
    rw [he]
    exact gpu_ranked_of_none_eligible qsort [] (by simp)
  rw [if_neg he]
  by_cases hb : read.procs_alloc = false
  · rw [if_pos hb]
    refine ⟨_, hempty, ?_, fun _ => hcz, fun _ => hcz⟩
    intro _ _ h; rw [hb] at h; exact absurd h (by decide)
  rw [if_neg hb, hst]
  refine ⟨st.buffer, rfl, ?_, ?_, ?_⟩
  · intro _ _ _ hfit
    rw [hmain, List.take_of_length_le hfit]
  · intro hne
    rw [hmain, hj0 _ (gpu_ranked_of_none_eligible qsort read.entries hne), List.take_nil]
  · intro h
    rcases h with h | h | h | h
    · exact absurd h hp
    · exact absurd h ha
    · exact absurd h he
    · exact absurd h hb

/-- Witness of `get_top_gpu_processes_fits`: the process list
`[(A,50),(B,200),(C,0),(D,75)]` and the 2048 bytes of the program give
`B:200;D:75;A:50`. -/
theorem get_top_gpu_processes_fits_witness :
    ((∃ out, get_top_gpu_processes insertion_qsort example_read (List.replicate 2048 'x') 2048
          = some out ∧
        (0 < example_read.probe → example_read.pids_alloc = true →
          example_read.procs_alloc = true →
          (gpu_joined (gpu_ranked insertion_qsort example_read.entries)).length ≤ 2048 - 1 →
          cstr out = gpu_joined (gpu_ranked insertion_qsort example_read.entries)) ∧
        ((∀ e ∈ example_read.entries, ¬ eligible e) → cstr out = []) ∧
        (example_read.probe ≤ 0 ∨ example_read.pids_alloc = false ∨ example_read.entries = [] ∨
            example_read.procs_alloc = false → cstr out = [])) ∧
      ((∀ e ∈ example_read.entries, e.name.length < 255) →
        ∀ p ∈ gpu_ranked insertion_qsort example_read.entries, ∃ e ∈ example_read.entries,
          eligible e ∧ p = { pid := e.pid, name := e.name, gpu_time := e.gpu_time })) ∧
      (get_top_gpu_processes insertion_qsort example_read (List.replicate 2048 'x') 2048).map cstr
        = some ['B', ':', '2', '0', '0', ';', 'D', ':', '7', '5', ';', 'A', ':', '5', '0'] ∧
      gpu_joined (gpu_ranked insertion_qsort example_read.entries)
        = ['B', ':', '2', '0', '0', ';', 'D', ':', '7', '5', ';', 'A', ':', '5', '0'] :=
  ⟨get_top_gpu_processes_fits insertion_qsort insertion_qsort_perm example_read
      (List.replicate 2048 'x') 2048 (List.length_replicate _ _) (by norm_num) (by norm_num)
      (by decide),
    by decide!, by decide!⟩

/-! ## The per-core loop -/

theorem cores_loop_spec (info prev : List CpuTicks) :
    ∀ (idxs : List ℕ) (loads loads' : List ℤ), cores_loop info prev idxs loads = some loads' →
      loads'.length = loads.length ∧
      (∀ j, j ∉ idxs → loads'[j]? = loads[j]?) ∧
      (idxs.Nodup → ∀ j ∈ idxs, ∃ cur prv l, info[j]? = some cur ∧ prev[j]? = some prv ∧
        core_load cur prv = some l ∧ (j < loads.length → loads'[j]? = some l)) := by
  intro idxs
  induction idxs with
  | nil =>
    intro loads loads' h
    rw [cores_loop] at h
    simp only [Option.some.injEq] at h
    subst h
    exact ⟨rfl, fun _ _ => rfl, fun _ j hj => absurd hj (List.not_mem_nil j)⟩
  | cons i rest ih =>
    intro loads loads' h
    rw [cores_loop] at h
    cases hi : info[i]? with
    | none => simp [hi] at h
    | some cur =>
      cases hp : prev[i]? with
      | none => simp [hi, hp] at h
      | some prv =>
        cases hl : core_load cur prv with
        | none => simp [hi, hp, hl] at h
        | some l =>
          simp only [hi, hp, hl] at h
          obtain ⟨h1, h2, h3⟩ := ih (loads.set i l) loads' h
          refine ⟨by rw [h1, List.length_set], ?_, ?_⟩
          · intro j hj
            have hji : j ≠ i := fun e => hj (by rw [e]; exact List.mem_cons_self _ _)
            have hjr : j ∉ rest := fun e => hj (List.mem_cons_of_mem _ e)
            rw [h2 j hjr, List.getElem?_set_ne (Ne.symm hji)]
          · intro hnd j hj
            have hir : i ∉ rest := (List.nodup_cons.mp hnd).1
            have hndr : rest.Nodup := (List.nodup_cons.mp hnd).2
            rcases List.mem_cons.mp hj with hji | hjr
            · subst hji
              refine ⟨cur, prv, l, hi, hp, hl, ?_⟩
              intro hlt
              rw [h2 j hir, List.getElem?_set_eq_of_lt _ hlt]
            · obtain ⟨c, p, l', e1, e2, e3, e4⟩ := h3 hndr j hjr
              refine ⟨c, p, l', e1, e2, e3, ?_⟩
              intro hlt
              exact e4 (by rw [List.length_set]; exact hlt)

theorem cores_loop_defined (info prev : List CpuTicks) :
    ∀ (idxs : List ℕ) (loads : List ℤ),
      (∀ j ∈ idxs, ∃ cur prv l, info[j]? = some cur ∧ prev[j]? = some prv ∧
        core_load cur prv = some l) →
      ∃ loads', cores_loop info prev idxs loads = some loads' := by
  intro idxs
  induction idxs with
  | nil => intro loads _; exact ⟨loads, by rw [cores_loop]⟩
  | cons i rest ih =>
    intro loads h
    obtain ⟨cur, prv, l, e1, e2, e3⟩ := h i (List.mem_cons_self _ _)
    obtain ⟨loads', hl⟩ := ih (loads.set i l) (fun j hj => h j (List.mem_cons_of_mem _ hj))
    refine ⟨loads', ?_⟩
    rw [cores_loop]
    simp only [e1, e2, e3]
    exact hl

theorem core_load_spec (cur prev : CpuTicks) (hwf : cur.WF) (hle : ticks_le prev cur)
    (hsum : core_total cur prev < 2 ^ 32) :
    ∃ p : ℤ, core_load cur prev = some p ∧ 0 ≤ p ∧ p ≤ 100 ∧
      (core_total cur prev = 0 → p = 0) ∧
      (0 < core_total cur prev →
        p ≤ ((100 * core_busy cur prev / core_total cur prev : ℕ) : ℤ) ∧
        ((100 * core_busy cur prev / core_total cur prev : ℕ) : ℤ) ≤ p + 1 ∧
        (¬ core_total cur prev ∣ 100 * core_busy cur prev →
          p = ((100 * core_busy cur prev / core_total cur prev : ℕ) : ℤ))) := by
  obtain ⟨hwu, hws, hwi, hwn⟩ := hwf
  obtain ⟨hu, hs, hi, hn⟩ := hle
  unfold core_total at hsum ⊢
  unfold core_busy
  unfold core_load
  rw [tick_delta_of_le _ _ hu hwu, tick_delta_of_le _ _ hs hws, tick_delta_of_le _ _ hi hwi,
    tick_delta_of_le _ _ hn hwn]
  generalize cur.user - prev.user = du at *
  generalize cur.system - prev.system = ds at *
  generalize cur.idle - prev.idle = di at *
  generalize cur.nice - prev.nice = dn at *
  have e1 : add32 du ds = du + ds := add32_of_lt _ _ (by omega)
  have e2 : add32 (du + ds) di = du + ds + di := add32_of_lt _ _ (by omega)
  have e3 : add32 (du + ds + di) dn = du + ds + di + dn := add32_of_lt _ _ (by omega)
  simp only [e1, e2, e3]
  by_cases ht : 0 < du + ds + di + dn
  · rw [if_pos ht]
    obtain ⟨p, hp, h1, h2, h0, h3⟩ := percent_spec (du + ds) (du + ds + di + dn) ht hsum (by omega)
    have h100 : p ≤ 100 := by
      have : 100 * (du + ds) / (du + ds + di + dn) ≤ 100 := by
        apply Nat.div_le_of_le_mul
        omega
      omega
    exact ⟨p, hp, h0, h100, fun h => by omega, fun _ => ⟨h1, h2, h3⟩⟩
  · rw [if_neg ht]
    exact ⟨0, rfl, le_rfl, by norm_num, fun _ => rfl, fun h => absurd h ht⟩

/-! ## The per-core loads -/

theorem cpu_update_cores_eq (cpu : Cpu) (r : CoreRead) (prev : List CpuTicks)
    (hhas : cpu.has_prev_core_info = true) (hprev : cpu.prev_core_info = some prev) :
    cpu_update_cores cpu (some r) =
      match cores_loop r.info prev
          (List.range (min (min (cpu.prev_core_count / PROCESSOR_CPU_LOAD_INFO_COUNT) r.ncores)
            MAX_CORES)) cpu.core_loads with
      | some loads =>
          some { cpu with
            ncores := min r.ncores MAX_CORES, core_loads := loads, prev_core_info := some r.info,
            prev_core_count := r.info_count, has_prev_core_info := true }
      | none => none := by
  have hn : (if r.ncores > MAX_CORES then MAX_CORES else r.ncores) = min r.ncores MAX_CORES := by
    split_ifs with h
    · exact (min_eq_right (le_of_lt h)).symm
    · exact (min_eq_left (not_lt.mp h)).symm
  have hp : (if cpu.prev_core_count / PROCESSOR_CPU_LOAD_INFO_COUNT > min r.ncores MAX_CORES
      then min r.ncores MAX_CORES else cpu.prev_core_count / PROCESSOR_CPU_LOAD_INFO_COUNT)
      = min (min (cpu.prev_core_count / PROCESSOR_CPU_LOAD_INFO_COUNT) r.ncores) MAX_CORES := by
    rw [min_assoc]
    split_ifs with h
    · exact (min_eq_right (le_of_lt h)).symm
    · exact (min_eq_left (not_lt.mp h)).symm
  unfold cpu_update_cores
  simp only [hhas, hprev, hn, hp]

theorem cpu_update_cores_first (cpu : Cpu) (r : CoreRead)
    (h : cpu.has_prev_core_info = false ∨ cpu.prev_core_info = none) :
    cpu_update_cores cpu (some r) =
      some { cpu with
        ncores := min r.ncores MAX_CORES, prev_core_info := some r.info,
        prev_core_count := r.info_count, has_prev_core_info := true } := by
  have hn : (if r.ncores > MAX_CORES then MAX_CORES else r.ncores) = min r.ncores MAX_CORES := by
    split_ifs with h
    · exact (min_eq_right (le_of_lt h)).symm
    · exact (min_eq_left (not_lt.mp h)).symm
  unfold cpu_update_cores
  simp only [hn]
  rcases h with h | h
  · simp only [h]
  · simp only [h]
    cases cpu.has_prev_core_info <;> rfl

/-- C14 (as stated, refuted): for a core with the deltas user 29, system 0,
idle 71, nice 0 the total is 100 and `100 * (29 + 0) / 100 = 29`, but
`cpu_update_cores` stores 28 in `core_loads[0]`: `29.0 / 100.0 * 100.0` is
`28.999999999999996` in binary64. -/
theorem cpu_update_cores_off_by_one :
    (cpu_update_cores (cpu_with_cores [⟨1000, 500, 9000, 20⟩] (List.replicate 32 0))
        (some ⟨1, [⟨1029, 500, 9071, 20⟩], 4⟩)).map (fun c => c.core_loads[0]?)
      = some (some 28) ∧
      core_load ⟨1029, 500, 9071, 20⟩ ⟨1000, 500, 9000, 20⟩ = some 28 ∧
      core_busy ⟨1029, 500, 9071, 20⟩ ⟨1000, 500, 9000, 20⟩ = 29 ∧
      core_total ⟨1029, 500, 9071, 20⟩ ⟨1000, 500, 9000, 20⟩ = 100 ∧
      (28 : ℤ) ≠ 100 * 29 / 100 := by
  decide!

/-- C14 (amended): for every per-core update with a previous snapshot in
which every overlapping core has non-decreasing 32-bit counters whose four
deltas sum to less than `2 ^ 32`, `cpu_update_cores` returns and sets
`core_loads[i]`, for every overlapping index `i`, to `0` when the total is `0`
and otherwise to the truncation of the binary64 value of
`(user_delta + sys_delta) / total * 100.0`: it is
`⌊100 * (user_delta + sys_delta) / total⌋`, except that it may be one less when
`total` divides `100 * (user_delta + sys_delta)`. -/
theorem cpu_update_cores_loads (cpu : Cpu) (r : CoreRead) (prev : List CpuTicks)
    (hhas : cpu.has_prev_core_info = true) (hprev : cpu.prev_core_info = some prev)
    (hlen : cpu.core_loads.length = MAX_CORES)
    (hcores : ∀ i,
      i < min (min (cpu.prev_core_count / PROCESSOR_CPU_LOAD_INFO_COUNT) r.ncores) MAX_CORES →
      ∃ cur prv, r.info[i]? = some cur ∧ prev[i]? = some prv ∧ cur.WF ∧ ticks_le prv cur ∧
        core_total cur prv < 2 ^ 32) :
    ∃ c, cpu_update_cores cpu (some r) = some c ∧
      ∀ i cur prv,
        i < min (min (cpu.prev_core_count / PROCESSOR_CPU_LOAD_INFO_COUNT) r.ncores) MAX_CORES →
        r.info[i]? = some cur → prev[i]? = some prv →
        ∃ p : ℤ, c.core_loads[i]? = some p ∧ 0 ≤ p ∧ p ≤ 100 ∧
          (core_total cur prv = 0 → p = 0) ∧
          (0 < core_total cur prv →
            p ≤ ((100 * core_busy cur prv / core_total cur prv : ℕ) : ℤ) ∧
            ((100 * core_busy cur prv / core_total cur prv : ℕ) : ℤ) ≤ p + 1 ∧
            (¬ core_total cur prv ∣ 100 * core_busy cur prv →
              p = ((100 * core_busy cur prv / core_total cur prv : ℕ) : ℤ))) := by
  rw [cpu_update_cores_eq cpu r prev hhas hprev]
  generalize hn : min (min (cpu.prev_core_count / PROCESSOR_CPU_LOAD_INFO_COUNT) r.ncores)
    MAX_CORES = n at *
  have hn32 : n ≤ MAX_CORES := by rw [← hn]; exact min_le_right _ _
  have hdef : ∀ j ∈ List.range n, ∃ cur prv l, r.info[j]? = some cur ∧ prev[j]? = some prv ∧
      core_load cur prv = some l := by
    intro j hj
    obtain ⟨cur, prv, e1, e2, hwf, hle, hsum⟩ := hcores j (List.mem_range.mp hj)
    obtain ⟨p, hp, _⟩ := core_load_spec cur prv hwf hle hsum
    exact ⟨cur, prv, p, e1, e2, hp⟩
  obtain ⟨loads, hloads⟩ := cores_loop_defined r.info prev (List.range n) cpu.core_loads hdef
  rw [hloads]
  refine ⟨_, rfl, ?_⟩
  intro i cur prv hi e1 e2
  obtain ⟨_, _, h3⟩ := cores_loop_spec r.info prev (List.range n) cpu.core_loads loads hloads
  obtain ⟨cur', prv', l, f1, f2, f3, f4⟩ := h3 (List.nodup_range n) i (List.mem_range.mpr hi)
  rw [e1] at f1
  rw [e2] at f2
  simp only [Option.some.injEq] at f1 f2
  subst f1 f2
  obtain ⟨cur2, prv2, g1, g2, hwf, hle, hsum⟩ := hcores i hi
  rw [e1] at g1
  rw [e2] at g2
  simp only [Option.some.injEq] at g1 g2
  subst g1 g2
  obtain ⟨p, hp, hrest⟩ := core_load_spec cur prv hwf hle hsum
  rw [hp] at f3
  simp only [Option.some.injEq] at f3
  subst f3
  exact ⟨p, f4 (by rw [hlen]; omega), hrest⟩

/-- Witness of `cpu_update_cores_loads`: one core with the deltas user 29,
system 0, idle 71, nice 0. -/
theorem cpu_update_cores_loads_witness :
    ∃ c, cpu_update_cores (cpu_with_cores [⟨1000, 500, 9000, 20⟩] (List.replicate 32 0))
        (some ⟨1, [⟨1029, 500, 9071, 20⟩], 4⟩) = some c ∧
      ∀ i cur prv,
        i < min (min ((cpu_with_cores [⟨1000, 500, 9000, 20⟩] (List.replicate 32 0)).prev_core_count
          / PROCESSOR_CPU_LOAD_INFO_COUNT) 1) MAX_CORES →
        [(⟨1029, 500, 9071, 20⟩ : CpuTicks)][i]? = some cur →
        [(⟨1000, 500, 9000, 20⟩ : CpuTicks)][i]? = some prv →
        ∃ p : ℤ, c.core_loads[i]? = some p ∧ 0 ≤ p ∧ p ≤ 100 ∧
          (core_total cur prv = 0 → p = 0) ∧
          (0 < core_total cur prv →
            p ≤ ((100 * core_busy cur prv / core_total cur prv : ℕ) : ℤ) ∧
            ((100 * core_busy cur prv / core_total cur prv : ℕ) : ℤ) ≤ p + 1 ∧
            (¬ core_total cur prv ∣ 100 * core_busy cur prv →
              p = ((100 * core_busy cur prv / core_total cur prv : ℕ) : ℤ))) :=
  cpu_update_cores_loads (cpu_with_cores [⟨1000, 500, 9000, 20⟩] (List.replicate 32 0))
    ⟨1, [⟨1029, 500, 9071, 20⟩], 4⟩ [⟨1000, 500, 9000, 20⟩] rfl rfl (by decide)
    (by
      intro i hi
      have hi1 : i < 1 := lt_of_lt_of_le hi (by decide)
      have hi0 : i = 0 := by omega
      subst hi0
      refine ⟨⟨1029, 500, 9071, 20⟩, ⟨1000, 500, 9000, 20⟩, rfl, rfl, ?_, ?_, ?_⟩
      · unfold CpuTicks.WF; norm_num
      · unfold ticks_le; norm_num
      · unfold core_total; norm_num)

/-! ## The slots of `core_loads` -/

theorem cpu_update_cores_slots_aux (cpu : Cpu) (r : CoreRead) (c : Cpu)
    (h : cpu_update_cores cpu (some r) = some c) :
    c.ncores = min r.ncores MAX_CORES ∧ c.core_loads.length = cpu.core_loads.length ∧
      ∀ i, min (min (cpu.prev_core_count / PROCESSOR_CPU_LOAD_INFO_COUNT) r.ncores) MAX_CORES ≤ i →
        c.core_loads[i]? = cpu.core_loads[i]? := by
  by_cases hfirst : cpu.has_prev_core_info = false ∨ cpu.prev_core_info = none
  · rw [cpu_update_cores_first cpu r hfirst] at h
    simp only [Option.some.injEq] at h
    subst h
    exact ⟨rfl, rfl, fun _ _ => rfl⟩
  · push_neg at hfirst
    obtain ⟨hhas, hprev⟩ := hfirst
    have hhas' : cpu.has_prev_core_info = true := by simpa using hhas
    obtain ⟨prev, hprev'⟩ := Option.ne_none_iff_exists'.mp hprev
    rw [cpu_update_cores_eq cpu r prev hhas' hprev'] at h
    cases hl : cores_loop r.info prev
        (List.range (min (min (cpu.prev_core_count / PROCESSOR_CPU_LOAD_INFO_COUNT) r.ncores)
          MAX_CORES)) cpu.core_loads with
    | none => rw [hl] at h; simp at h
    | some loads =>
      rw [hl] at h
      simp only [Option.some.injEq] at h
      subst h
      obtain ⟨h1, h2, _⟩ := cores_loop_spec _ _ _ _ _ hl
      refine ⟨rfl, h1, ?_⟩
      intro i hi
      exact h2 i (by rw [List.mem_range]; omega)

theorem cores_run_zero_slot (i : ℕ) : ∀ (reads : List (Option CoreRead)) (cpu c : Cpu),
    cores_run cpu reads = some c → (∀ r, some r ∈ reads → r.ncores ≤ i) →
    c.core_loads[i]? = cpu.core_loads[i]? := by
  intro reads
  induction reads with
  | nil =>
    intro cpu c h _
    rw [cores_run] at h
    simp only [Option.some.injEq] at h
    rw [h]
  | cons rd rest ih =>
    intro cpu c h hall
    rw [cores_run] at h
    cases hc : cpu_update_cores cpu rd with
    | none => rw [hc] at h; simp at h
    | some c1 =>
      rw [hc] at h
      simp only at h
      have hrest := ih c1 c h (fun r hr => hall r (List.mem_cons_of_mem _ hr))
      rw [hrest]
      cases rd with
      | none =>
        simp only [cpu_update_cores, Option.some.injEq] at hc
        rw [hc]
      | some r =>
        have hri : r.ncores ≤ i := hall r (List.mem_cons_self _ _)
        obtain ⟨_, _, h3⟩ := cpu_update_cores_slots_aux cpu r c1 hc
        apply h3
        have h1 : min (min (cpu.prev_core_count / PROCESSOR_CPU_LOAD_INFO_COUNT) r.ncores)
            MAX_CORES ≤ r.ncores := le_trans (min_le_left _ _) (min_le_right _ _)
        omega

/-- C15: for every `cpu_update_cores` call whose read succeeds with the
reported core count `n = r.ncores`, and with `p = prev_core_count / 4` the
count of the previous snapshot: `ncores` becomes `min(n, 32)`; the array keeps
its length; every slot `i >= min(p, n, 32)` of `core_loads` keeps its value
from before the call, so only slots below `min(p, n, 32) <= 32` are written.
And after `cpu_init` and any sequence of calls, a slot whose index is not below
any reported core count still holds `0`. -/
theorem cpu_update_cores_slots (cpu : Cpu) (r : CoreRead) (c : Cpu)
    (h : cpu_update_cores cpu (some r) = some c) :
    c.ncores = min r.ncores 32 ∧ c.core_loads.length = cpu.core_loads.length ∧
      min (min (cpu.prev_core_count / 4) r.ncores) 32 ≤ 32 ∧
      (∀ i, min (min (cpu.prev_core_count / 4) r.ncores) 32 ≤ i →
        c.core_loads[i]? = cpu.core_loads[i]?) ∧
      ∀ (mem : Cpu) (reads : List (Option CoreRead)) (c' : Cpu) (i : ℕ),
        cores_run (cpu_init mem) reads = some c' → (∀ r', some r' ∈ reads → r'.ncores ≤ i) →
        c'.core_loads[i]? = (List.replicate 32 (0 : ℤ))[i]? := by
  obtain ⟨h1, h2, h3⟩ := cpu_update_cores_slots_aux cpu r c h
  refine ⟨h1, h2, min_le_right _ _, h3, ?_⟩
  intro mem reads c' i hrun hall
  rw [cores_run_zero_slot i reads (cpu_init mem) c' hrun hall]
  rfl

/-- Witness of `cpu_update_cores_slots`: a snapshot of two cores followed by a
read of one core: slot 0 is written, the other slots keep their values. -/
theorem cpu_update_cores_slots_witness :
    cores_after.ncores = min cores_read.ncores 32 ∧
      cores_after.core_loads.length = cores_before.core_loads.length ∧
      min (min (cores_before.prev_core_count / 4) cores_read.ncores) 32 ≤ 32 ∧
      (∀ i, min (min (cores_before.prev_core_count / 4) cores_read.ncores) 32 ≤ i →
        cores_after.core_loads[i]? = cores_before.core_loads[i]?) ∧
      ∀ (mem : Cpu) (reads : List (Option CoreRead)) (c' : Cpu) (i : ℕ),
        cores_run (cpu_init mem) reads = some c' → (∀ r', some r' ∈ reads → r'.ncores ≤ i) →
        c'.core_loads[i]? = (List.replicate 32 (0 : ℤ))[i]? :=
  cpu_update_cores_slots cores_before cores_read cores_after (by decide!)

/-! ## The stored snapshots -/

theorem cpu_update_cores_store (cpu : Cpu) (r : CoreRead) (c : Cpu)
    (h : cpu_update_cores cpu (some r) = some c) :
    c.prev_core_info = some r.info ∧ c.prev_core_count = r.info_count ∧
      c.has_prev_core_info = true := by
  by_cases hfirst : cpu.has_prev_core_info = false ∨ cpu.prev_core_info = none
  · rw [cpu_update_cores_first cpu r hfirst] at h
    simp only [Option.some.injEq] at h
    subst h
    exact ⟨rfl, rfl, rfl⟩
  · push_neg at hfirst
    obtain ⟨hhas, hprev⟩ := hfirst
    have hhas' : cpu.has_prev_core_info = true := by simpa using hhas
    obtain ⟨prev, hprev'⟩ := Option.ne_none_iff_exists'.mp hprev
    rw [cpu_update_cores_eq cpu r prev hhas' hprev'] at h
    cases hl : cores_loop r.info prev
        (List.range (min (min (cpu.prev_core_count / PROCESSOR_CPU_LOAD_INFO_COUNT) r.ncores)
          MAX_CORES)) cpu.core_loads with
    | none => rw [hl] at h; simp at h
    | some loads =>
      rw [hl] at h
      simp only [Option.some.injEq] at h
      subst h
      exact ⟨rfl, rfl, rfl⟩

theorem cpu_update_store (cpu : Cpu) (load : CpuTicks) (cores : Option CoreRead) (c : Cpu)
    (h : cpu_update cpu (some load) cores = some c) :
    c.load = load ∧ c.prev_load = load ∧ c.has_prev_load = true := by
  unfold cpu_update at h
  simp only at h
  cases h2 : (if cpu.has_prev_load = true then cpu_update_loads { cpu with load := load }
      else some { cpu with load := load }) with
  | none => rw [h2] at h; simp at h
  | some cpu2 =>
    rw [h2] at h
    simp only at h
    have hload : cpu2.load = load := by
      split_ifs at h2 with hp
      · unfold cpu_update_loads at h2
        simp only at h2
        split at h2
        · simp at h2
        · split at h2
          · simp at h2
          · split at h2
            · simp at h2
            · simp only [Option.some.injEq] at h2
              rw [← h2]
      · simp only [Option.some.injEq] at h2
        rw [← h2]
    obtain ⟨f1, f2, f3, _⟩ := cpu_update_cores_frame _ _ _ h
    simp only at f1 f2 f3
    rw [hload] at f1 f2
    exact ⟨f1, f2, f3⟩

theorem network_update_store (net : Network) (ts_now : Timespec) (read : Option IfData)
    (hbase : ¬(net.ts_prev.tv_sec = 0 ∧ net.ts_prev.tv_nsec = 0)) :
    (network_update net ts_now read).data = ifdata net.data read ∧
      (network_update net ts_now read).ts_prev = ts_now ∧
      (network_update net ts_now read).row = net.row := by
  unfold network_update
  rw [if_neg hbase]
  simp only
  split_ifs <;> exact ⟨rfl, rfl, rfl⟩

/-- C17: after every update past the baseline whose read succeeded, the store
holds the newest raw reading as the previous snapshot: after `cpu_update`,
`prev_load` (and `load`) are the ticks just read and `has_prev_load` is true,
and the per-core snapshot is the array just read when that read succeeded too;
after `cpu_update_cores`, `prev_core_info` and `prev_core_count` are the array
just read; after `network_update`, the stored byte counters and the timestamp
are those read in that call, on fresh and stale ticks alike. -/
theorem stores_hold_newest_reading (cpu : Cpu) (load : CpuTicks) (cores : Option CoreRead)
    (c : Cpu) (hcpu : cpu_update cpu (some load) cores = some c)
    (cpu' : Cpu) (r : CoreRead) (c' : Cpu) (hcores : cpu_update_cores cpu' (some r) = some c')
    (net : Network) (ts_now : Timespec) (d : IfData)
    (hbase : ¬(net.ts_prev.tv_sec = 0 ∧ net.ts_prev.tv_nsec = 0)) :
    (c.prev_load = load ∧ c.load = load ∧ c.has_prev_load = true ∧
        ∀ r0, cores = some r0 → c.prev_core_info = some r0.info ∧
          c.prev_core_count = r0.info_count ∧ c.has_prev_core_info = true) ∧
      (c'.prev_core_info = some r.info ∧ c'.prev_core_count = r.info_count ∧
        c'.has_prev_core_info = true) ∧
      ((network_update net ts_now (some d)).data = d ∧
        (network_update net ts_now (some d)).ts_prev = ts_now) := by
  obtain ⟨h1, h2, h3⟩ := cpu_update_store cpu load cores c hcpu
  refine ⟨⟨h2, h1, h3, ?_⟩, cpu_update_cores_store cpu' r c' hcores, ?_⟩
  · intro r0 hr0
    subst hr0
    unfold cpu_update at hcpu
    simp only at hcpu
    split at hcpu
    · simp at hcpu
    · exact cpu_update_cores_store _ _ _ hcpu
  · obtain ⟨g1, g2, _⟩ := network_update_store net ts_now (some d) hbase
    exact ⟨g1, g2⟩

/-- Witness of `stores_hold_newest_reading`: an aggregate update, a per-core
update and a stale network update 200 seconds after the previous one. -/
theorem stores_hold_newest_reading_witness :
    ((cpu_after ⟨1029, 500, 9071, 0⟩).prev_load = ⟨1029, 500, 9071, 0⟩ ∧
        (cpu_after ⟨1029, 500, 9071, 0⟩).load = ⟨1029, 500, 9071, 0⟩ ∧
        (cpu_after ⟨1029, 500, 9071, 0⟩).has_prev_load = true ∧
        ∀ r0, (none : Option CoreRead) = some r0 →
          (cpu_after ⟨1029, 500, 9071, 0⟩).prev_core_info = some r0.info ∧
          (cpu_after ⟨1029, 500, 9071, 0⟩).prev_core_count = r0.info_count ∧
          (cpu_after ⟨1029, 500, 9071, 0⟩).has_prev_core_info = true) ∧
      (cores_after.prev_core_info = some cores_read.info ∧
        cores_after.prev_core_count = cores_read.info_count ∧
        cores_after.has_prev_core_info = true) ∧
      ((network_update net_with_rates ⟨300, 0⟩ (some ⟨5000, 9000⟩)).data = ⟨5000, 9000⟩ ∧
        (network_update net_with_rates ⟨300, 0⟩ (some ⟨5000, 9000⟩)).ts_prev = ⟨300, 0⟩) :=
  stores_hold_newest_reading cpu_boot ⟨1029, 500, 9071, 0⟩ none (cpu_after ⟨1029, 500, 9071, 0⟩)
    (by decide!) cores_before cores_read cores_after (by decide!) net_with_rates ⟨300, 0⟩
    ⟨5000, 9000⟩ (by decide)

/-- C18 (as stated, refuted): after `network_init` read the counters
`(1000, 1000)`, the first `network_update`, made while the interface counters
read `(5000, 9000)`, stores the timestamp and returns: the stored byte counters
are still `(1000, 1000)`, not the ones of that call. -/
theorem network_baseline_reads_nothing :
    (network_update (network_init (some ['e', 'n', '0']) 4 (some ⟨1000, 1000⟩)).1 ⟨100, 0⟩
        (some ⟨5000, 9000⟩)).data = ⟨1000, 1000⟩ ∧
      (network_update (network_init (some ['e', 'n', '0']) 4 (some ⟨1000, 1000⟩)).1 ⟨100, 0⟩
        (some ⟨5000, 9000⟩)).data ≠ ⟨5000, 9000⟩ ∧
      (network_update (network_init (some ['e', 'n', '0']) 4 (some ⟨1000, 1000⟩)).1 ⟨100, 0⟩
        (some ⟨5000, 9000⟩)).ts_prev = ⟨100, 0⟩ := by
  decide

/-- C18 (amended): on the baseline call `cpu_update` reads the current
counters and stores that reading as the baseline (`prev_load`,
`has_prev_load`, and the per-core snapshot when that read succeeds);
`network_update` reads no counters on its baseline call: after the first
`network_update` following `network_init` the stored timestamp is the clock
value of that call and the stored byte counters are still the ones
`network_init` left. -/
theorem baseline_call_stores (mem : Cpu) (load : CpuTicks) (cores : Option CoreRead)
    (ifname : Option (List Char)) (index : ℕ) (rd0 rd1 : Option IfData) (ts_now : Timespec) :
    (∃ c, cpu_update (cpu_init mem) (some load) cores = some c ∧ c.prev_load = load ∧
        c.has_prev_load = true ∧
        ∀ r, cores = some r → c.prev_core_info = some r.info ∧
          c.prev_core_count = r.info_count ∧ c.has_prev_core_info = true) ∧
      (network_update (network_init ifname index rd0).1 ts_now rd1).ts_prev = ts_now ∧
      (network_update (network_init ifname index rd0).1 ts_now rd1).data
        = (network_init ifname index rd0).1.data ∧
      ((network_init ifname index rd0).2 = 1 →
        (network_init ifname index rd0).1.data = ifdata ⟨0, 0⟩ rd0) := by
  refine ⟨?_, ?_⟩
  · cases cores with
    | none => exact ⟨_, rfl, rfl, rfl, fun r hr => by cases hr⟩
    | some r =>
      refine ⟨_, rfl, rfl, rfl, ?_⟩
      intro r' hr'
      simp only [Option.some.injEq] at hr'
      subst hr'
      exact ⟨rfl, rfl, rfl⟩
  · have hts : (network_init ifname index rd0).1.ts_prev = ⟨0, 0⟩ := by
      unfold network_init
      rcases ifname with _ | _ | ⟨ch, cs⟩
      · rfl
      · rfl
      · simp only
        split_ifs <;> rfl
    have hupd : network_update (network_init ifname index rd0).1 ts_now rd1
        = { (network_init ifname index rd0).1 with ts_prev := ts_now } := by
      unfold network_update
      rw [if_pos (by rw [hts]; exact ⟨rfl, rfl⟩)]
    rw [hupd]
    refine ⟨rfl, rfl, ?_⟩
    unfold network_init
    rcases ifname with _ | _ | ⟨ch, cs⟩
    · intro h; simp at h
    · intro h; simp at h
    · simp only
      split_ifs
      · intro h; simp at h
      · intro _; rfl

/-! ## The sign of the rates -/

theorem ofRat_nonneg (q : ℚ) (h : 0 ≤ q) : Double.nonneg (Double.ofRat q) := by
  unfold Double.ofRat
  split_ifs
  · simp [Double.nonneg, not_lt.mpr h]
  · exact round53_nonneg q h

theorem ofRat_cases (q : ℚ) : (∃ r, Double.ofRat q = Double.fin r) ∨
    (∃ s, Double.ofRat q = Double.inf s) := by
  unfold Double.ofRat
  split_ifs
  · exact Or.inr ⟨_, rfl⟩
  · exact Or.inl ⟨_, rfl⟩

theorem mul_const_nonneg (x : Double) (k : ℚ) (hk : 0 < k) (hx : Double.nonneg x) :
    Double.nonneg (Double.mul x (Double.fin k)) := by
  cases x with
  | fin q =>
    simp only [Double.mul]
    exact ofRat_nonneg _ (mul_nonneg hx hk.le)
  | inf s =>
    have hs : s = false := hx
    subst hs
    simp [Double.mul, Double.nonneg, hk.ne', not_lt.mpr hk.le]
  | nan => exact absurd hx (by simp [Double.nonneg])

theorem div_const_nonneg (x : Double) (k : ℚ) (hk : 0 < k) (hx : Double.nonneg x) :
    Double.nonneg (Double.div x (Double.fin k)) := by
  cases x with
  | fin q =>
    simp only [Double.div, if_neg hk.ne']
    exact ofRat_nonneg _ (div_nonneg hx hk.le)
  | inf s =>
    have hs : s = false := hx
    subst hs
    simp [Double.div, Double.nonneg, not_lt.mpr hk.le]
  | nan => exact absurd hx (by simp [Double.nonneg])

theorem byte_delta_lt (cur prev : ℕ) : byte_delta cur prev < 2 ^ 64 := by
  unfold byte_delta
  exact Nat.mod_lt _ (by norm_num)

theorem mbps_nonneg (cur prev : ℕ) (τ : ℚ) (hτ : 0 < τ) :
    Double.nonneg (mbps cur prev (Double.fin τ)) := by
  unfold mbps
  have hD := byte_delta_lt cur prev
  generalize byte_delta cur prev = D at *
  have hDq : (D : ℚ) < 2 ^ 64 := natCast_lt_two_pow D 64 hD
  have hD0 : (0 : ℚ) ≤ D := Nat.cast_nonneg D
  unfold Double.ofNat
  rw [ofRat_fin_of_le _ (by rw [abs_of_nonneg hD0]; exact le_trans hDq.le (by norm_num))]
  have hd0 : 0 ≤ round53 (D : ℚ) := round53_nonneg _ hD0
  have hdelta : Double.nonneg (Double.div (Double.fin (round53 (D : ℚ))) (Double.fin τ)) :=
    div_const_nonneg _ τ hτ hd0
  simp only
  have hclamp : Double.nonneg
      (if Double.lt (Double.div (Double.fin (round53 (D : ℚ))) (Double.fin τ)) (Double.fin 0)
          = true then Double.fin 0
        else Double.div (Double.fin (round53 (D : ℚ))) (Double.fin τ)) := by
    split_ifs
    · exact le_refl (0 : ℚ)
    · exact hdelta
  exact div_const_nonneg _ 1000000 (by norm_num) (mul_const_nonneg _ 8 (by norm_num) hclamp)

theorem time_scale_ne_nan (tp tn : Timespec) (hp : tp.WF) (hn : tn.WF) :
    time_scale tp tn ≠ Double.nan := by
  obtain ⟨p1, p2, p3, p4⟩ := hp
  obtain ⟨n1, n2, n3, n4⟩ := hn
  have hs : |tn.tv_sec - tp.tv_sec| < 2 ^ 64 := by rw [abs_lt]; constructor <;> omega
  have hn : |tn.tv_nsec - tp.tv_nsec| < 2 ^ 64 := by rw [abs_lt]; constructor <;> omega
  have hsq := intCast_abs_lt _ 64 hs
  have hnq := intCast_abs_lt _ 64 hn
  unfold time_scale Double.ofInt
  rw [ofRat_fin_of_le _ (le_trans hsq.le (by norm_num)),
    ofRat_fin_of_le _ (le_trans hnq.le (by norm_num))]
  simp only [Double.div]
  rw [if_neg (by norm_num)]
  rcases ofRat_cases (round53 ((tn.tv_nsec - tp.tv_nsec : ℤ) : ℚ) / 1000000000) with
    ⟨r, hr⟩ | ⟨s, hr⟩
  · rw [hr]
    simp only [Double.add]
    rcases ofRat_cases (round53 ((tn.tv_sec - tp.tv_sec : ℤ) : ℚ) + r) with ⟨r', h'⟩ | ⟨s', h'⟩
    · rw [h']; simp
    · rw [h']; simp
  · rw [hr]
    simp [Double.add]

theorem network_update_nonneg (net : Network) (ts_now : Timespec) (read : Option IfData)
    (hup : Double.nonneg net.up_mbps) (hdown : Double.nonneg net.down_mbps)
    (hp : net.ts_prev.WF) (hn : ts_now.WF) :
    Double.nonneg (network_update net ts_now read).up_mbps ∧
      Double.nonneg (network_update net ts_now read).down_mbps ∧
      (network_update net ts_now read).ts_prev = ts_now := by
  unfold network_update
  split_ifs with hbase
  · exact ⟨hup, hdown, rfl⟩
  · simp only
    have hnan := time_scale_ne_nan net.ts_prev ts_now hp hn
    cases hts : time_scale net.ts_prev ts_now with
    | nan => exact absurd hts hnan
    | inf s =>
      have : (Double.le (Double.inf s) (Double.fin 0) || Double.lt (Double.fin 100) (Double.inf s))
          = true := by
        cases s <;> simp [Double.le, Double.lt]
      simp only [this, if_true]
      exact ⟨hup, hdown, trivial⟩
    | fin τ =>
      by_cases hst : (Double.le (Double.fin τ) (Double.fin 0)
          || Double.lt (Double.fin 100) (Double.fin τ)) = true
      · simp only [hst, if_true]
        exact ⟨hup, hdown, trivial⟩
      · simp only [hst, Bool.false_eq_true, if_false]
        have hτ : 0 < τ := by
          simp only [Double.le, Double.lt, Bool.or_eq_true, decide_eq_true_eq, not_or, not_le]
            at hst
          exact hst.1
        exact ⟨mbps_nonneg _ _ τ hτ, mbps_nonneg _ _ τ hτ, trivial⟩

theorem network_run_nonneg : ∀ (steps : List (Timespec × Option IfData)) (net : Network),
    Double.nonneg net.up_mbps → Double.nonneg net.down_mbps → net.ts_prev.WF →
    (∀ s ∈ steps, s.1.WF) →
    Double.nonneg (network_run net steps).up_mbps ∧
      Double.nonneg (network_run net steps).down_mbps := by
  intro steps
  induction steps with
  | nil => intro net hup hdown _ _; exact ⟨hup, hdown⟩
  | cons step rest ih =>
    intro net hup hdown hp hall
    rw [network_run]
    have hstep : step.1.WF := hall step (List.mem_cons_self _ _)
    obtain ⟨h1, h2, h3⟩ := network_update_nonneg net step.1 step.2 hup hdown hp hstep
    exact ih _ h1 h2 (by rw [h3]; exact hstep) (fun s hs => hall s (List.mem_cons_of_mem _ hs))

theorem network_init_state (ifname : Option (List Char)) (index : ℕ) (rd0 : Option IfData) :
    (network_init ifname index rd0).1.ts_prev = ⟨0, 0⟩ ∧
      (network_init ifname index rd0).1.up_mbps = Double.fin 0 ∧
      (network_init ifname index rd0).1.down_mbps = Double.fin 0 := by
  unfold network_init
  rcases ifname with _ | _ | ⟨ch, cs⟩
  · exact ⟨rfl, rfl, rfl⟩
  · exact ⟨rfl, rfl, rfl⟩
  · simp only
    split_ifs <;> exact ⟨rfl, rfl, rfl⟩

/-- C19: in every state reached from `network_init` by a sequence of
`network_update` calls, with any counter readings and any clock values (the
two fields of a timestamp being signed 64-bit words), `up_mbps >= 0` and
`down_mbps >= 0`: each is a finite value that is not negative or `+inf`, never
a NaN. -/
theorem network_rates_nonneg (ifname : Option (List Char)) (index : ℕ) (rd0 : Option IfData)
    (steps : List (Timespec × Option IfData)) (hwf : ∀ s ∈ steps, s.1.WF) :
    Double.nonneg (network_run (network_init ifname index rd0).1 steps).up_mbps ∧
      Double.nonneg (network_run (network_init ifname index rd0).1 steps).down_mbps := by
  obtain ⟨h1, h2, h3⟩ := network_init_state ifname index rd0
  apply network_run_nonneg steps _ _ _ _ hwf
  · rw [h2]; exact le_refl (0 : ℚ)
  · rw [h3]; exact le_refl (0 : ℚ)
  · rw [h1]
    unfold Timespec.WF
    norm_num

/-- Witness of `network_rates_nonneg`: a baseline call, a fresh call in which
the input counter went down, and a stale call. -/
theorem network_rates_nonneg_witness :
    (Double.nonneg (network_run (network_init (some ['e', 'n', '0']) 4 (some ⟨1000, 1000⟩)).1
        [(⟨100, 0⟩, some ⟨1000, 1000⟩), (⟨101, 0⟩, some ⟨500, 2000⟩),
          (⟨300, 0⟩, some ⟨600, 3000⟩)]).up_mbps ∧
      Double.nonneg (network_run (network_init (some ['e', 'n', '0']) 4 (some ⟨1000, 1000⟩)).1
        [(⟨100, 0⟩, some ⟨1000, 1000⟩), (⟨101, 0⟩, some ⟨500, 2000⟩),
          (⟨300, 0⟩, some ⟨600, 3000⟩)]).down_mbps) ∧
    (network_run (network_init (some ['e', 'n', '0']) 4 (some ⟨1000, 1000⟩)).1
        [(⟨100, 0⟩, some ⟨1000, 1000⟩), (⟨101, 0⟩, some ⟨500, 2000⟩),
          (⟨300, 0⟩, some ⟨600, 3000⟩)]).down_mbps = Double.fin (4722366482869645 / 32) :=
  ⟨network_rates_nonneg (some ['e', 'n', '0']) 4 (some ⟨1000, 1000⟩)
    [(⟨100, 0⟩, some ⟨1000, 1000⟩), (⟨101, 0⟩, some ⟨500, 2000⟩), (⟨300, 0⟩, some ⟨600, 3000⟩)]
    (by
      intro s hs
      simp only [List.mem_cons, List.mem_singleton, List.not_mem_nil, or_false] at hs
      rcases hs with h | h | h <;> (subst h; unfold Timespec.WF; norm_num)),
    by decide!⟩

/-! ## Per-core load and aggregate load -/

/-- C20 (as stated, refuted): from the deltas user 1, system 2, idle 0, nice 0
the per-core path computes the load 100 and the aggregate path the
`total_load` `33 + 66 = 99`; from user 29, system 57, idle 14 they compute 86
and `28 + 56 = 84`; and from user 1, system 0, idle 0, nice 1 they compute 50
and 100, the nice ticks being part of the per-core total only. -/
theorem core_load_differs_from_total_load :
    core_load ⟨1, 2, 0, 0⟩ ⟨0, 0, 0, 0⟩ = some 100 ∧
      (cpu_update_loads { cpu_boot with load := ⟨1, 2, 0, 0⟩, prev_load := ⟨0, 0, 0, 0⟩ }).map
        (fun c => (c.user_load, c.sys_load, c.total_load)) = some (33, 66, 99) ∧
      core_load ⟨29, 57, 14, 0⟩ ⟨0, 0, 0, 0⟩ = some 86 ∧
      (cpu_update_loads { cpu_boot with load := ⟨29, 57, 14, 0⟩, prev_load := ⟨0, 0, 0, 0⟩ }).map
        (fun c => (c.user_load, c.sys_load, c.total_load)) = some (28, 56, 84) ∧
      core_load ⟨1, 0, 0, 1⟩ ⟨0, 0, 0, 0⟩ = some 50 ∧
      (cpu_update_loads { cpu_boot with load := ⟨1, 0, 0, 1⟩, prev_load := ⟨0, 0, 0, 0⟩ }).map
        (fun c => (c.user_load, c.sys_load, c.total_load)) = some (100, 0, 100) := by
  decide!

theorem div_add_bounds (u s t : ℕ) (ht : 0 < t) :
    100 * u / t + 100 * s / t ≤ 100 * (u + s) / t ∧
      100 * (u + s) / t ≤ 100 * u / t + 100 * s / t + 1 ∧
      (t ∣ 100 * u → 100 * (u + s) / t = 100 * u / t + 100 * s / t) ∧
      (t ∣ 100 * s → 100 * (u + s) / t = 100 * u / t + 100 * s / t) := by
  have h := Nat.add_div (a := 100 * u) (b := 100 * s) ht
  rw [← Nat.mul_add] at h
  refine ⟨?_, ?_, ?_, ?_⟩
  · rw [h]; omega
  · rw [h]; split_ifs <;> omega
  · intro hd
    have h0 : 100 * u % t = 0 := Nat.mod_eq_zero_of_dvd hd
    have h1 := Nat.mod_lt (100 * s) ht
    rw [h, if_neg (by omega)]
    omega
  · intro hd
    have h0 : 100 * s % t = 0 := Nat.mod_eq_zero_of_dvd hd
    have h1 := Nat.mod_lt (100 * u) ht
    rw [h, if_neg (by omega)]
    omega

/-- C20 (amended): the per-core tracker and the aggregate path do not compute
the same value: the per-core load is one truncation of
`(user_delta + sys_delta) / total * 100.0` with the nice ticks in the total,
and `total_load` is the sum of the two truncated percentages over a total
without the nice ticks. For non-decreasing 32-bit counters with a nice delta
of 0 and `0 < total < 2 ^ 32` both are defined and the per-core load lies
between `total_load - 1` and `total_load + 2`. -/
theorem core_load_near_total_load (cpu : Cpu) (cur prev : CpuTicks) (hwf : cur.WF)
    (hle : ticks_le prev cur) (hnice : cur.nice = prev.nice)
    (ht0 : 0 < core_total cur prev) (ht32 : core_total cur prev < 2 ^ 32) :
    ∃ (p : ℤ) (c : Cpu), core_load cur prev = some p ∧
      cpu_update_loads { cpu with load := cur, prev_load := prev } = some c ∧
      c.total_load = c.user_load + c.sys_load ∧
      c.total_load - 1 ≤ p ∧ p ≤ c.total_load + 2 := by
  obtain ⟨p, hp, _, _, _, hpb⟩ := core_load_spec cur prev hwf hle ht32
  obtain ⟨hp1, hp2, _⟩ := hpb ht0
  obtain ⟨hwu, hws, hwi, hwn⟩ := hwf
  obtain ⟨hu, hs, hi, hn⟩ := hle
  unfold core_total at ht0 ht32 hp1 hp2
  unfold core_busy at hp1 hp2
  have hdn : cur.nice - prev.nice = 0 := by omega
  rw [hdn, Nat.add_zero] at ht0 ht32 hp1 hp2
  have e1 : tick_delta cur.user prev.user = cur.user - prev.user :=
    tick_delta_of_le _ _ hu hwu
  have e2 : tick_delta cur.system prev.system = cur.system - prev.system :=
    tick_delta_of_le _ _ hs hws
  have e3 : tick_delta cur.idle prev.idle = cur.idle - prev.idle :=
    tick_delta_of_le _ _ hi hwi
  generalize cur.user - prev.user = du at *
  generalize cur.system - prev.system = ds at *
  generalize cur.idle - prev.idle = di at *
  have e4 : add32 (add32 ds du) di = du + ds + di := by
    rw [add32_of_lt ds du (by omega), add32_of_lt _ _ (by omega)]
    omega
  obtain ⟨u, hpu, hu1, hu2, hu0, hu3⟩ := percent_spec du (du + ds + di) ht0 ht32 (by omega)
  obtain ⟨s, hps, hs1, hs2, hs0, hs3⟩ := percent_spec ds (du + ds + di) ht0 ht32 (by omega)
  have hu100 : u ≤ 100 := by
    have : 100 * du / (du + ds + di) ≤ 100 := by
      apply Nat.div_le_of_le_mul
      omega
    omega
  have hs100 : s ≤ 100 := by
    have : 100 * ds / (du + ds + di) ≤ 100 := by
      apply Nat.div_le_of_le_mul
      omega
    omega
  have hl : cpu_update_loads { cpu with load := cur, prev_load := prev } =
      some { cpu with
        load := cur, prev_load := prev, user_load := u, sys_load := s, total_load := u + s } := by
    unfold cpu_update_loads
    simp only [e1, e2, e3, e4, hpu, hps, addInt_of_bounds u s hu0 hs0 hu100 hs100]
  obtain ⟨d1, d2, d3, d4⟩ := div_add_bounds du ds (du + ds + di) ht0
  refine ⟨p, _, hp, hl, rfl, ?_, ?_⟩
  · show u + s - 1 ≤ p
    omega
  · show p ≤ u + s + 2
    by_cases hdu : (du + ds + di) ∣ 100 * du
    · by_cases hds : (du + ds + di) ∣ 100 * ds
      · have := d3 hdu
        omega
      · have := d3 hdu
        have := hs3 hds
        omega
    · have := hu3 hdu
      by_cases hds : (du + ds + di) ∣ 100 * ds
      · have := d4 hds
        omega
      · have := hs3 hds
        omega

/-- Witness of `core_load_near_total_load`: the deltas user 29, system 57,
idle 14, nice 0. -/
theorem core_load_near_total_load_witness :
    ∃ (p : ℤ) (c : Cpu), core_load ⟨1029, 557, 9014, 20⟩ ⟨1000, 500, 9000, 20⟩ = some p ∧
      cpu_update_loads
        { cpu_boot with load := ⟨1029, 557, 9014, 20⟩, prev_load := ⟨1000, 500, 9000, 20⟩ }
        = some c ∧
      c.total_load = c.user_load + c.sys_load ∧
      c.total_load - 1 ≤ p ∧ p ≤ c.total_load + 2 :=
  core_load_near_total_load cpu_boot ⟨1029, 557, 9014, 20⟩ ⟨1000, 500, 9000, 20⟩
    (by unfold CpuTicks.WF; norm_num) (by unfold ticks_le; norm_num) rfl
    (by unfold core_total; norm_num) (by unfold core_total; norm_num)

/-! ## The memory percentage -/

theorem percent_spec_wide (a t : ℕ) (ht : 0 < t) (ht44 : t < 2 ^ 44) (hat : a ≤ t) :
    ∃ p : ℤ, percent a t = some p ∧ p ≤ ((100 * a / t : ℕ) : ℤ) ∧
      ((100 * a / t : ℕ) : ℤ) ≤ p + 1 ∧ 0 ≤ p ∧
      (¬ t ∣ 100 * a → p = ((100 * a / t : ℕ) : ℤ)) := by
  have htq : (0 : ℚ) < t := by exact_mod_cast ht
  have ht44q : (t : ℚ) < 2 ^ 44 := natCast_lt_two_pow t 44 ht44
  have ht53 : t < 2 ^ 53 := lt_trans ht44 (by norm_num)
  have hatq : (a : ℚ) ≤ t := by exact_mod_cast hat
  have ha0 : (0 : ℚ) ≤ a := by positivity
  unfold percent
  rw [ofNat_exact a (lt_of_le_of_lt hat ht53), ofNat_exact t ht53]
  simp only [Double.div]
  rw [if_neg htq.ne']
  have hx0 : (0 : ℚ) ≤ (a : ℚ) / t := by positivity
  have hx1 : (a : ℚ) / t ≤ 1 := (div_le_one htq).mpr hatq
  rw [ofRat_fin_of_le _ (by rw [abs_of_nonneg hx0]; linarith [show (1 : ℚ) ≤ 2 ^ 128 by norm_num])]
  simp only [Double.mul]
  -- the quotient of the division
  set y := round53 ((a : ℚ) / t) with hy
  have hy0 : 0 ≤ y := round53_nonneg _ hx0
  set k := 100 * a / t with hk
  have hkt : k * t ≤ 100 * a := Nat.div_mul_le_self _ _
  have hkt2 : 100 * a < (k + 1) * t := by
    have h1 := Nat.div_add_mod (100 * a) t
    have h2 := Nat.mod_lt (100 * a) ht
    rw [← hk] at h1
    nlinarith
  have hk100 : k ≤ 100 := by
    rw [hk]
    apply Nat.div_le_of_le_mul
    nlinarith
  have hXk : (k : ℚ) ≤ 100 * (a : ℚ) / t := by
    rw [le_div_iff₀ htq]; exact_mod_cast hkt
  have hXk1 : 100 * (a : ℚ) / t + 1 / t ≤ k + 1 := by
    rw [← add_div, div_le_iff₀ htq]
    have : 100 * a + 1 ≤ (k + 1) * t := hkt2
    exact_mod_cast this
  have hinv : (1 : ℚ) / 2 ^ 44 < 1 / t := by
    apply one_div_lt_one_div_of_lt htq ht44q
  have hXx : 100 * (a : ℚ) / t = 100 * ((a : ℚ) / t) := by ring
  by_cases ha : a = 0
  · -- a zero delta
    have hy00 : y = 0 := by rw [hy, ha]; simp [round53_zero]
    have hk0 : k = 0 := by rw [hk, ha]; simp
    rw [hy00, zero_mul, ofRat_fin_of_le 0 (by simp), round53_zero]
    refine ⟨0, ?_, ?_, ?_, le_rfl, ?_⟩
    · simp [Double.toInt]
    · rw [hk0]; simp
    · rw [hk0]; simp
    · intro _; rw [hk0]; simp
  · have ha1 : (1 : ℚ) ≤ a := by
      have : 1 ≤ a := Nat.one_le_iff_ne_zero.mpr ha
      exact_mod_cast this
    have hxlo : (1 : ℚ) / 2 ^ 44 ≤ (a : ℚ) / t := by
      have h1 : (1 : ℚ) / t ≤ (a : ℚ) / t := div_le_div_of_nonneg_right ha1 htq.le
      linarith
    have hyb := round53_bounds ((a : ℚ) / t) hx0
      (le_trans zpow_1022_le (le_trans (by norm_num) hxlo))
    rw [← hy] at hyb
    have hy100 : (0 : ℚ) ≤ y * 100 := by positivity
    have hylo : (1 : ℚ) / 2 ^ 64 ≤ y * 100 := by
      have h1 : (1 : ℚ) / 2 ^ 44 - 1 / 2 ^ 44 / 2 ^ 53 ≤ y := by linarith [hyb.1]
      have h2 : (1 : ℚ) / 2 ^ 64 ≤ (1 / 2 ^ 44 - 1 / 2 ^ 44 / 2 ^ 53) * 100 := by norm_num
      linarith
    have hzb := round53_bounds (y * 100) hy100 (le_trans zpow_1022_le hylo)
    have hyhi : y * 100 ≤ 2 ^ 128 := by
      have h1 : y ≤ 1 + 1 / 2 ^ 53 := by linarith [hyb.2]
      have h2 : ((1 : ℚ) + 1 / 2 ^ 53) * 100 ≤ 2 ^ 128 := by norm_num
      linarith
    rw [ofRat_fin_of_le _ (by rw [abs_of_nonneg hy100]; exact hyhi)]
    set z := round53 (y * 100) with hz
    have hz0 : 0 ≤ z := round53_nonneg _ hy100
    -- the computed value is within 2 ^ (-44) of the exact percentage
    have hzX1 : z ≤ 100 * (a : ℚ) / t + 1 / 2 ^ 44 := by
      rw [hXx]
      have := hzb.2
      have := hyb.2
      norm_num at *
      linarith
    have hzX2 : 100 * (a : ℚ) / t - 1 / 2 ^ 44 ≤ z := by
      rw [hXx]
      have := hzb.1
      have := hyb.1
      norm_num at *
      linarith
    have hfl1 : ⌊z⌋ ≤ (k : ℤ) := by
      have h1 : z < ((k + 1 : ℤ) : ℚ) := by
        push_cast
        linarith
      have := Int.floor_lt.mpr h1
      omega
    have hfl2 : (k : ℤ) ≤ ⌊z⌋ + 1 := by
      have h1 : (((k : ℤ) - 1 : ℤ) : ℚ) ≤ z := by
        push_cast
        have : (1 : ℚ) / 2 ^ 44 ≤ 1 := by norm_num
        linarith
      have := Int.le_floor.mpr h1
      omega
    have hfl0 : 0 ≤ ⌊z⌋ := Int.floor_nonneg.mpr hz0
    refine ⟨⌊z⌋, ?_, hfl1, hfl2, hfl0, ?_⟩
    · simp only [Double.toInt, if_pos hz0]
      rw [if_pos]
      constructor
      · omega
      · have : (k : ℤ) ≤ 100 := by exact_mod_cast hk100
        norm_num
        omega
    · intro hdvd
      have hmod : 0 < 100 * a % t := by
        rcases Nat.eq_zero_or_pos (100 * a % t) with h | h
        · exact absurd (Nat.dvd_of_mod_eq_zero h) hdvd
        · exact h
      have hkt3 : k * t + 1 ≤ 100 * a := by
        have h1 := Nat.div_add_mod (100 * a) t
        rw [← hk] at h1
        nlinarith
      have hXk2 : (k : ℚ) + 1 / t ≤ 100 * (a : ℚ) / t := by
        rw [le_div_iff₀ htq, add_mul, one_div, inv_mul_cancel₀ htq.ne']
        exact_mod_cast hkt3
      have h1 : ((k : ℤ) : ℚ) ≤ z := by
        push_cast
        linarith
      have := Int.le_floor.mpr h1
      omega


theorem clamp_int_range (v lo hi : ℤ) (h : lo ≤ hi) :
    lo ≤ clamp_int v lo hi ∧ clamp_int v lo hi ≤ hi := by
  unfold clamp_int
  split_ifs <;> constructor <;> omega

theorem clamp_int_id (v lo hi : ℤ) (h1 : lo ≤ v) (h2 : v ≤ hi) : clamp_int v lo hi = v := by
  unfold clamp_int
  split_ifs <;> omega

theorem read_memory_stats_range (ok : Bool) (rd : MemRead) (m : MemStats)
    (h : read_memory_stats ok rd = some (some m)) : 0 ≤ m.percent ∧ m.percent ≤ 100 := by
  unfold read_memory_stats at h
  split_ifs at h
  · exact absurd h (by simp)
  · split at h
    · exact absurd h (by simp)
    split at h
    · exact absurd h (by simp)
    split at h
    · exact absurd h (by simp)
    simp only at h
    split at h
    · exact absurd h (by simp)
    · simp only [Option.some.injEq] at h
      rw [← h]
      exact clamp_int_range _ 0 100 (by norm_num)

theorem read_memory_stats_eq (total : ℕ) (vmstat : VmStat) (page_size : ℕ) (pct : ℤ)
    (h : (if total > 0 then
        percent (mul64 (add64 (add64 vmstat.active_count vmstat.wire_count)
          vmstat.compressor_page_count) page_size) total else some 0) = some pct) :
    read_memory_stats true ⟨some total, some vmstat, some page_size⟩ =
      some (some ⟨mul64 (add64 (add64 vmstat.active_count vmstat.wire_count)
          vmstat.compressor_page_count) page_size, total, clamp_int pct 0 100⟩) := by
  unfold read_memory_stats
  simp only [h]
  rfl

/-- C12 (as stated, refuted): with 25 GiB of memory, pages of 16384 bytes and
475136 used pages, the used bytes are exactly 29 % of the total, and
`read_memory_stats` stores 28: the quotient is rounded to the double just below
0.29 and its product with 100.0 is 28.999999999999996. -/
theorem read_memory_stats_percent_off_by_one :
    read_memory_stats true ⟨some 26843545600, some ⟨475136, 0, 0⟩, some 16384⟩
      = some (some ⟨7784628224, 26843545600, 28⟩) ∧
    100 * 7784628224 = 29 * 26843545600 ∧
    clamp_int ((100 * 7784628224 / 26843545600 : ℕ) : ℤ) 0 100 = 29 := by
  decide!

/-- C12 (amended): whenever `read_memory_stats` returns true the stored percent
lies in `[0,100]`. For a total below `2 ^ 44` bytes and used bytes (the sum of
the three page counts times the page size, in 64 bits) not above the total, the
function returns true and stores `clamp_int` of the converted percentage: 0
when the total is 0, and otherwise the integer quotient `100 * used / total`,
or one less than it when the total divides `100 * used`. -/
theorem read_memory_stats_percent (total : ℕ) (vmstat : VmStat) (page_size : ℕ)
    (ht44 : total < 2 ^ 44)
    (hle : mul64 (add64 (add64 vmstat.active_count vmstat.wire_count)
      vmstat.compressor_page_count) page_size ≤ total) :
    (∀ (rd : MemRead) (m : MemStats),
      read_memory_stats true rd = some (some m) → 0 ≤ m.percent ∧ m.percent ≤ 100) ∧
    ∃ pct : ℤ,
      read_memory_stats true ⟨some total, some vmstat, some page_size⟩ =
        some (some ⟨mul64 (add64 (add64 vmstat.active_count vmstat.wire_count)
          vmstat.compressor_page_count) page_size, total, clamp_int pct 0 100⟩) ∧
      clamp_int pct 0 100 = pct ∧
      (total = 0 → pct = 0) ∧
      (0 < total →
        pct ≤ ((100 * mul64 (add64 (add64 vmstat.active_count vmstat.wire_count)
          vmstat.compressor_page_count) page_size / total : ℕ) : ℤ) ∧
        ((100 * mul64 (add64 (add64 vmstat.active_count vmstat.wire_count)
          vmstat.compressor_page_count) page_size / total : ℕ) : ℤ) ≤ pct + 1 ∧
        (¬ total ∣ 100 * mul64 (add64 (add64 vmstat.active_count vmstat.wire_count)
          vmstat.compressor_page_count) page_size →
          pct = ((100 * mul64 (add64 (add64 vmstat.active_count vmstat.wire_count)
            vmstat.compressor_page_count) page_size / total : ℕ) : ℤ))) := by
  refine ⟨fun rd m h => read_memory_stats_range true rd m h, ?_⟩
  rcases Nat.eq_zero_or_pos total with h0 | h0
  · refine ⟨0, read_memory_stats_eq total vmstat page_size 0 (by rw [if_neg (by omega)]),
      by decide, fun _ => rfl, fun h => absurd h (by omega)⟩
  · obtain ⟨p, hp, hp1, hp2, hp0, hp3⟩ := percent_spec_wide _ total h0 ht44 hle
    have hK : 100 * mul64 (add64 (add64 vmstat.active_count vmstat.wire_count)
        vmstat.compressor_page_count) page_size / total ≤ 100 := by
      apply Nat.div_le_of_le_mul
      exact Nat.mul_le_mul_left 100 hle |>.trans (by rw [Nat.mul_comm])
    refine ⟨p, read_memory_stats_eq total vmstat page_size p (by rw [if_pos h0]; exact hp),
      clamp_int_id p 0 100 hp0 (by omega), fun h => absurd h (by omega), fun _ => ⟨hp1, hp2, hp3⟩⟩

/-- Witness of `read_memory_stats_percent`: 16 GiB of memory, pages of 16384
bytes, and 200000 active, 100000 wired and 50000 compressor pages, that is
5734400000 used bytes. -/
theorem read_memory_stats_percent_witness :
    ∃ pct : ℤ,
      read_memory_stats true ⟨some 17179869184, some ⟨200000, 100000, 50000⟩, some 16384⟩ =
        some (some ⟨5734400000, 17179869184, clamp_int pct 0 100⟩) ∧
      clamp_int pct 0 100 = pct ∧
      (17179869184 = 0 → pct = 0) ∧
      (0 < 17179869184 →
        pct ≤ ((100 * 5734400000 / 17179869184 : ℕ) : ℤ) ∧
        ((100 * 5734400000 / 17179869184 : ℕ) : ℤ) ≤ pct + 1 ∧
        (¬ 17179869184 ∣ 100 * 5734400000 →
          pct = ((100 * 5734400000 / 17179869184 : ℕ) : ℤ))) :=
  (read_memory_stats_percent 17179869184 ⟨200000, 100000, 50000⟩ 16384
    (by norm_num) (by decide)).2

/-! ## The per-core load list of `main` -/

theorem toDigits_length_le (n e : ℕ) (h : n < 10 ^ e) (he : 0 < e) :
    (Nat.toDigits 10 n).length ≤ e := by
  unfold Nat.toDigits
  exact Nat.toDigitsCore_length 10 (by norm_num) (n + 1) n e h he

theorem toDigits_no_nul (n : ℕ) : NUL ∉ Nat.toDigits 10 n := by
  unfold Nat.toDigits
  exact toDigitsCore_no_nul _ _ _ (by simp)

theorem fmt_d_length (v : ℤ) (h1 : -2 ^ 31 ≤ v) (h2 : v < 2 ^ 31) : (fmt_d v).length ≤ 11 := by
  unfold fmt_d
  split_ifs with hneg
  · have : (Nat.toDigits 10 v.natAbs).length ≤ 10 :=
      toDigits_length_le _ 10 (by omega) (by norm_num)
    simp only [List.length_cons]
    omega
  · have : (Nat.toDigits 10 v.toNat).length ≤ 10 :=
      toDigits_length_le _ 10 (by omega) (by norm_num)
    omega

theorem fmt_d_no_nul (v : ℤ) : NUL ∉ fmt_d v := by
  unfold fmt_d
  split_ifs
  · intro h
    rcases List.mem_cons.mp h with h | h
    · exact absurd h (by decide)
    · exact toDigits_no_nul _ h
  · exact toDigits_no_nul _

theorem core_pair_length (i : ℕ) (v : ℤ) (h1 : -2 ^ 31 ≤ v) (h2 : v < 2 ^ 31) :
    (core_pair i v).length ≤ 12 := by
  have := fmt_d_length v h1 h2
  unfold core_pair
  split_ifs <;> simp only [List.length_append, List.length_cons, List.length_nil] <;> omega

theorem core_pair_no_nul (i : ℕ) (v : ℤ) : NUL ∉ core_pair i v := by
  unfold core_pair
  intro h
  rcases List.mem_append.mp h with h | h
  · split_ifs at h
    · rcases List.mem_cons.mp h with h | h
      · exact absurd h (by decide)
      · exact absurd h (by simp)
    · exact absurd h (by simp)
  · exact fmt_d_no_nul v h

theorem core_loads_loop_spec (loads : List ℤ)
    (hint : ∀ v ∈ loads, -2 ^ 31 ≤ v ∧ v < 2 ^ 31) :
    ∀ (idx : List ℕ) (st : FmtState) (T : List Char),
      (∀ i ∈ idx, i < loads.length) →
      st.buffer.length = 512 → st.offset = T.length → T.length + 12 * idx.length ≤ 511 →
      (∃ rest, st.buffer = T ++ NUL :: rest) →
      (∀ c ∈ st.calls, c.1 < 512 ∧ c.2 = 512 - c.1) →
      ∃ st', core_loads_loop loads idx st = some st' ∧ st'.buffer.length = 512 ∧
        st'.offset = (T ++ (idx.map (fun i => core_pair i (loads.getD i 0))).flatten).length ∧
        (∃ rest, st'.buffer =
          (T ++ (idx.map (fun i => core_pair i (loads.getD i 0))).flatten) ++ NUL :: rest) ∧
        (∀ c ∈ st'.calls, c.1 < 512 ∧ c.2 = 512 - c.1) ∧
        st'.calls.length = st.calls.length + idx.length := by
  intro idx
  induction idx with
  | nil =>
    intro st T _ hL hoff _ hbuf hcalls
    have hloop : core_loads_loop loads [] st = some st := by
      rw [core_loads_loop]
    refine ⟨st, hloop, hL, ?_, ?_, hcalls, rfl⟩
    · simp only [List.map_nil, List.flatten_nil, List.append_nil]
      exact hoff
    · simp only [List.map_nil, List.flatten_nil, List.append_nil]
      exact hbuf
  | cons i rest ih =>
    intro st T hidx hL hoff hfit hbuf hcalls
    obtain ⟨buf, off, calls⟩ := st
    simp only at hL hoff hbuf hcalls
    subst hoff
    have hi : i < loads.length := hidx i (List.mem_cons_self _ _)
    have hget : loads[i]? = some (loads.getD i 0) := by
      rw [List.getD_eq_getElem _ _ hi]
      exact List.getElem?_eq_getElem hi
    have hmem : loads.getD i 0 ∈ loads := by
      rw [List.getD_eq_getElem _ _ hi]
      exact List.getElem_mem hi
    obtain ⟨hv1, hv2⟩ := hint _ hmem
    have hpl := core_pair_length i _ hv1 hv2
    simp only [List.length_cons] at hfit
    rw [core_loads_loop, hget]
    simp only
    obtain ⟨r, hr⟩ := hbuf
    subst hr
    rw [size_sub_of_le 512 T.length (by omega) (by norm_num)]
    have hlim : T.length + (512 - T.length) = (T ++ NUL :: r).length := by
      rw [hL]; omega
    obtain ⟨r', hsn, hlen'⟩ :=
      snprintf_at_end T r (core_pair i (loads.getD i 0)) (512 - T.length) (by omega) hlim
    rw [List.take_of_length_le (by omega)] at hsn hlen'
    rw [hsn]
    simp only
    have hoff' : (T.length + ((core_pair i (loads.getD i 0)).length : ℤ).toNat) % 2 ^ 64
        = (T ++ core_pair i (loads.getD i 0)).length := by
      rw [List.length_append, Int.toNat_ofNat]
      exact Nat.mod_eq_of_lt (by omega)
    rw [hoff']
    have hres := ih
      { buffer := T ++ core_pair i (loads.getD i 0) ++ NUL :: r'
        offset := (T ++ core_pair i (loads.getD i 0)).length
        calls := calls ++ [(T.length, 512 - T.length)] }
      (T ++ core_pair i (loads.getD i 0))
      (fun j hj => hidx j (List.mem_cons_of_mem _ hj))
      (by simp only; rw [hlen']; exact hL)
      rfl
      (by rw [List.length_append]; omega)
      ⟨r', rfl⟩
      (by
        intro c hc
        simp only [List.mem_append, List.mem_singleton] at hc
        rcases hc with hc | hc
        · exact hcalls c hc
        · rw [hc]; exact ⟨by simp only; omega, rfl⟩)
    obtain ⟨st', hst', hl', ho', hb', hc', hn'⟩ := hres
    refine ⟨st', hst', hl', ?_, ?_, hc', ?_⟩
    · rw [ho']
      simp only [List.map_cons, List.flatten_cons, List.append_assoc]
    · obtain ⟨r2, hr2⟩ := hb'
      refine ⟨r2, ?_⟩
      rw [hr2]
      simp only [List.map_cons, List.flatten_cons, List.append_assoc]
    · rw [hn']
      simp only [List.length_append, List.length_cons, List.length_nil]
      omega

theorem intercalate_append_singleton (sep x : List Char) (l : List (List Char)) :
    List.intercalate sep (l ++ [x]) =
      List.intercalate sep l ++ ((if l = [] then [] else sep) ++ x) := by
  cases l with
  | nil => simp [List.intercalate]
  | cons a l0 =>
    rw [List.cons_append, intercalate_cons, intercalate_cons, if_neg (by simp)]
    simp only [List.map_append, List.flatten_append, List.map_cons, List.map_nil,
      List.flatten_cons, List.flatten_nil, List.append_nil, List.append_assoc]

theorem core_text_eq_joined (loads : List ℤ) : ∀ n, n ≤ loads.length →
    ((List.range n).map (fun i => core_pair i (loads.getD i 0))).flatten
      = core_loads_joined (loads.take n) := by
  intro n
  induction n with
  | zero => intro _; simp [core_loads_joined, List.intercalate]
  | succ n ih =>
    intro hn
    have hlt : n < loads.length := by omega
    have htk : loads.take (n + 1) = loads.take n ++ [loads.getD n 0] := by
      rw [List.getD_eq_getElem _ _ hlt, List.take_succ, List.getElem?_eq_getElem hlt]
      rfl
    rw [List.range_succ, List.map_append, List.flatten_append, ih (by omega), htk]
    unfold core_loads_joined
    simp only [List.map_append, List.map_cons, List.map_nil, List.flatten_cons,
      List.flatten_nil, List.append_nil]
    rw [intercalate_append_singleton]
    congr 1
    unfold core_pair
    congr 1
    by_cases h0 : n = 0
    · subst h0
      simp
    · have hne : List.map fmt_d (List.take n loads) ≠ [] := by
        intro h
        have := congrArg List.length h
        simp only [List.length_map, List.length_take, List.length_nil] at this
        omega
      rw [if_pos (by omega), if_neg hne]

theorem core_text_length (loads : List ℤ) (hint : ∀ v ∈ loads, -2 ^ 31 ≤ v ∧ v < 2 ^ 31) :
    ∀ idx : List ℕ, (∀ i ∈ idx, i < loads.length) →
      ((idx.map (fun i => core_pair i (loads.getD i 0))).flatten).length + idx.countP (· = 0)
        ≤ 12 * idx.length := by
  intro idx
  induction idx with
  | nil => intro _; simp
  | cons i rest ih =>
    intro hidx
    have hi : i < loads.length := hidx i (List.mem_cons_self _ _)
    have hmem : loads.getD i 0 ∈ loads := by
      rw [List.getD_eq_getElem _ _ hi]
      exact List.getElem_mem hi
    obtain ⟨hv1, hv2⟩ := hint _ hmem
    have hfl := fmt_d_length _ hv1 hv2
    have hrest := ih (fun j hj => hidx j (List.mem_cons_of_mem _ hj))
    have hcp : (core_pair i (loads.getD i 0)).length + (if i = 0 then 1 else 0) ≤ 12 := by
      unfold core_pair
      by_cases h0 : i = 0
      · subst h0
        simp only [gt_iff_lt, lt_self_iff_false, if_false, List.nil_append, if_true]
        omega
      · rw [if_pos (by omega), if_neg h0]
        simp only [List.length_append, List.length_cons, List.length_nil]
        omega
    simp only [List.map_cons, List.flatten_cons, List.length_append, List.length_cons,
      List.countP_cons, decide_eq_true_eq]
    omega

theorem core_loads_count_of_le (ncores : ℕ) (hn : ncores ≤ 32) : core_loads_count ncores = ncores := by
  unfold core_loads_count MAX_CORES
  rw [Nat.mod_eq_of_lt (by omega), if_pos (by omega)]
  exact min_eq_left hn

/-- C16: for every `ncores ≤ 32` and every 32 `int` values in `core_loads`, the
loop of `main` that builds `core_loads_str` is defined and makes `ncores` calls
of `snprintf`, each at an offset below 512 with the limit `512 - offset`; the
final offset is the length of the comma-separated list of the first `ncores`
loads and is at most 383, and the string left in the array is that whole
list. -/
theorem core_loads_format_fits (ncores : ℕ) (loads : List ℤ) (hn : ncores ≤ 32)
    (hlen : loads.length = MAX_CORES) (hint : ∀ v ∈ loads, -2 ^ 31 ≤ v ∧ v < 2 ^ 31) :
    ∃ st, core_loads_format ncores loads = some st ∧
      (∀ c ∈ st.calls, c.1 < 512 ∧ c.2 = 512 - c.1) ∧
      st.calls.length = ncores ∧
      st.offset = (core_loads_joined (loads.take ncores)).length ∧
      st.offset ≤ 383 ∧
      cstr st.buffer = core_loads_joined (loads.take ncores) := by
  unfold MAX_CORES at hlen
  have hidx : ∀ i ∈ List.range ncores, i < loads.length := by
    intro i hi
    have := List.mem_range.mp hi
    omega
  obtain ⟨st, hst, _, hoff, ⟨r, hbuf⟩, hcalls, hn'⟩ :=
    core_loads_loop_spec loads hint (List.range ncores)
      { buffer := List.replicate 512 NUL, offset := 0, calls := [] } []
      hidx (List.length_replicate 512 NUL) rfl
      (by simp only [List.length_nil, List.length_range]; omega)
      ⟨List.replicate 511 NUL, rfl⟩
      (by intro c hc; exact absurd hc (List.not_mem_nil c))
  have hnn : NUL ∉ ((List.range ncores).map (fun i => core_pair i (loads.getD i 0))).flatten := by
    intro hmem
    obtain ⟨x, hx, hnul⟩ := List.mem_flatten.mp hmem
    obtain ⟨i, _, hi⟩ := List.mem_map.mp hx
    rw [← hi] at hnul
    exact core_pair_no_nul i _ hnul
  rw [List.nil_append, core_text_eq_joined loads ncores (by omega)] at hoff hbuf
  rw [core_text_eq_joined loads ncores (by omega)] at hnn
  have hlen383 : (core_loads_joined (loads.take ncores)).length ≤ 383 := by
    have h := core_text_length loads hint (List.range ncores) hidx
    rw [core_text_eq_joined loads ncores (by omega), List.length_range] at h
    rcases Nat.eq_zero_or_pos ncores with h0 | h0
    · subst h0
      simp [core_loads_joined, List.intercalate]
    · have : 0 < (List.range ncores).countP (· = 0) :=
        List.countP_pos_iff.mpr ⟨0, List.mem_range.mpr h0, by simp⟩
      omega
  refine ⟨st, ?_, hcalls, ?_, hoff, ?_, ?_⟩
  · unfold core_loads_format
    rw [core_loads_count_of_le ncores hn]
    exact hst
  · rw [hn']
    simp
  · rw [hoff]
    exact hlen383
  · rw [hbuf]
    exact cstr_append_nul _ _ hnn

/-- Witness of `core_loads_format_fits`: 32 cores whose stored loads are all
the least `int`, the longest list there is. -/
theorem core_loads_format_fits_witness :
    ∃ st, core_loads_format 32 (List.replicate 32 (-2147483648)) = some st ∧
      (∀ c ∈ st.calls, c.1 < 512 ∧ c.2 = 512 - c.1) ∧
      st.calls.length = 32 ∧
      st.offset = (core_loads_joined ((List.replicate 32 (-2147483648)).take 32)).length ∧
      st.offset ≤ 383 ∧
      cstr st.buffer = core_loads_joined ((List.replicate 32 (-2147483648)).take 32) :=
  core_loads_format_fits 32 (List.replicate 32 (-2147483648)) (le_refl 32)
    (by decide)
    (fun v hv => by rw [List.eq_of_mem_replicate hv]; norm_num)

/-! ## Unavailable metrics -/

theorem main_tick_args (qsort : List proc_gpu_info_t → List proc_gpu_info_t)
    (event : List Char) (cpu : Cpu) (buf : List Char) (read : TickRead)
    (c : Cpu) (b : List Char) (a : TriggerArgs)
    (h : main_tick qsort event cpu buf read = some (c, b, a)) :
    ∃ (mem : Option MemStats) (temps : ℤ × ℤ),
      read_memory_stats true read.mem = some mem ∧
      read_temperatures read.hid = some temps ∧
      a.mem_used_percent = (match mem with | some m => m.percent | none => -1) ∧
      a.mem_used_bytes = (match mem with | some m => m.used_bytes | none => 0) ∧
      a.mem_total_bytes = (match mem with | some m => m.total_bytes | none => 0) ∧
      a.mem_used_gb = (match mem with | some m => bytes_to_gb m.used_bytes | none => Double.fin 0) ∧
      a.mem_total_gb =
        (match mem with | some m => bytes_to_gb m.total_bytes | none => Double.fin 0) ∧
      a.gpu_util = read_gpu_utilization read.gpu ∧
      a.cpu_temp = temps.1 ∧ a.gpu_temp = temps.2 := by
  unfold main_tick at h
  split at h
  · exact absurd h (by simp)
  split at h
  · exact absurd h (by simp)
  rename_i mem hmem
  simp only at h
  split at h
  · exact absurd h (by simp)
  rename_i cpu_temp gpu_temp htemps
  split at h
  · exact absurd h (by simp)
  split at h
  · exact absurd h (by simp)
  simp only [Option.some.injEq, Prod.mk.injEq] at h
  obtain ⟨_, _, ha⟩ := h
  subst ha
  exact ⟨mem, (cpu_temp, gpu_temp), hmem, htemps, rfl, rfl, rfl, rfl, rfl, rfl, rfl, rfl⟩

theorem read_memory_stats_fails (rd : MemRead)
    (h : rd.memsize = none ∨ rd.vmstat = none ∨ rd.page_size = none) :
    read_memory_stats true rd = some none := by
  obtain ⟨ms, vs, ps⟩ := rd
  simp only at h
  unfold read_memory_stats
  rcases h with h | h | h
  · subst h; rfl
  · subst h; cases ms <;> rfl
  · subst h; cases ms <;> cases vs <;> rfl

theorem foldl_fixed {α β : Type} (f : β → α → β) (x : β) (l : List α)
    (h : ∀ v ∈ l, f x v = x) : l.foldl f x = x := by
  induction l with
  | nil => rfl
  | cons v rest ih =>
    rw [List.foldl_cons, h v (List.mem_cons_self _ _)]
    exact ih (fun w hw => h w (List.mem_cons_of_mem _ hw))

theorem read_gpu_utilization_unavailable (services : Option (List (Option ℤ)))
    (h : ∀ l, services = some l → ∀ v ∈ l, ∀ x, v = some x → x < 0) :
    read_gpu_utilization services = -1 := by
  cases services with
  | none => rfl
  | some l =>
    unfold read_gpu_utilization
    simp only
    rw [foldl_fixed _ (-1) l]
    · rfl
    · intro v hv
      cases v with
      | none => rfl
      | some x =>
        have := h l rfl (some x) hv x rfl
        simp only
        rw [if_neg (by omega)]

theorem temp_foldl_cpu (l : List HidService)
    (h : ∀ s ∈ l, s.conforms = true → s.is_tdie = true →
      Double.lt (Double.fin 0) (read_hid_service_temperature s) = false) :
    ∀ acc : TempAcc, (l.foldl temp_step acc).cpu_count = acc.cpu_count := by
  induction l with
  | nil => intro acc; rfl
  | cons s rest ih =>
    intro acc
    rw [List.foldl_cons, ih (fun w hw => h w (List.mem_cons_of_mem _ hw))]
    have hs := h s (List.mem_cons_self _ _)
    unfold temp_step
    by_cases hc : s.conforms = false
    · rw [if_pos hc]
    · rw [if_neg hc]
      have hc1 : s.conforms = true := by cases hcc : s.conforms <;> simp_all
      by_cases hd : (s.is_tdie || s.is_tdev) = true
      · rw [if_pos hd]
        simp only
        by_cases hp : Double.lt (Double.fin 0) (read_hid_service_temperature s) = true
        · rw [if_pos hp]
          have hdie : s.is_tdie = false := by
            cases hdd : s.is_tdie
            · rfl
            · rw [hs hc1 hdd] at hp
              exact absurd hp (by decide)
          simp only [hdie, Bool.false_eq_true, if_false]
          split_ifs <;> rfl
        · rw [if_neg hp]
      · rw [if_neg hd]

theorem temp_foldl_gpu (l : List HidService)
    (h : ∀ s ∈ l, s.conforms = true → s.is_tdev = true →
      Double.lt (Double.fin 0) (read_hid_service_temperature s) = false) :
    ∀ acc : TempAcc, (l.foldl temp_step acc).gpu_max = acc.gpu_max := by
  induction l with
  | nil => intro acc; rfl
  | cons s rest ih =>
    intro acc
    rw [List.foldl_cons, ih (fun w hw => h w (List.mem_cons_of_mem _ hw))]
    have hs := h s (List.mem_cons_self _ _)
    unfold temp_step
    by_cases hc : s.conforms = false
    · rw [if_pos hc]
    · rw [if_neg hc]
      have hc1 : s.conforms = true := by cases hcc : s.conforms <;> simp_all
      by_cases hd : (s.is_tdie || s.is_tdev) = true
      · rw [if_pos hd]
        simp only
        by_cases hp : Double.lt (Double.fin 0) (read_hid_service_temperature s) = true
        · rw [if_pos hp]
          have hdev : s.is_tdev = false := by
            cases hdd : s.is_tdev
            · rfl
            · rw [hs hc1 hdd] at hp
              exact absurd hp (by decide)
          simp only [hdev, Bool.false_and, Bool.false_eq_true, if_false]
          split_ifs <;> rfl
        · rw [if_neg hp]
      · rw [if_neg hd]

theorem read_temperatures_cpu_unavailable (services : Option (List HidService)) (temps : ℤ × ℤ)
    (hr : read_temperatures services = some temps)
    (h : ∀ l, services = some l → ∀ s ∈ l, s.conforms = true → s.is_tdie = true →
      Double.lt (Double.fin 0) (read_hid_service_temperature s) = false) :
    temps.1 = -1 := by
  cases services with
  | none =>
    simp only [read_temperatures, Option.some.injEq] at hr
    rw [← hr]
  | some l =>
    unfold read_temperatures at hr
    simp only at hr
    rw [temp_foldl_cpu l (h l rfl)] at hr
    simp only [gt_iff_lt, lt_self_iff_false, if_false] at hr
    split at hr
    · exact absurd hr (by simp)
    · simp only [Option.some.injEq] at hr
      rw [← hr]

theorem read_temperatures_gpu_unavailable (services : Option (List HidService)) (temps : ℤ × ℤ)
    (hr : read_temperatures services = some temps)
    (h : ∀ l, services = some l → ∀ s ∈ l, s.conforms = true → s.is_tdev = true →
      Double.lt (Double.fin 0) (read_hid_service_temperature s) = false) :
    temps.2 = -1 := by
  cases services with
  | none =>
    simp only [read_temperatures, Option.some.injEq] at hr
    rw [← hr]
  | some l =>
    unfold read_temperatures at hr
    simp only at hr
    rw [temp_foldl_gpu l (h l rfl)] at hr
    have hlt : Double.lt (Double.fin 0) (Double.fin (-1)) = false := by decide!
    rw [hlt] at hr
    simp only [Bool.false_eq_true, if_false] at hr
    split at hr
    · exact absurd hr (by simp)
    · simp only [Option.some.injEq] at hr
      rw [← hr]

/-- C13 (as stated, refuted): on a tick whose memory read fails, the message holds
`mem_used_percent='-1'` but `mem_used_bytes='0'` and `mem_total_bytes='0'`:
`main` passes `mem_ok ? mem_used : 0ULL` and `mem_ok ? mem_total : 0ULL` to the
format. -/
theorem memory_bytes_reported_as_zero :
    (main_tick insertion_qsort ("stats").toList (cpu_after ⟨1000, 500, 8000, 0⟩)
      (List.replicate 2048 NUL) tick_unavailable).map (fun r => trigger_tokens r.2.2) =
    some [(("cpu_user").toList, ("12").toList),
      (("cpu_sys").toList, ("5").toList),
      (("cpu_total").toList, ("17").toList),
      (("cpu_ncores").toList, ("0").toList),
      (("cpu_core_loads").toList, []),
      (("mem_used_percent").toList, ("-1").toList),
      (("mem_used_bytes").toList, ("0").toList),
      (("mem_total_bytes").toList, ("0").toList),
      (("mem_used_gb").toList, ("0.0").toList),
      (("mem_total_gb").toList, ("0").toList),
      (("gpu_util").toList, ("-1").toList),
      (("cpu_temp").toList, ("-1").toList),
      (("gpu_temp").toList, ("-1").toList),
      (("gpu_procs").toList, [])] := by
  decide!

/-- C13 (amended): on every tick that produces the arguments `a` of the
message format: when one of the three reads of `read_memory_stats` fails, the
tokens are `mem_used_percent='-1'`, `mem_used_bytes='0'`, `mem_total_bytes='0'`,
`mem_used_gb='0.0'` and `mem_total_gb='0'`; when the accelerator lookup fails
or no accelerator yields a utilization that is not negative, the token is
`gpu_util='-1'`; when the HID services are unavailable or no conforming
`PMU tdie` sensor yields a positive reading, the token is `cpu_temp='-1'`, and
likewise `gpu_temp='-1'` for the `PMU tdev` sensors. -/
theorem unavailable_metrics_reported (qsort : List proc_gpu_info_t → List proc_gpu_info_t)
    (event : List Char) (cpu : Cpu) (buf : List Char) (read : TickRead)
    (c : Cpu) (b : List Char) (a : TriggerArgs)
    (h : main_tick qsort event cpu buf read = some (c, b, a)) :
    ((read.mem.memsize = none ∨ read.mem.vmstat = none ∨ read.mem.page_size = none) →
      (("mem_used_percent").toList, ("-1").toList) ∈ trigger_tokens a ∧
      (("mem_used_bytes").toList, ("0").toList) ∈ trigger_tokens a ∧
      (("mem_total_bytes").toList, ("0").toList) ∈ trigger_tokens a ∧
      (("mem_used_gb").toList, ("0.0").toList) ∈ trigger_tokens a ∧
      (("mem_total_gb").toList, ("0").toList) ∈ trigger_tokens a) ∧
    ((∀ l, read.gpu = some l → ∀ v ∈ l, ∀ x, v = some x → x < 0) →
      (("gpu_util").toList, ("-1").toList) ∈ trigger_tokens a) ∧
    ((∀ l, read.hid = some l → ∀ s ∈ l, s.conforms = true → s.is_tdie = true →
        Double.lt (Double.fin 0) (read_hid_service_temperature s) = false) →
      (("cpu_temp").toList, ("-1").toList) ∈ trigger_tokens a) ∧
    ((∀ l, read.hid = some l → ∀ s ∈ l, s.conforms = true → s.is_tdev = true →
        Double.lt (Double.fin 0) (read_hid_service_temperature s) = false) →
      (("gpu_temp").toList, ("-1").toList) ∈ trigger_tokens a) := by
  obtain ⟨mem, temps, hmem, htemps, h1, h2, h3, h4, h5, h6, h7, h8⟩ :=
    main_tick_args qsort event cpu buf read c b a h
  have e1 : fmt_d (-1) = ("-1").toList := by decide
  have e2 : fmt_llu 0 = ("0").toList := by decide
  have e3 : fmt_f 1 (Double.fin 0) = ("0.0").toList := by decide!
  have e4 : fmt_f 0 (Double.fin 0) = ("0").toList := by decide!
  refine ⟨?_, ?_, ?_, ?_⟩
  · intro hfail
    rw [read_memory_stats_fails read.mem hfail] at hmem
    simp only [Option.some.injEq] at hmem
    subst hmem
    simp only at h1 h2 h3 h4 h5
    unfold trigger_tokens
    rw [h1, h2, h3, h4, h5, e1, e2, e3, e4]
    simp only [List.mem_cons, true_or, or_true, and_self]
  · intro hgpu
    rw [read_gpu_utilization_unavailable read.gpu hgpu] at h6
    unfold trigger_tokens
    rw [h6, e1]
    simp only [List.mem_cons, true_or, or_true]
  · intro hcpu
    rw [read_temperatures_cpu_unavailable read.hid temps htemps hcpu] at h7
    unfold trigger_tokens
    rw [h7, e1]
    simp only [List.mem_cons, true_or, or_true]
  · intro hgt
    rw [read_temperatures_gpu_unavailable read.hid temps htemps hgt] at h8
    unfold trigger_tokens
    rw [h8, e1]
    simp only [List.mem_cons, true_or, or_true]

/-- Witness of `unavailable_metrics_reported`: the tick `tick_no_reading`, on
which the page size cannot be read, the accelerators yield nothing that is not
negative and no conforming sensor yields a positive reading. -/
theorem unavailable_metrics_reported_witness :
    ∃ (c : Cpu) (b : List Char) (a : TriggerArgs),
      main_tick insertion_qsort ("stats").toList (cpu_after ⟨1000, 500, 8000, 0⟩)
        (List.replicate 2048 NUL) tick_no_reading = some (c, b, a) ∧
      (("mem_used_percent").toList, ("-1").toList) ∈ trigger_tokens a ∧
      (("mem_used_bytes").toList, ("0").toList) ∈ trigger_tokens a ∧
      (("mem_total_bytes").toList, ("0").toList) ∈ trigger_tokens a ∧
      (("gpu_util").toList, ("-1").toList) ∈ trigger_tokens a ∧
      (("cpu_temp").toList, ("-1").toList) ∈ trigger_tokens a ∧
      (("gpu_temp").toList, ("-1").toList) ∈ trigger_tokens a := by
  obtain ⟨⟨c, b, a⟩, h⟩ := Option.isSome_iff_exists.mp
    (show (main_tick insertion_qsort ("stats").toList (cpu_after ⟨1000, 500, 8000, 0⟩)
      (List.replicate 2048 NUL) tick_no_reading).isSome = true by decide!)
  obtain ⟨hm, hg, hc, ht⟩ := unavailable_metrics_reported insertion_qsort ("stats").toList
    (cpu_after ⟨1000, 500, 8000, 0⟩) (List.replicate 2048 NUL) tick_no_reading c b a h
  obtain ⟨m1, m2, m3, _, _⟩ := hm (Or.inr (Or.inr rfl))
  refine ⟨c, b, a, h, m1, m2, m3, hg ?_, hc ?_, ht ?_⟩
  · intro l hl
    cases hl
    decide
  · intro l hl
    cases hl
    decide!
  · intro l hl
    cases hl
    decide!

/-! ## The sum of the loads and failed reads -/

theorem addInt_eq_some (a b s : ℤ) (h : addInt a b = some s) : s = a + b := by
  unfold addInt at h
  split_ifs at h
  simp only [Option.some.injEq] at h
  exact h.symm

theorem cpu_update_loads_sum (cpu c : Cpu) (h : cpu_update_loads cpu = some c) :
    c.total_load = c.user_load + c.sys_load := by
  unfold cpu_update_loads at h
  simp only at h
  split at h
  · exact absurd h (by simp)
  split at h
  · exact absurd h (by simp)
  split at h
  · exact absurd h (by simp)
  rename_i ht
  simp only [Option.some.injEq] at h
  rw [← h]
  exact addInt_eq_some _ _ _ ht

theorem cpu_update_sum (cpu c : Cpu) (stat : Option CpuTicks) (cores : Option CoreRead)
    (hinv : cpu.total_load = cpu.user_load + cpu.sys_load)
    (h : cpu_update cpu stat cores = some c) :
    c.total_load = c.user_load + c.sys_load := by
  cases stat with
  | none =>
    simp only [cpu_update, Option.some.injEq] at h
    rw [← h]
    exact hinv
  | some load =>
    unfold cpu_update at h
    simp only at h
    split at h
    · exact absurd h (by simp)
    rename_i cpu2 h2
    obtain ⟨_, _, _, f4, f5, f6⟩ := cpu_update_cores_frame _ _ _ h
    simp only at f4 f5 f6
    rw [f4, f5, f6]
    split_ifs at h2 with hp
    · exact cpu_update_loads_sum _ _ h2
    · simp only [Option.some.injEq] at h2
      rw [← h2]
      exact hinv

theorem cpu_run_sum : ∀ (steps : List (Option CpuTicks × Option CoreRead)) (cpu c : Cpu),
    cpu.total_load = cpu.user_load + cpu.sys_load → cpu_run cpu steps = some c →
    c.total_load = c.user_load + c.sys_load := by
  intro steps
  induction steps with
  | nil =>
    intro cpu c hinv h
    simp only [cpu_run, Option.some.injEq] at h
    rw [← h]
    exact hinv
  | cons s rest ih =>
    intro cpu c hinv h
    rw [cpu_run] at h
    split at h
    · rename_i c1 h1
      exact ih c1 c (cpu_update_sum cpu c1 s.1 s.2 hinv h1) h
    · exact absurd h (by simp)

/-- C22: after `cpu_init`, a baseline reading and a second reading with the
same counters, `cpu_update` divides 0.0 by 0.0 and converts the NaN to `int`
for `user_load` and for `sys_load`, which is undefined: the run has no defined
state, so `total_load = user_load + sys_load` does not hold in every state the
program reaches. Where both conversions yield the least `int`, the addition
`user_load + sys_load` overflows, and no `struct cpu` with these two loads has
a `total_load` that is their sum. -/
theorem cpu_run_identical_readings_breaks_sum :
    cpu_run (cpu_init cpu_boot)
        [(some ⟨10, 5, 100, 0⟩, none), (some ⟨10, 5, 100, 0⟩, none)] = none ∧
      percent (tick_delta 10 10) (add32 (add32 (tick_delta 5 5) (tick_delta 10 10))
        (tick_delta 100 100)) = none ∧
      addInt (-2 ^ 31) (-2 ^ 31) = none ∧
      ∀ c : Cpu, c.WF → c.user_load = -2 ^ 31 → c.sys_load = -2 ^ 31 →
        c.total_load ≠ c.user_load + c.sys_load := by
  refine ⟨by decide!, by decide!, by decide!, ?_⟩
  intro c hwf hu hs
  obtain ⟨_, _, ⟨ht1, _⟩, _⟩ := hwf
  rw [hu, hs]
  intro h
  rw [h] at ht1
  norm_num at ht1

/-- The part of C22 that holds: in every state reached from `cpu_init` by a
sequence of `cpu_update` calls whose conversions are defined, with successful
and failed reads in any order, `total_load` is `user_load + sys_load`. -/
theorem total_load_is_sum (mem : Cpu) (steps : List (Option CpuTicks × Option CoreRead))
    (c : Cpu) (h : cpu_run (cpu_init mem) steps = some c) :
    c.total_load = c.user_load + c.sys_load :=
  cpu_run_sum steps (cpu_init mem) c rfl h

/-- Witness of `total_load_is_sum`: the run `cpu_steps`, which ends with the
loads 28, 56 and 84. -/
theorem total_load_is_sum_witness :
    ∃ c, cpu_run (cpu_init cpu_boot) cpu_steps = some c ∧
      (c.user_load, c.sys_load, c.total_load) = (28, 56, 84) ∧
      c.total_load = c.user_load + c.sys_load := by
  obtain ⟨c, h⟩ := Option.isSome_iff_exists.mp
    (show (cpu_run (cpu_init cpu_boot) cpu_steps).isSome = true by decide!)
  have hv : (cpu_run (cpu_init cpu_boot) cpu_steps).map
      (fun c => (c.user_load, c.sys_load, c.total_load)) = some (28, 56, 84) := by decide!
  rw [h] at hv
  simp only [Option.map_some', Option.some.injEq] at hv
  exact ⟨c, h, hv, total_load_is_sum cpu_boot cpu_steps c h⟩

/-- C24: a failed read changes no derived state. When the aggregate read
fails, `cpu_update` returns the `struct cpu` as it was, whatever the per-core
read would have returned (it is not attempted); when the per-core read
fails, `cpu_update_cores` returns the `struct cpu` as it was, and so
`cpu_update` with a successful aggregate read leaves `ncores`, `core_loads`
and the per-core snapshot unchanged. -/
theorem failed_read_keeps_state (cpu : Cpu) (cores : Option CoreRead) (load : CpuTicks) :
    cpu_update cpu none cores = some cpu ∧
      cpu_update_cores cpu none = some cpu ∧
      ∀ c, cpu_update cpu (some load) none = some c →
        c.ncores = cpu.ncores ∧ c.core_loads = cpu.core_loads ∧
        c.prev_core_info = cpu.prev_core_info ∧ c.prev_core_count = cpu.prev_core_count ∧
        c.has_prev_core_info = cpu.has_prev_core_info := by
  refine ⟨rfl, rfl, ?_⟩
  intro c h
  unfold cpu_update at h
  simp only at h
  split at h
  · exact absurd h (by simp)
  rename_i cpu2 h2
  simp only [cpu_update_cores, Option.some.injEq] at h
  rw [← h]
  simp only
  split_ifs at h2 with hp
  · unfold cpu_update_loads at h2
    simp only at h2
    split at h2
    · exact absurd h2 (by simp)
    split at h2
    · exact absurd h2 (by simp)
    split at h2
    · exact absurd h2 (by simp)
    simp only [Option.some.injEq] at h2
    rw [← h2]
    exact ⟨rfl, rfl, rfl, rfl, rfl⟩
  · simp only [Option.some.injEq] at h2
    rw [← h2]
    exact ⟨rfl, rfl, rfl, rfl, rfl⟩

/-! ## Bounds of the percentages -/

theorem cpu_update_cores_bounded (cpu : Cpu) (r : CoreRead) (prev : List CpuTicks)
    (hhas : cpu.has_prev_core_info = true) (hprev : cpu.prev_core_info = some prev)
    (hlen : cpu.core_loads.length = MAX_CORES)
    (hcores : ∀ i,
      i < min (min (cpu.prev_core_count / PROCESSOR_CPU_LOAD_INFO_COUNT) r.ncores) MAX_CORES →
      ∃ cur prv, r.info[i]? = some cur ∧ prev[i]? = some prv ∧ cur.WF ∧ ticks_le prv cur ∧
        core_total cur prv < 2 ^ 32) :
    ∃ c, cpu_update_cores cpu (some r) = some c ∧
      ∀ i,
        i < min (min (cpu.prev_core_count / PROCESSOR_CPU_LOAD_INFO_COUNT) r.ncores) MAX_CORES →
        ∃ p : ℤ, c.core_loads[i]? = some p ∧ 0 ≤ p ∧ p ≤ 100 := by
  rw [cpu_update_cores_eq cpu r prev hhas hprev]
  generalize hn : min (min (cpu.prev_core_count / PROCESSOR_CPU_LOAD_INFO_COUNT) r.ncores)
    MAX_CORES = n at *
  have hn32 : n ≤ MAX_CORES := by rw [← hn]; exact min_le_right _ _
  have hdef : ∀ j ∈ List.range n, ∃ cur prv l, r.info[j]? = some cur ∧ prev[j]? = some prv ∧
      core_load cur prv = some l := by
    intro j hj
    obtain ⟨cur, prv, e1, e2, hwf, hle, hsum⟩ := hcores j (List.mem_range.mp hj)
    obtain ⟨p, hp, _⟩ := core_load_spec cur prv hwf hle hsum
    exact ⟨cur, prv, p, e1, e2, hp⟩
  obtain ⟨loads, hloads⟩ := cores_loop_defined r.info prev (List.range n) cpu.core_loads hdef
  rw [hloads]
  refine ⟨_, rfl, ?_⟩
  intro i hi
  obtain ⟨_, _, h3⟩ := cores_loop_spec r.info prev (List.range n) cpu.core_loads loads hloads
  obtain ⟨cur, prv, l, f1, f2, f3, f4⟩ := h3 (List.nodup_range n) i (List.mem_range.mpr hi)
  obtain ⟨cur2, prv2, g1, g2, hwf, hle, hsum⟩ := hcores i hi
  rw [f1] at g1
  rw [f2] at g2
  simp only [Option.some.injEq] at g1 g2
  subst g1 g2
  obtain ⟨p, hp, hp0, hp100, _⟩ := core_load_spec cur prv hwf hle hsum
  rw [hp] at f3
  simp only [Option.some.injEq] at f3
  subst f3
  exact ⟨p, f4 (by rw [hlen]; omega), hp0, hp100⟩

theorem cpu_update_aggregate (cpu : Cpu) (load : CpuTicks) (cores : Option CoreRead)
    (hprev : cpu.has_prev_load = true) (hwf : load.WF)
    (hu : cpu.prev_load.user ≤ load.user) (hs : cpu.prev_load.system ≤ load.system)
    (hi : cpu.prev_load.idle ≤ load.idle)
    (ht0 : 0 < (load.user - cpu.prev_load.user) + (load.system - cpu.prev_load.system)
      + (load.idle - cpu.prev_load.idle))
    (ht32 : (load.user - cpu.prev_load.user) + (load.system - cpu.prev_load.system)
      + (load.idle - cpu.prev_load.idle) < 2 ^ 32) :
    ∃ u s : ℤ, 0 ≤ u ∧ 0 ≤ s ∧ u + s ≤ 100 ∧
      cpu_update cpu (some load) cores =
        cpu_update_cores
          { cpu with
            load := load, prev_load := load, has_prev_load := true,
            user_load := u, sys_load := s, total_load := u + s } cores := by
  obtain ⟨hwu, hws, hwi, _⟩ := hwf
  generalize hdu : load.user - cpu.prev_load.user = du at *
  generalize hds : load.system - cpu.prev_load.system = ds at *
  generalize hdi : load.idle - cpu.prev_load.idle = di at *
  have e1 : tick_delta load.user cpu.prev_load.user = du := by
    rw [tick_delta_of_le _ _ hu hwu, hdu]
  have e2 : tick_delta load.system cpu.prev_load.system = ds := by
    rw [tick_delta_of_le _ _ hs hws, hds]
  have e3 : tick_delta load.idle cpu.prev_load.idle = di := by
    rw [tick_delta_of_le _ _ hi hwi, hdi]
  have e4 : add32 (add32 ds du) di = du + ds + di := by
    rw [add32_of_lt ds du (by omega), add32_of_lt _ _ (by omega)]
    omega
  obtain ⟨u, hpu, hu1, _, hu0, _⟩ := percent_spec du (du + ds + di) ht0 ht32 (by omega)
  obtain ⟨s, hps, hs1, _, hs0, _⟩ := percent_spec ds (du + ds + di) ht0 ht32 (by omega)
  have hsum : 100 * du / (du + ds + di) + 100 * ds / (du + ds + di) ≤ 100 := by
    have h1 := (div_add_bounds du ds (du + ds + di) ht0).1
    have h2 : 100 * (du + ds) / (du + ds + di) ≤ 100 := by
      apply Nat.div_le_of_le_mul
      omega
    omega
  have hus : u + s ≤ 100 := by omega
  refine ⟨u, s, hu0, hs0, hus, ?_⟩
  have hl : cpu_update_loads { cpu with load := load } =
      some { cpu with load := load, user_load := u, sys_load := s, total_load := u + s } := by
    unfold cpu_update_loads
    simp only [e1, e2, e3, e4, hpu, hps,
      addInt_of_bounds u s hu0 hs0 (by omega) (by omega)]
  unfold cpu_update
  simp only [hprev] at hl
  simp only [hprev, if_true, hl]

/-- C23: for consecutive readings with non-decreasing 32-bit counters, an
aggregate total that is positive and below `2 ^ 32`, and per-core totals below
`2 ^ 32` for every overlapping core, `cpu_update` returns with
`0 <= user_load`, `0 <= sys_load`, `user_load + sys_load = total_load <= 100`,
and `0 <= core_loads[i] <= 100` for every overlapping core `i`. -/
theorem cpu_update_bounded (cpu : Cpu) (load : CpuTicks) (cores : Option CoreRead)
    (hprev : cpu.has_prev_load = true) (hwf : load.WF)
    (hu : cpu.prev_load.user ≤ load.user) (hs : cpu.prev_load.system ≤ load.system)
    (hi : cpu.prev_load.idle ≤ load.idle)
    (ht0 : 0 < (load.user - cpu.prev_load.user) + (load.system - cpu.prev_load.system)
      + (load.idle - cpu.prev_load.idle))
    (ht32 : (load.user - cpu.prev_load.user) + (load.system - cpu.prev_load.system)
      + (load.idle - cpu.prev_load.idle) < 2 ^ 32)
    (hlen : cpu.core_loads.length = MAX_CORES)
    (hcores : ∀ r prev, cores = some r → cpu.has_prev_core_info = true →
      cpu.prev_core_info = some prev → ∀ i,
      i < min (min (cpu.prev_core_count / PROCESSOR_CPU_LOAD_INFO_COUNT) r.ncores) MAX_CORES →
      ∃ cur prv, r.info[i]? = some cur ∧ prev[i]? = some prv ∧ cur.WF ∧ ticks_le prv cur ∧
        core_total cur prv < 2 ^ 32) :
    ∃ c, cpu_update cpu (some load) cores = some c ∧
      0 ≤ c.user_load ∧ 0 ≤ c.sys_load ∧ c.user_load + c.sys_load = c.total_load ∧
      c.total_load ≤ 100 ∧
      ∀ r prev, cores = some r → cpu.has_prev_core_info = true →
        cpu.prev_core_info = some prev → ∀ i,
        i < min (min (cpu.prev_core_count / PROCESSOR_CPU_LOAD_INFO_COUNT) r.ncores) MAX_CORES →
        ∃ p : ℤ, c.core_loads[i]? = some p ∧ 0 ≤ p ∧ p ≤ 100 := by
  obtain ⟨u, s, hu0, hs0, hus, hupd⟩ :=
    cpu_update_aggregate cpu load cores hprev hwf hu hs hi ht0 ht32
  rw [hupd]
  have hagg : ∀ c, cpu_update_cores
      { cpu with
        load := load, prev_load := load, has_prev_load := true,
        user_load := u, sys_load := s, total_load := u + s } cores = some c →
      0 ≤ c.user_load ∧ 0 ≤ c.sys_load ∧ c.user_load + c.sys_load = c.total_load ∧
        c.total_load ≤ 100 := by
    intro c hc
    obtain ⟨_, _, _, f4, f5, f6⟩ := cpu_update_cores_frame _ _ _ hc
    simp only at f4 f5 f6
    rw [f4, f5, f6]
    exact ⟨hu0, hs0, rfl, hus⟩
  cases cores with
  | none =>
    obtain ⟨a1, a2, a3, a4⟩ := hagg _ rfl
    refine ⟨_, rfl, a1, a2, a3, a4, ?_⟩
    intro r prev hr
    exact absurd hr (by simp)
  | some r =>
    by_cases hfirst : cpu.has_prev_core_info = true ∧ ∃ prev, cpu.prev_core_info = some prev
    · obtain ⟨hhas, prev, hp⟩ := hfirst
      obtain ⟨c, hc, hb⟩ := cpu_update_cores_bounded
        { cpu with
          load := load, prev_load := load, has_prev_load := true,
          user_load := u, sys_load := s, total_load := u + s } r prev hhas hp hlen
        (hcores r prev rfl hhas hp)
      obtain ⟨a1, a2, a3, a4⟩ := hagg c hc
      refine ⟨c, hc, a1, a2, a3, a4, ?_⟩
      intro r' prev' hr' _ hp' i hi'
      simp only [Option.some.injEq] at hr'
      subst hr'
      exact hb i hi'
    · have h1 : cpu.has_prev_core_info = false ∨ cpu.prev_core_info = none := by
        by_cases hh : cpu.has_prev_core_info = true
        · right
          cases hpc : cpu.prev_core_info with
          | none => rfl
          | some prev => exact absurd ⟨hh, prev, hpc⟩ hfirst
        · left
          cases hpc : cpu.has_prev_core_info
          · rfl
          · exact absurd hpc hh
      have hc := cpu_update_cores_first
        { cpu with
          load := load, prev_load := load, has_prev_load := true,
          user_load := u, sys_load := s, total_load := u + s } r h1
      obtain ⟨a1, a2, a3, a4⟩ := hagg _ hc
      refine ⟨_, hc, a1, a2, a3, a4, ?_⟩
      intro r' prev' _ hhas hp'
      exact absurd ⟨hhas, prev', hp'⟩ hfirst

/-- Witness of `cpu_update_bounded`: from `cpu_tracked`, the aggregate deltas
user 29, system 57, idle 14 and two cores with the deltas (10, 0, 90, 0) and
(29, 57, 14, 0). -/
theorem cpu_update_bounded_witness :
    ∃ c, cpu_update cpu_tracked (some ⟨1041, 562, 8097, 0⟩)
        (some ⟨2, [⟨110, 50, 890, 0⟩, ⟨229, 117, 714, 5⟩], 8⟩) = some c ∧
      0 ≤ c.user_load ∧ 0 ≤ c.sys_load ∧ c.user_load + c.sys_load = c.total_load ∧
      c.total_load ≤ 100 ∧
      ∀ r prev, some (⟨2, [⟨110, 50, 890, 0⟩, ⟨229, 117, 714, 5⟩], 8⟩ : CoreRead) = some r →
        cpu_tracked.has_prev_core_info = true →
        cpu_tracked.prev_core_info = some prev → ∀ i,
        i < min (min (cpu_tracked.prev_core_count / PROCESSOR_CPU_LOAD_INFO_COUNT) r.ncores)
          MAX_CORES →
        ∃ p : ℤ, c.core_loads[i]? = some p ∧ 0 ≤ p ∧ p ≤ 100 :=
  cpu_update_bounded cpu_tracked ⟨1041, 562, 8097, 0⟩
    (some ⟨2, [⟨110, 50, 890, 0⟩, ⟨229, 117, 714, 5⟩], 8⟩) rfl
    (by unfold CpuTicks.WF; norm_num) (by decide) (by decide) (by decide) (by decide)
    (by decide) (by decide)
    (by
      intro r prev hr _ hp i hi
      cases hr
      cases hp
      have hi2 : i < 2 := lt_of_lt_of_le hi (by decide)
      interval_cases i
      · refine ⟨⟨110, 50, 890, 0⟩, ⟨100, 50, 800, 0⟩, rfl, rfl, ?_, ?_, ?_⟩
        · unfold CpuTicks.WF; norm_num
        · unfold ticks_le; norm_num
        · unfold core_total; norm_num
      · refine ⟨⟨229, 117, 714, 5⟩, ⟨200, 60, 700, 5⟩, rfl, rfl, ?_, ?_, ?_⟩
        · unfold CpuTicks.WF; norm_num
        · unfold ticks_le; norm_num
        · unfold core_total; norm_num)

/-! ## The division by `1024 ^ 3` -/

end Sketchybar
